import Mathlib

/-!
# A mark-and-sweep collector for cyclic object graphs (`GC.hpp`)

Shallow embedding of `include/GC.hpp` and of the sample program `src/main.cpp`.

* Addresses of tracked allocations (`void *`) and storage locations of handles (`PtrBase *`)
  are natural numbers.
* `nodes` (`std::unordered_map<void *, PointerData>`) is an association list; the order of the
  list is the iteration order of the container.  A lookup takes the first entry for a key.
* A record reference (`PointerData *`, the field `_ptr_data` of a handle) points into the map
  entry of a key and stays valid until that entry is erased; it is represented by the key.
  Following a reference whose entry has been erased has no defined behaviour in the source; the
  embedding skips such a reference.
* `PointerOperations<T, Deleter>` is identified by the pair of a type and a release strategy.
  What the host program supplies for them (`PtrTrait<T>::visit` and the body of the release
  strategy, which runs the destructor of the object) is collected in a `Program`.
* Host code (constructor bodies run by `Ptr<T>::make`, release strategies run by the sweep) is a
  list of handle operations `Cmd`.  A release strategy may construct, assign and destroy
  handles and may register allocations; it cannot call `collect`.
* The recursion of the mark phase carries a bound on its depth; `collect` uses the number of
  records plus one, and `visit_fuel_irrelevant` shows that no larger bound changes the result.
* The sweep loop iterates over the container while release strategies run.  The entries that
  the registry has when the loop starts are visited in the order of the list (`sweep`).  Where
  `std::unordered_map` places a new entry in its iteration order is unspecified, and the
  constructor of `PointerData` leaves `visited` uninitialised; whether the loop still reaches,
  in the same round, an entry that a release strategy registers and finds its mark bit clear
  is therefore a parameter of the embedding (`Program.ahead`).  Such entries are visited after
  the entries present at the start (`sweepLive`).  An insertion that makes the container rehash
  invalidates the iterator of the loop and has no defined behaviour in the source.
* The loop `while (collect)` and its sweep loop need not terminate, so `collect` takes a bound
  and returns `none` when the bound is reached: the bound limits the number of rounds and, in
  each round, the number of entries visited in the round in which they are registered.  Next
  to the final state `collect` returns the list of the keys on which `deletePointer` has been
  called, in order.
* `Ptr<T>::make` restores the flag `is_root` after `new T(...)` has returned; when the
  constructor exits by an exception the assignment is not reached (`Cmd.makeThrow`).
-/

namespace GC

/-- Address of a tracked allocation (`void *`). -/
abbrev Addr := Nat

/-- Storage location of a handle (`PtrBase *`). -/
abbrev HandleId := Nat

/-- A tracked type `T`, the first argument of `PointerOperations<T, Deleter>`. -/
abbrev TypeId := Nat

/-- A release strategy, the second argument of `PointerOperations<T, Deleter>`. -/
abbrev DeleterId := Nat

/-- The type-erased operations of a record: `PointerOperations<T, Deleter>`. -/
structure PointerOperations where
  type : TypeId
  deleter : DeleterId
deriving DecidableEq, Repr

/-- The record of a tracked allocation: `struct PointerData`. -/
structure PointerData where
  ptr : Addr
  visited : Bool
  operations : PointerOperations
deriving DecidableEq, Repr

/-- A handle `Ptr<T>`: the target `_ptr` and the record reference `_ptr_data`
(`none` is `nullptr`). -/
structure Handle where
  ptr : Option Addr
  ptr_data : Option Addr
deriving DecidableEq, Repr

/-- The global state of the collector (`nodes`, `roots`, `is_root`) together with the memory
that holds the handles. -/
structure GCState where
  nodes : List (Addr × PointerData)
  roots : List HandleId
  is_root : Bool
  handles : HandleId → Handle

/-- Handle operations of host code; the first argument is the handle operated on (`this`). -/
inductive Cmd where
  /-- The constructor `Ptr()`. -/
  | ctorDefault (h : HandleId)
  /-- The constructor `Ptr(std::nullptr_t)`. -/
  | ctorNull (h : HandleId)
  /-- The constructor `Ptr(U *ptr)`. -/
  | ctorPtr (h : HandleId) (p : Option Addr) (T : TypeId)
  /-- The constructors `Ptr(Ptr const &r)` and `Ptr(Ptr<U> const &r)`. -/
  | ctorCopy (h r : HandleId)
  /-- The constructors `Ptr(Ptr &&r)` and `Ptr(Ptr<U> &&r)`. -/
  | ctorMove (h r : HandleId)
  /-- The constructor `Ptr(std::unique_ptr<U, Deleter> &&r)`; `p` is the pointer released
  by `r` and `d` its release strategy. -/
  | ctorUnique (h : HandleId) (p : Option Addr) (T : TypeId) (d : DeleterId)
  /-- The destructor `~Ptr()`. -/
  | dtor (h : HandleId)
  /-- The assignment `operator=(std::nullptr_t)`. -/
  | assignNull (h : HandleId)
  /-- The assignments `operator=(Ptr const &r)` and `operator=(Ptr<U> const &r)`. -/
  | assignCopy (h r : HandleId)
  /-- The assignments `operator=(Ptr &&r)` and `operator=(Ptr<U> &&r)`. -/
  | assignMove (h r : HandleId)
  /-- The assignment `operator=(std::unique_ptr<U, Deleter> &&r)`. -/
  | assignUnique (h : HandleId) (p : Option Addr) (T : TypeId) (d : DeleterId)
  /-- The member `reset()`. -/
  | reset (h : HandleId)
  /-- The member `reset(U *ptr)`. -/
  | resetPtr (h : HandleId) (p : Option Addr) (T : TypeId)
  /-- The member `reset(U *ptr, Deleter d)`. -/
  | resetPtrDel (h : HandleId) (p : Option Addr) (T : TypeId) (d : DeleterId)
  /-- The member `swap(Ptr &r)`. -/
  | swap (h r : HandleId)
  /-- The factory `Ptr<T>::make(args...)`: `t` is the address returned by `new T`, `body` the handle
  operations of the constructor of `T`, `h` the handle that receives the result. -/
  | make (h : HandleId) (t : Addr) (T : TypeId) (body : List Cmd)
  /-- The factory `Ptr<T>::make(args...)` when `new T(args...)` exits by an exception, which the
  caller of the factory catches: `body` are the handle operations of the constructor of `T` up
  to the exception and of the destructors of the members it had constructed.  The statement
  `detail::is_root = old_is_root` is not reached and no handle is returned. -/
  | makeThrow (body : List Cmd)

/-- What is fixed outside the collector: what the host program supplies for its tracked types,
and where the container places a new entry. -/
structure Program where
  /-- The traversal `PtrTrait<T>::visit(self, visitor)`: the handles the visitor is called on. -/
  visit : TypeId → Addr → List HandleId
  /-- The release strategy `std::default_delete<T>`, the default argument of `registerNode`. -/
  default_delete : TypeId → DeleterId
  /-- The call `_deleter(ptr)`: the handle operations of the release strategy (for `default_delete`
  those of the destructor of the object at `ptr`). -/
  deletePointer : DeleterId → Addr → List Cmd
  /-- Whether the sweep loop, while its iterator is at the entry of key `k`, still reaches in the
  same round the entry that the release strategy of `k` registers for `a`, and reads its
  uninitialised mark bit as clear: `ahead k a`. -/
  ahead : Addr → Addr → Bool

/-! ## The registry `nodes` -/

/-- The lookup `nodes.find(a)`: the record held for key `a`. -/
def findNode : List (Addr × PointerData) → Addr → Option PointerData
  | [], _ => none
  | (k, r) :: ns, a => if k = a then some r else findNode ns a

/-- The insertion `nodes.insert` of the pair of `a` and `r`: no effect when the key is present. -/
def insertNode (ns : List (Addr × PointerData)) (a : Addr) (r : PointerData) :
    List (Addr × PointerData) :=
  match findNode ns a with
  | some _ => ns
  | none => (a, r) :: ns

/-- The removal `nodes.erase(a)`. -/
def eraseNode (ns : List (Addr × PointerData)) (a : Addr) : List (Addr × PointerData) :=
  ns.filter (fun e => decide (e.1 ≠ a))

/-- Assignment to the field `visited` of the record of key `a`. -/
def setVisited (ns : List (Addr × PointerData)) (a : Addr) (b : Bool) :
    List (Addr × PointerData) :=
  ns.map (fun e => if e.1 = a then (e.1, { e.2 with visited := b }) else e)

/-- The keys of the registry in iteration order. -/
def keys (ns : List (Addr × PointerData)) : List Addr := ns.map Prod.fst

/-! ## Roots and registration -/

/-- The null handle value. -/
def Handle.null : Handle := ⟨none, none⟩

/-- Write `v` to the handle stored at `h`. -/
def setHandle (h : HandleId) (v : Handle) (s : GCState) : GCState :=
  { s with handles := fun x => if x = h then v else s.handles x }

/-- Assignment to the flag `is_root`. -/
def setIsRoot (b : Bool) (s : GCState) : GCState :=
  { s with is_root := b }

/-- The function `registerRoot(root)`. -/
def registerRoot (root : HandleId) (s : GCState) : GCState :=
  if s.is_root then { s with roots := s.roots.insert root } else s

/-- The function `removeRoot(root)`. -/
def removeRoot (root : HandleId) (s : GCState) : GCState :=
  { s with roots := s.roots.filter (fun x => decide (x ≠ root)) }

/-- The function `registerNode(ptr, d)`: the traversal of `ptr` removes every enumerated handle from the root
set, then the record is inserted.  The result of the source function is the reference to the
record of `ptr`, which is `ptr` itself here.  The source leaves `visited` of a new record
uninitialised.  The mark phase assigns it before reading it; the sweep loop reads it
unassigned only in the entry of a record that a release strategy has registered during the
same loop, which `Program.ahead` accounts for. -/
def registerNode (P : Program) (ptr : Addr) (T : TypeId) (d : DeleterId) (s : GCState) :
    GCState :=
  let s1 := (P.visit T ptr).foldl (fun s f => removeRoot f s) s
  { s1 with nodes := insertNode s1.nodes ptr ⟨ptr, false, ⟨T, d⟩⟩ }

/-- The common part of construction, assignment and reset from a raw pointer: sets `_ptr`, and
`_ptr_data` to the registered record or to null. -/
def adopt (P : Program) (h : HandleId) (p : Option Addr) (T : TypeId) (d : DeleterId)
    (s : GCState) : GCState :=
  match p with
  | some a => setHandle h ⟨some a, some a⟩ (registerNode P a T d s)
  | none => setHandle h Handle.null s

/-! ## Handle operations -/

/-- The constructor `Ptr<T>::Ptr(U *ptr)`. -/
def ptrCtor (P : Program) (h : HandleId) (p : Option Addr) (T : TypeId) (s : GCState) :
    GCState :=
  adopt P h p T (P.default_delete T) (registerRoot h (setHandle h ⟨p, none⟩ s))

mutual
/-- The effect of one handle operation. -/
def exec (P : Program) : Cmd → GCState → GCState
  | .ctorDefault h, s => registerRoot h (setHandle h Handle.null s)
  | .ctorNull h, s => registerRoot h (setHandle h Handle.null s)
  | .ctorPtr h p T, s => ptrCtor P h p T s
  | .ctorCopy h r, s => registerRoot h (setHandle h (s.handles r) s)
  | .ctorMove h r, s =>
      setHandle r Handle.null (registerRoot h (setHandle h (s.handles r) s))
  | .ctorUnique h p T d, s =>
      adopt P h p T d (registerRoot h (setHandle h Handle.null s))
  | .dtor h, s => removeRoot h s
  | .assignNull h, s => setHandle h Handle.null s
  | .assignCopy h r, s => setHandle h (s.handles r) s
  | .assignMove h r, s => setHandle r Handle.null (setHandle h (s.handles r) s)
  | .assignUnique h p T d, s => adopt P h p T d s
  | .reset h, s => setHandle h Handle.null s
  | .resetPtr h p T, s => adopt P h p T (P.default_delete T) s
  | .resetPtrDel h p T d, s => adopt P h p T d s
  | .swap h r, s => setHandle r (s.handles h) (setHandle h (s.handles r) s)
  | .make h t T body, s =>
      let old_is_root := s.is_root
      let s1 := execs P body (setIsRoot false s)
      ptrCtor P h (some t) T (setIsRoot old_is_root s1)
  | .makeThrow body, s => execs P body (setIsRoot false s)
/-- The effect of a sequence of handle operations. -/
def execs (P : Program) : List Cmd → GCState → GCState
  | [], s => s
  | c :: cs, s => execs P cs (exec P c s)
end

/-! ## The collector -/

/-- The function `PointerData::visit` together with `PointerOperations<T, Deleter>::visit`:
when the record of `a` is unmarked it is marked and the record of every handle enumerated by
the traversal is visited in turn.  Only `nodes` changes, so the handle memory `hs` is a parameter.  The first
argument bounds the depth of the recursion. -/
def PointerData.visit (P : Program) (hs : HandleId → Handle) :
    Nat → List (Addr × PointerData) → Addr → List (Addr × PointerData)
  | 0, ns, _ => ns
  | fuel + 1, ns, a =>
    match findNode ns a with
    | none => ns
    | some r =>
      if r.visited then ns
      else
        (P.visit r.operations.type r.ptr).foldl
          (fun ns f =>
            match (hs f).ptr_data with
            | none => ns
            | some b => PointerData.visit P hs fuel ns b)
          (setVisited ns a true)

/-- The first loop of `collect`: `visited = false` in every record. -/
def resetMarks (ns : List (Addr × PointerData)) : List (Addr × PointerData) :=
  ns.map (fun e => (e.1, { e.2 with visited := false }))

/-- The second loop of `collect`: the record of every root handle is visited.  The depth of
the recursion of `PointerData.visit` never exceeds the number of records by more than one
(`visit_fuel_irrelevant`). -/
def markRoots (P : Program) (hs : HandleId → Handle) (roots : List HandleId)
    (ns : List (Addr × PointerData)) : List (Addr × PointerData) :=
  roots.foldl
    (fun ns root =>
      match (hs root).ptr_data with
      | none => ns
      | some a => PointerData.visit P hs (ns.length + 1) ns a)
    ns

/-- Reset and mark: the state in front of the sweep loop. -/
def mark (P : Program) (s : GCState) : GCState :=
  { s with nodes := markRoots P s.handles s.roots (resetMarks s.nodes) }

/-- The branch `if (!it->second.visited)` of the sweep loop at the entry of key `k` with record
`r`: `deletePointer(it->first)`, then `nodes.erase(it)`. -/
def deleteEntry (P : Program) (r : PointerData) (k : Addr) (s : GCState) : GCState :=
  let s1 := execs P (P.deletePointer r.operations.deleter k) s
  { s1 with nodes := eraseNode s1.nodes k }

/-- One iteration of the sweep loop, at the entry of key `k`: an unmarked record has its release
strategy run on its key and is erased.  The second component collects the keys on which
`deletePointer` has been called. -/
def sweepStep (P : Program) (acc : GCState × List Addr) (k : Addr) : GCState × List Addr :=
  match findNode acc.1.nodes k with
  | none => acc
  | some r => if r.visited then acc else (deleteEntry P r k acc.1, acc.2 ++ [k])

/-- The sweep loop of `collect` over the entries the registry has when the loop starts, in the
order of the list.  The loop goes on with the entries that release strategies have registered
ahead of its iterator (`sweepLive`). -/
def sweep (P : Program) (s : GCState) : GCState × List Addr :=
  (keys s.nodes).foldl (sweepStep P) (s, [])

/-- One round of the `while (collect)` loop up to the end of the entries that the registry has
when the sweep loop starts: the whole round when no release strategy registers an entry ahead
of the iterator. -/
def collectRound (P : Program) (s : GCState) : GCState × List Addr :=
  sweep P (mark P s)

/-- The keys that have a record in `s1` and none in `s`, oldest first: the keys registered
between the two states. -/
def registeredBy (s s1 : GCState) : List Addr :=
  ((keys s1.nodes).filter (fun a => decide (a ∉ keys s.nodes))).reverse

/-- The keys that the iteration of the sweep loop at the entry of key `k` adds to the entries
still ahead of the iterator: those that the release strategy of `k` registers and that the
container places ahead. -/
def stepAhead (P : Program) (acc : GCState × List Addr) (k : Addr) : List Addr :=
  match findNode acc.1.nodes k with
  | none => []
  | some r =>
    if r.visited then []
    else (registeredBy acc.1 (execs P (P.deletePointer r.operations.deleter k) acc.1)).filter
      (P.ahead k)

/-- The sweep loop `for (auto it = nodes.begin(); it != nodes.end();)` with the keys `todo` ahead
of the iterator: the entry at the iterator is handled by `sweepStep`, and the entries that its
release strategy registers ahead of the iterator are visited after the others.  The first
argument bounds the number of iterations. -/
def sweepLive (P : Program) :
    Nat → List Addr → GCState × List Addr → Option (GCState × List Addr)
  | _, [], acc => some acc
  | 0, _ :: _, _ => none
  | fuel + 1, k :: todo, acc =>
    sweepLive P fuel (todo ++ stepAhead P acc k) (sweepStep P acc k)

/-- One round of the `while (collect)` loop: reset, mark and the sweep loop.  The bound `fuel`
limits the number of entries visited in the round in which they are registered. -/
def liveRound (P : Program) (fuel : Nat) (s : GCState) : Option (GCState × List Addr) :=
  sweepLive P ((mark P s).nodes.length + fuel) (keys (mark P s).nodes) (mark P s, [])

/-- The loop `while (collect)`, with a bound: `none` when a round does not end within the bound
or the bound on the number of rounds is reached with the flag `collect` still set.  The second
component collects the keys on which `deletePointer` has been called, in order. -/
def collectLoop (P : Program) : Nat → GCState → List Addr → Option (GCState × List Addr)
  | 0, _, _ => none
  | fuel + 1, s, log =>
    match liveRound P fuel s with
    | none => none
    | some r => if r.2 = [] then some (r.1, log) else collectLoop P fuel r.1 (log ++ r.2)

/-- The function `Operations::collect`, with the bound `fuel`. -/
def collect (P : Program) (fuel : Nat) (s : GCState) : Option (GCState × List Addr) :=
  collectLoop P fuel s []

/-! ## The sample program `main.cpp` -/

/-- The handle `next` of the object `S` at address `self`. -/
def S.next (self : Addr) : HandleId := self + 1

/-- The program of `main.cpp`: the only tracked type is `S` (type `0`), traversed by
`PtrTrait<S>::visit`, released by `std::default_delete<S>` (release strategy `0`), whose
destructor `~S` destroys the member `next`. -/
def mainProgram : Program where
  visit := fun _ self => [S.next self]
  default_delete := fun _ => 0
  deletePointer := fun _ self => [Cmd.dtor (S.next self)]
  ahead := fun _ _ => false

/-- The state at the start of the program: `nodes` and `roots` empty, `is_root = true`. -/
def GCState.init : GCState := ⟨[], [], true, fun _ => Handle.null⟩


/-! ## Reachability and the specification of the mark phase -/

/-- The mark bit of the record of `a` (`false` when `a` has no record). -/
def isMarked (ns : List (Addr × PointerData)) (a : Addr) : Bool :=
  match findNode ns a with
  | some r => r.visited
  | none => false

/-- The traversal of the record of `a` enumerates a handle whose record reference is `b`. -/
def edge (P : Program) (hs : HandleId → Handle) (ns : List (Addr × PointerData))
    (a b : Addr) : Prop :=
  ∃ r f, findNode ns a = some r ∧ f ∈ P.visit r.operations.type r.ptr ∧
    (hs f).ptr_data = some b

/-- A record reachable from a handle of the root set through handles enumerated by the
traversals. -/
inductive Reachable (P : Program) (s : GCState) : Addr → Prop
  | root {h a} : h ∈ s.roots → (s.handles h).ptr_data = some a → a ∈ keys s.nodes →
      Reachable P s a
  | step {a b} : Reachable P s a → edge P s.handles s.nodes a b → b ∈ keys s.nodes →
      Reachable P s b

/-- Number of entries whose mark bit is clear. -/
def unmarkedCount (ns : List (Addr × PointerData)) : Nat :=
  (ns.filter (fun e => !e.2.visited)).length

/-- The entry `e2` is `e1` with the mark bit possibly set. -/
def EntryLe (e1 e2 : Addr × PointerData) : Prop :=
  e2.1 = e1.1 ∧ e2.2.ptr = e1.2.ptr ∧ e2.2.operations = e1.2.operations ∧
    (e1.2.visited = true → e2.2.visited = true)

/-- The registry `ns2` is `ns1` with some more mark bits set. -/
def Ext (ns1 ns2 : List (Addr × PointerData)) : Prop := List.Forall₂ EntryLe ns1 ns2

/-- An edge of the object graph that ends in a registered record. -/
def E (P : Program) (hs : HandleId → Handle) (ns : List (Addr × PointerData))
    (a b : Addr) : Prop :=
  edge P hs ns a b ∧ b ∈ keys ns

/-- Every registered record that the traversal of `x` leads to is marked. -/
def Closed (P : Program) (hs : HandleId → Handle) (ns : List (Addr × PointerData))
    (x : Addr) : Prop :=
  ∀ y, E P hs ns x y → isMarked ns y = true

/-- What a marking pass started at the records `ts` has done when it turned `ns` into `ns2`. -/
def MarkSpec (P : Program) (hs : HandleId → Handle) (ns ns2 : List (Addr × PointerData))
    (ts : List Addr) : Prop :=
  Ext ns ns2 ∧ (∀ b ∈ ts, b ∈ keys ns → isMarked ns2 b = true) ∧
    ∀ x, isMarked ns2 x = true → isMarked ns x = false →
      Closed P hs ns2 x ∧ ∃ b ∈ ts, b ∈ keys ns ∧ Relation.ReflTransGen (E P hs ns) b x

/-- Whether the operation is a call of the factory. -/
def Cmd.isMake : Cmd → Bool
  | .make _ _ _ _ => true
  | .makeThrow _ => true
  | _ => false

/-- The registry after an operation holds every record it held before, unchanged. -/
def NodesLe (ns1 ns2 : List (Addr × PointerData)) : Prop :=
  ∀ a r, findNode ns1 a = some r → findNode ns2 a = some r

/-- No release strategy of the program registers an allocation: running it leaves `nodes` as it
is. -/
def Program.KeepsRegistry (P : Program) : Prop :=
  ∀ d a s, (execs P (P.deletePointer d a) s).nodes = s.nodes


/-! ## Programs and states used as concrete inputs -/

/-- A record that is not marked, for the type `T` and the release strategy `d`. -/
def record (a : Addr) (T : TypeId) (d : DeleterId) : PointerData := ⟨a, false, ⟨T, d⟩⟩

/-- A program in which the object of release strategy `1` owns the handle `7`, which its
traversal does not enumerate; its destructor destroys the handle. -/
def ownerProgram : Program where
  visit := fun _ _ => []
  default_delete := fun _ => 0
  deletePointer := fun d _ => if d = 1 then [Cmd.dtor 7] else []
  ahead := fun _ _ => false

/-- The object at `10` is unreachable; the object at `20` is reachable only from the root
handle `7`, which the object at `10` owns. -/
def ownerState : GCState :=
  ⟨[(10, record 10 0 1), (20, record 20 0 0)], [7], true,
    fun h => if h = 7 then ⟨some 20, some 20⟩ else Handle.null⟩

/-- The handle operations of `main.cpp` up to the first call of `collect`: the handle `s` is at
`R`, the object `A` at `a`, the temporary that holds the result of the second call of the
factory at `tmp`, the object `B` at `b`.  The constructor of `S` constructs the member `next`
with `Ptr()`. -/
def mainBuildAt (R tmp : HandleId) (a b : Addr) : List Cmd :=
  [Cmd.make R a 0 [Cmd.ctorDefault (S.next a)],
   Cmd.make tmp b 0 [Cmd.ctorDefault (S.next b)],
   Cmd.assignMove (S.next a) tmp,
   Cmd.dtor tmp,
   Cmd.assignCopy (S.next b) R]

/-- The state of `main.cpp` in front of its first call of `collect`. -/
def mainStateAt (R tmp : HandleId) (a b : Addr) : GCState :=
  execs mainProgram (mainBuildAt R tmp a b) GCState.init

/-- The state of `main.cpp` in front of its second call of `collect`: after the first call,
which leaves the state of its mark phase, and `s = nullptr`. -/
def mainState2At (R tmp : HandleId) (a b : Addr) : GCState :=
  exec mainProgram (Cmd.assignNull R) (mark mainProgram (mainStateAt R tmp a b))

/-- An instance of `mainBuildAt`. -/
def mainBuild : List Cmd := mainBuildAt 1 2 10 20

/-- The state of `main.cpp` in front of the first call of `collect`. -/
def mainState : GCState := execs mainProgram mainBuild GCState.init

/-- The state of `main.cpp` in front of its second call of `collect`: after the first call,
which leaves the state of its mark phase, and `s = nullptr`. -/
def mainState2 : GCState := exec mainProgram (Cmd.assignNull 1) (mark mainProgram mainState)

/-- The state of `main.cpp` in front of its first `collect` when the program has built a third
object, at `30`, and has set the handle `3` that referred to it to null. -/
def mainStateGarbage : GCState :=
  execs mainProgram
    (mainBuild ++ [Cmd.make 3 30 0 [Cmd.ctorDefault (S.next 30)], Cmd.assignNull 3])
    GCState.init

/-- A program in which the release strategy `1` constructs the handle `9` from a pointer to a new
object at `2`, and the container places the new entry ahead of the iterator of the sweep
loop. -/
def lateRootProgram : Program where
  visit := fun _ _ => []
  default_delete := fun _ => 0
  deletePointer := fun d _ => if d = 1 then [Cmd.ctorPtr 9 (some 2) 0] else []
  ahead := fun _ _ => true

/-- A registry of one unreachable record, at `0`, with the release strategy `1`. -/
def lateRootState : GCState :=
  ⟨[(0, record 0 0 1)], [], true, fun _ => Handle.null⟩

/-- A program in which the destructor of the object at `0` constructs the handle `8` from a
pointer to the object at `1`, and the destructor of the object at `1` the handle `9` from a
pointer to the object at `0`. -/
def resurrectProgram : Program where
  visit := fun _ _ => []
  default_delete := fun _ => 0
  deletePointer := fun _ k => [Cmd.ctorPtr (8 + k) (some (1 - k)) 0]
  ahead := fun _ _ => false

/-- A registry of two unreachable records, at `a` and at `b`, in this order. -/
def resurrectState (a b : Addr) : GCState :=
  ⟨[(a, record a 0 0), (b, record b 0 0)], [], true, fun _ => Handle.null⟩


/-! ## Handles constructed by host code -/

mutual
/-- The handles that an operation constructs: the handle of a constructor call, and for a call
of the factory the handle that receives the result together with the handles constructed by
the constructor body. -/
def Cmd.constructs : Cmd → List HandleId
  | .ctorDefault h => [h]
  | .ctorNull h => [h]
  | .ctorPtr h _ _ => [h]
  | .ctorCopy h _ => [h]
  | .ctorMove h _ => [h]
  | .ctorUnique h _ _ _ => [h]
  | .make h _ _ body => h :: constructsAll body
  | .makeThrow body => constructsAll body
  | .dtor _ => []
  | .assignNull _ => []
  | .assignCopy _ _ => []
  | .assignMove _ _ => []
  | .assignUnique _ _ _ _ => []
  | .reset _ => []
  | .resetPtr _ _ _ => []
  | .resetPtrDel _ _ _ _ => []
  | .swap _ _ => []
/-- The handles that a sequence of operations constructs. -/
def constructsAll : List Cmd → List HandleId
  | [] => []
  | c :: cs => c.constructs ++ constructsAll cs
end

mutual
/-- Whether every constructor that the operation has the factory run returns: no call of the
factory in it exits by an exception. -/
def Cmd.throwFree : Cmd → Bool
  | .make _ _ _ body => throwFreeAll body
  | .makeThrow _ => false
  | _ => true
/-- Whether no call of the factory in the sequence exits by an exception. -/
def throwFreeAll : List Cmd → Bool
  | [] => true
  | c :: cs => c.throwFree && throwFreeAll cs
end


/-! ## The history of the handles

The invariant of the root set in the data model of the spec speaks about the past of a handle:
whether it was constructed while the root-registration flag was set, and whether it has been
destroyed since.  The definitions of this section record that past next to the state of the
collector.  They follow the words of the spec, not the source; they read the state (for the
flag) and never change it. -/

/-- What has happened to the handles so far. -/
structure History where
  /-- The handles that were constructed while the flag was set and have not been destroyed
  since. -/
  born : List HandleId
  /-- The handles that the traversal of a registration has enumerated since they were last
  constructed with the flag set. -/
  stripped : List HandleId

/-- A handle is constructed at `h` while the flag has the value `flag`. -/
def History.construct (flag : Bool) (h : HandleId) (H : History) : History :=
  if flag then ⟨H.born.insert h, H.stripped.filter (fun x => decide (x ≠ h))⟩ else H

/-- The handle at `h` is destroyed. -/
def History.destroy (h : HandleId) (H : History) : History :=
  ⟨H.born.filter (fun x => decide (x ≠ h)), H.stripped⟩

/-- The traversal of a registration enumerates the handles `fs`. -/
def History.strip (fs : List HandleId) (H : History) : History :=
  ⟨H.born, fs ++ H.stripped⟩

/-- A registration of the pointer `p` with the type `T` takes place (none for a null
pointer). -/
def History.adopted (P : Program) (p : Option Addr) (T : TypeId) (H : History) : History :=
  match p with
  | some a => H.strip (P.visit T a)
  | none => H

/-- The events of a handle operation other than a call of the factory, which happen while the
flag has the value `flag`. -/
def Cmd.event (P : Program) (flag : Bool) : Cmd → History → History
  | .ctorDefault h, H => H.construct flag h
  | .ctorNull h, H => H.construct flag h
  | .ctorPtr h p T, H => (H.construct flag h).adopted P p T
  | .ctorCopy h _, H => H.construct flag h
  | .ctorMove h _, H => H.construct flag h
  | .ctorUnique h p T _, H => (H.construct flag h).adopted P p T
  | .dtor h, H => H.destroy h
  | .assignUnique _ p T _, H => H.adopted P p T
  | .resetPtr _ p T, H => H.adopted P p T
  | .resetPtrDel _ p T _, H => H.adopted P p T
  | _, H => H

mutual
/-- The handle operation `exec` with the history kept next to the state. -/
def execH (P : Program) : Cmd → GCState × History → GCState × History
  | .make h t T body, σ =>
      let σ1 := execsH P body (setIsRoot false σ.1, σ.2)
      let s2 := setIsRoot σ.1.is_root σ1.1
      (ptrCtor P h (some t) T s2, (σ1.2.construct s2.is_root h).adopted P (some t) T)
  | .makeThrow body, σ => execsH P body (setIsRoot false σ.1, σ.2)
  | .ctorDefault h, σ => (exec P (.ctorDefault h) σ.1, Cmd.event P σ.1.is_root (.ctorDefault h) σ.2)
  | .ctorNull h, σ => (exec P (.ctorNull h) σ.1, Cmd.event P σ.1.is_root (.ctorNull h) σ.2)
  | .ctorPtr h p T, σ => (exec P (.ctorPtr h p T) σ.1, Cmd.event P σ.1.is_root (.ctorPtr h p T) σ.2)
  | .ctorCopy h r, σ => (exec P (.ctorCopy h r) σ.1, Cmd.event P σ.1.is_root (.ctorCopy h r) σ.2)
  | .ctorMove h r, σ => (exec P (.ctorMove h r) σ.1, Cmd.event P σ.1.is_root (.ctorMove h r) σ.2)
  | .ctorUnique h p T d, σ =>
      (exec P (.ctorUnique h p T d) σ.1, Cmd.event P σ.1.is_root (.ctorUnique h p T d) σ.2)
  | .dtor h, σ => (exec P (.dtor h) σ.1, Cmd.event P σ.1.is_root (.dtor h) σ.2)
  | .assignNull h, σ => (exec P (.assignNull h) σ.1, σ.2)
  | .assignCopy h r, σ => (exec P (.assignCopy h r) σ.1, σ.2)
  | .assignMove h r, σ => (exec P (.assignMove h r) σ.1, σ.2)
  | .assignUnique h p T d, σ =>
      (exec P (.assignUnique h p T d) σ.1, Cmd.event P σ.1.is_root (.assignUnique h p T d) σ.2)
  | .reset h, σ => (exec P (.reset h) σ.1, σ.2)
  | .resetPtr h p T, σ =>
      (exec P (.resetPtr h p T) σ.1, Cmd.event P σ.1.is_root (.resetPtr h p T) σ.2)
  | .resetPtrDel h p T d, σ =>
      (exec P (.resetPtrDel h p T d) σ.1, Cmd.event P σ.1.is_root (.resetPtrDel h p T d) σ.2)
  | .swap h r, σ => (exec P (.swap h r) σ.1, σ.2)
/-- The sequence of handle operations `execs` with the history kept next to the state. -/
def execsH (P : Program) : List Cmd → GCState × History → GCState × History
  | [], σ => σ
  | c :: cs, σ => execsH P cs (execH P c σ)
end

/-- The step `deleteEntry` of the sweep with the history: the operations of the release
strategy are recorded. -/
def deleteEntryH (P : Program) (r : PointerData) (k : Addr) (σ : GCState × History) :
    GCState × History :=
  let σ1 := execsH P (P.deletePointer r.operations.deleter k) σ
  ({ σ1.1 with nodes := eraseNode σ1.1.nodes k }, σ1.2)

/-- The step `sweepStep` with the history. -/
def sweepStepH (P : Program) (acc : (GCState × History) × List Addr) (k : Addr) :
    (GCState × History) × List Addr :=
  match findNode acc.1.1.nodes k with
  | none => acc
  | some r => if r.visited then acc else (deleteEntryH P r k acc.1, acc.2 ++ [k])

/-- The loop `sweepLive` with the history: the entries that the loop still reaches are those
of `stepAhead` at the state without the history. -/
def sweepLiveH (P : Program) :
    Nat → List Addr → (GCState × History) × List Addr →
      Option ((GCState × History) × List Addr)
  | _, [], acc => some acc
  | 0, _ :: _, _ => none
  | fuel + 1, k :: todo, acc =>
    sweepLiveH P fuel (todo ++ stepAhead P (acc.1.1, acc.2) k) (sweepStepH P acc k)

/-- The round `liveRound` with the history. -/
def liveRoundH (P : Program) (fuel : Nat) (σ : GCState × History) :
    Option ((GCState × History) × List Addr) :=
  sweepLiveH P ((mark P σ.1).nodes.length + fuel) (keys (mark P σ.1).nodes)
    ((mark P σ.1, σ.2), [])

/-- The loop `collectLoop` with the history. -/
def collectLoopH (P : Program) :
    Nat → GCState × History → List Addr → Option ((GCState × History) × List Addr)
  | 0, _, _ => none
  | fuel + 1, σ, log =>
    match liveRoundH P fuel σ with
    | none => none
    | some r => if r.2 = [] then some (r.1, log) else collectLoopH P fuel r.1 (log ++ r.2)

/-- The call `collect` with the history. -/
def collectH (P : Program) (fuel : Nat) (σ : GCState × History) :
    Option ((GCState × History) × List Addr) :=
  collectLoopH P fuel σ []

/-- The states, with their histories, that the program reaches from its initial state by handle
operations and calls of `collect` that return. -/
inductive Reached (P : Program) : GCState × History → Prop
  | init : Reached P (GCState.init, ⟨[], []⟩)
  | cmd {σ : GCState × History} (c : Cmd) : Reached P σ → Reached P (execH P c σ)
  | collect {σ σ2 : GCState × History} {log : List Addr} (fuel : Nat) :
      Reached P σ → collectH P fuel σ = some (σ2, log) → Reached P σ2

/-- The root set is what the history says: a handle is in the root set exactly when it was
constructed while the flag was set, has not been destroyed since, and has not been enumerated
by the traversal of a registration since. -/
def RootsMatch (σ : GCState × History) : Prop :=
  ∀ h, h ∈ σ.1.roots ↔ h ∈ σ.2.born ∧ h ∉ σ.2.stripped


/-! ## The calls of release strategies made by `collect`

The definitions of this section list, next to what `collect` computes, the calls of release
strategies that its sweep loops make; they read the states and never change them. -/

/-- A call of a release strategy by the sweep loop: the key and the release strategy of the
record at the iterator, and the state in which the call starts. -/
structure Run where
  key : Addr
  deleter : DeleterId
  pre : GCState

/-- The state in which the call returns, before the entry is erased. -/
def Run.post (P : Program) (e : Run) : GCState :=
  execs P (P.deletePointer e.deleter e.key) e.pre

/-- The keys that the call registers. -/
def Run.registers (P : Program) (e : Run) : List Addr :=
  registeredBy e.pre (e.post P)

/-- The call made by the iteration of the sweep loop at the entry of key `k`, if it makes
one. -/
def stepRun (acc : GCState × List Addr) (k : Addr) : List Run :=
  match findNode acc.1.nodes k with
  | none => []
  | some r => if r.visited then [] else [⟨k, r.operations.deleter, acc.1⟩]

/-- The calls made by the loop over the entries of the keys `ks`, in order. -/
def sweepRuns (P : Program) : List Addr → GCState × List Addr → List Run
  | [], _ => []
  | k :: ks, acc => stepRun acc k ++ sweepRuns P ks (sweepStep P acc k)

/-- The calls made by the sweep loop `sweepLive`, in order. -/
def sweepLiveRuns (P : Program) : Nat → List Addr → GCState × List Addr → Option (List Run)
  | _, [], _ => some []
  | 0, _ :: _, _ => none
  | fuel + 1, k :: todo, acc =>
    (sweepLiveRuns P fuel (todo ++ stepAhead P acc k) (sweepStep P acc k)).map
      (fun l => stepRun acc k ++ l)

/-- The calls made by the round `liveRound`. -/
def liveRoundRuns (P : Program) (fuel : Nat) (s : GCState) : Option (List Run) :=
  sweepLiveRuns P ((mark P s).nodes.length + fuel) (keys (mark P s).nodes) (mark P s, [])

/-- The calls made by the call `collect P fuel s`, in order. -/
def collectRuns (P : Program) : Nat → GCState → Option (List Run)
  | 0, _ => none
  | fuel + 1, s =>
    match liveRound P fuel s, liveRoundRuns P fuel s with
    | some r, some l =>
      if r.2 = [] then some l else (collectRuns P fuel r.1).map (fun l2 => l ++ l2)
    | _, _ => none

/-- The keys registered by the calls `l`, in order. -/
def registeredIn (P : Program) (l : List Run) : List Addr :=
  l.flatMap (Run.registers P)

/-- The number of records that the registry holds for the key `a`: one or none. -/
def recordCount (s : GCState) (a : Addr) : Nat :=
  if a ∈ keys s.nodes then 1 else 0

/-- A program with two tracked types for the same objects: the base type `0`, whose traversal
enumerates nothing, and the derived type `1`, whose traversal enumerates the handle `next`. -/
def twoTypeProgram : Program where
  visit := fun T self => if T = 1 then [S.next self] else []
  default_delete := fun _ => 0
  deletePointer := fun _ _ => []
  ahead := fun _ _ => false

/-- An object built outside the factory at `10`, whose handle `next` is a root, after it has
been adopted through a pointer to its base type by the handle `1`. -/
def baseAdopted : GCState :=
  execs twoTypeProgram [Cmd.ctorDefault (S.next 10), Cmd.ctorPtr 1 (some 10) 0] GCState.init

/-- Every handle has the same target and record reference. -/
def Agree (s : GCState) : Prop :=
  ∀ h, (s.handles h).ptr = (s.handles h).ptr_data

/-- Two programs with the same traversals and the same default release strategies. -/
def SameTypes (P Q : Program) : Prop :=
  P.visit = Q.visit ∧ P.default_delete = Q.default_delete

/-- Two states that differ at most in the mark bits of their records. -/
def EqUpToMarks (s1 s2 : GCState) : Prop :=
  resetMarks s1.nodes = resetMarks s2.nodes ∧ s1.roots = s2.roots ∧
    s1.is_root = s2.is_root ∧ s1.handles = s2.handles

/-- The state `s2` holds every record of `s1`, and every handle of `s2` is null, has the value
that some handle has in `s1`, or has as target and record reference the key of a record of
`s2`. -/
def HandlesFrom (s1 s2 : GCState) : Prop :=
  NodesLe s1.nodes s2.nodes ∧
    ∀ x, s2.handles x = Handle.null ∨ (∃ r, s2.handles x = s1.handles r) ∨
      ∃ a, s2.handles x = ⟨some a, some a⟩ ∧ a ∈ keys s2.nodes

/-- The mark bit of every entry of the registry is the mark bit found by the lookup of its
key. -/
def MarksByKey (ns : List (Addr × PointerData)) : Prop :=
  ∀ e ∈ ns, e.2.visited = isMarked ns e.1


/-! # Theorems -/

theorem findNode_isSome_iff (ns : List (Addr × PointerData)) (a : Addr) :
    (findNode ns a).isSome = true ↔ a ∈ keys ns := by
  induction ns with
  | nil => simp [findNode, keys]
  | cons e ns ih =>
    obtain ⟨k, r⟩ := e
    by_cases h : k = a
    · simp [findNode, keys, h]
    · have h2 : ¬ a = k := fun h3 => h h3.symm
      simpa [findNode, keys, h, h2] using ih

theorem findNode_eq_none_iff (ns : List (Addr × PointerData)) (a : Addr) :
    findNode ns a = none ↔ a ∉ keys ns := by
  rw [← findNode_isSome_iff]
  cases findNode ns a <;> simp

theorem mem_keys_of_findNode {ns : List (Addr × PointerData)} {a : Addr} {r : PointerData}
    (h : findNode ns a = some r) : a ∈ keys ns := by
  rw [← findNode_isSome_iff, h]; rfl

theorem setVisited_cons (k : Addr) (r : PointerData) (ns : List (Addr × PointerData))
    (a : Addr) (b : Bool) :
    setVisited ((k, r) :: ns) a b =
      (k, if k = a then { r with visited := b } else r) :: setVisited ns a b := by
  simp only [setVisited, List.map_cons]
  by_cases hk : k = a <;> simp [hk]

theorem findNode_setVisited (ns : List (Addr × PointerData)) (a x : Addr) (b : Bool) :
    findNode (setVisited ns a b) x =
      (findNode ns x).map (fun r => if x = a then { r with visited := b } else r) := by
  induction ns with
  | nil => simp [findNode, setVisited]
  | cons e ns ih =>
    obtain ⟨k, r⟩ := e
    rw [setVisited_cons]
    by_cases hx : k = x
    · subst hx; simp [findNode]
    · simp [findNode, hx, ih]

theorem keys_setVisited (ns : List (Addr × PointerData)) (a : Addr) (b : Bool) :
    keys (setVisited ns a b) = keys ns := by
  induction ns with
  | nil => rfl
  | cons e ns ih =>
    simp only [keys, setVisited, List.map_cons] at ih ⊢
    rw [ih]; split <;> rfl

theorem Ext.ext_refl (ns : List (Addr × PointerData)) : Ext ns ns := by
  induction ns with
  | nil => exact List.Forall₂.nil
  | cons e ns ih => exact List.Forall₂.cons ⟨rfl, rfl, rfl, id⟩ ih

theorem Ext.ext_trans {ns1 ns2 ns3 : List (Addr × PointerData)} (h12 : Ext ns1 ns2)
    (h23 : Ext ns2 ns3) : Ext ns1 ns3 := by
  induction h12 generalizing ns3 with
  | nil => cases h23; exact List.Forall₂.nil
  | cons h _ ih =>
    cases h23 with
    | cons h' t' =>
      refine List.Forall₂.cons ⟨h'.1.trans h.1, h'.2.1.trans h.2.1, h'.2.2.1.trans h.2.2.1,
        fun hv => h'.2.2.2 (h.2.2.2 hv)⟩ (ih t')

theorem Ext.keys_eq {ns1 ns2 : List (Addr × PointerData)} (h : Ext ns1 ns2) :
    keys ns2 = keys ns1 := by
  induction h with
  | nil => rfl
  | cons h _ ih => simp only [keys, List.map_cons] at ih ⊢; rw [ih, h.1]

theorem Ext.length_eq {ns1 ns2 : List (Addr × PointerData)} (h : Ext ns1 ns2) :
    ns2.length = ns1.length := (List.Forall₂.length_eq h).symm

theorem Ext.findNode_fwd {ns1 ns2 : List (Addr × PointerData)} (h : Ext ns1 ns2) {a : Addr}
    {r : PointerData} (hf : findNode ns1 a = some r) :
    ∃ r2, findNode ns2 a = some r2 ∧ r2.ptr = r.ptr ∧ r2.operations = r.operations ∧
      (r.visited = true → r2.visited = true) := by
  induction h with
  | nil => simp [findNode] at hf
  | @cons e1 e2 l1 l2 he _ ih =>
    obtain ⟨k1, r1⟩ := e1
    obtain ⟨k2, r2⟩ := e2
    obtain ⟨hk, hp, ho, hv⟩ := he
    simp only at hk hp ho hv
    subst hk
    by_cases hka : k2 = a
    · simp only [findNode, hka, if_true, Option.some.injEq] at hf ⊢
      subst hf
      exact ⟨r2, rfl, hp, ho, hv⟩
    · simp only [findNode, hka, if_false] at hf ⊢
      exact ih hf

theorem Ext.findNode_bwd {ns1 ns2 : List (Addr × PointerData)} (h : Ext ns1 ns2) {a : Addr}
    {r2 : PointerData} (hf : findNode ns2 a = some r2) :
    ∃ r, findNode ns1 a = some r ∧ r2.ptr = r.ptr ∧ r2.operations = r.operations ∧
      (r.visited = true → r2.visited = true) := by
  induction h with
  | nil => simp [findNode] at hf
  | @cons e1 e2 l1 l2 he _ ih =>
    obtain ⟨k1, r1⟩ := e1
    obtain ⟨k2, r2'⟩ := e2
    obtain ⟨hk, hp, ho, hv⟩ := he
    simp only at hk hp ho hv
    subst hk
    by_cases hka : k2 = a
    · simp only [findNode, hka, if_true, Option.some.injEq] at hf ⊢
      subst hf
      exact ⟨r1, rfl, hp, ho, hv⟩
    · simp only [findNode, hka, if_false] at hf ⊢
      exact ih hf

theorem Ext.isMarked_mono {ns1 ns2 : List (Addr × PointerData)} (h : Ext ns1 ns2) {a : Addr}
    (hm : isMarked ns1 a = true) : isMarked ns2 a = true := by
  unfold isMarked at hm ⊢
  cases hf : findNode ns1 a with
  | none => simp [hf] at hm
  | some r =>
    rw [hf] at hm
    obtain ⟨r2, h2, _, _, hv⟩ := h.findNode_fwd hf
    rw [h2]; exact hv hm

theorem Ext.edge_iff {P : Program} {hs : HandleId → Handle}
    {ns1 ns2 : List (Addr × PointerData)} (h : Ext ns1 ns2) (a b : Addr) :
    edge P hs ns2 a b ↔ edge P hs ns1 a b := by
  constructor
  · rintro ⟨r2, f, hf, hmem, hb⟩
    obtain ⟨r, h1, hp, ho, _⟩ := h.findNode_bwd hf
    exact ⟨r, f, h1, by rw [← hp, ← ho]; exact hmem, hb⟩
  · rintro ⟨r, f, hf, hmem, hb⟩
    obtain ⟨r2, h2, hp, ho, _⟩ := h.findNode_fwd hf
    exact ⟨r2, f, h2, by rw [hp, ho]; exact hmem, hb⟩

theorem Ext.unmarkedCount_le {ns1 ns2 : List (Addr × PointerData)} (h : Ext ns1 ns2) :
    unmarkedCount ns2 ≤ unmarkedCount ns1 := by
  induction h with
  | nil => exact Nat.le_refl _
  | @cons e1 e2 l1 l2 he _ ih =>
    unfold unmarkedCount at ih ⊢
    simp only [List.filter_cons]
    cases h1 : e1.2.visited <;> cases h2 : e2.2.visited <;> simp <;> try omega
    have := he.2.2.2 h1
    simp [h2] at this

theorem Ext.setVisited (ns : List (Addr × PointerData)) (a : Addr) :
    Ext ns (setVisited ns a true) := by
  induction ns with
  | nil => exact List.Forall₂.nil
  | cons e ns ih =>
    simp only [GC.setVisited, List.map_cons] at ih ⊢
    refine List.Forall₂.cons ?_ ih
    split
    · exact ⟨rfl, rfl, rfl, fun _ => rfl⟩
    · exact ⟨rfl, rfl, rfl, id⟩

theorem unmarkedCount_setVisited_lt (ns : List (Addr × PointerData)) (a : Addr)
    (r : PointerData) (hf : findNode ns a = some r) (hv : r.visited = false) :
    unmarkedCount (setVisited ns a true) < unmarkedCount ns := by
  induction ns with
  | nil => simp [findNode] at hf
  | cons e ns ih =>
    obtain ⟨k, r1⟩ := e
    by_cases hk : k = a
    · simp only [findNode, hk, if_true, Option.some.injEq] at hf
      subst hf
      have hle := (Ext.setVisited ns a).unmarkedCount_le
      unfold unmarkedCount at hle ⊢
      simp only [setVisited, List.map_cons, hk, if_true, List.filter_cons] at hle ⊢
      simp [hv]
      omega
    · simp only [findNode, hk, if_false] at hf
      have := ih hf
      unfold unmarkedCount at this ⊢
      simp only [setVisited, List.map_cons, hk, if_false, List.filter_cons] at this ⊢
      split <;> simp <;> omega

theorem Ext.E_iff {P : Program} {hs : HandleId → Handle}
    {ns1 ns2 : List (Addr × PointerData)} (h : Ext ns1 ns2) (a b : Addr) :
    E P hs ns2 a b ↔ E P hs ns1 a b := by
  unfold E; rw [h.edge_iff, h.keys_eq]

theorem Ext.closed_mono {P : Program} {hs : HandleId → Handle}
    {ns1 ns2 : List (Addr × PointerData)} (h : Ext ns1 ns2) {x : Addr}
    (hc : Closed P hs ns1 x) : Closed P hs ns2 x :=
  fun y hy => h.isMarked_mono (hc y ((h.E_iff x y).1 hy))

theorem Ext.path_fwd {P : Program} {hs : HandleId → Handle}
    {ns1 ns2 : List (Addr × PointerData)} (h : Ext ns1 ns2) {a b : Addr}
    (hp : Relation.ReflTransGen (E P hs ns2) a b) : Relation.ReflTransGen (E P hs ns1) a b :=
  Relation.ReflTransGen.mono (fun u v huv => (h.E_iff u v).1 huv) hp

theorem MarkSpec.nil (P : Program) (hs : HandleId → Handle)
    (ns : List (Addr × PointerData)) : MarkSpec P hs ns ns [] := by
  refine ⟨Ext.ext_refl ns, fun b hb => by simp at hb, fun x h1 h2 => ?_⟩
  rw [h1] at h2; exact absurd h2 (by simp)

theorem MarkSpec.append {P : Program} {hs : HandleId → Handle}
    {ns ns1 ns2 : List (Addr × PointerData)} {ts1 ts2 : List Addr}
    (h1 : MarkSpec P hs ns ns1 ts1) (h2 : MarkSpec P hs ns1 ns2 ts2) :
    MarkSpec P hs ns ns2 (ts1 ++ ts2) := by
  obtain ⟨e1, m1, c1⟩ := h1
  obtain ⟨e2, m2, c2⟩ := h2
  refine ⟨e1.ext_trans e2, ?_, ?_⟩
  · intro b hb hk
    rcases List.mem_append.1 hb with hb | hb
    · exact e2.isMarked_mono (m1 b hb hk)
    · exact m2 b hb (by rw [e1.keys_eq]; exact hk)
  · intro x hx2 hx0
    cases hx1 : isMarked ns1 x with
    | true =>
      obtain ⟨hc, b, hb, hk, hp⟩ := c1 x hx1 hx0
      exact ⟨e2.closed_mono hc, b, List.mem_append_left _ hb, hk, hp⟩
    | false =>
      obtain ⟨hc, b, hb, hk, hp⟩ := c2 x hx2 hx1
      exact ⟨hc, b, List.mem_append_right _ hb, by rw [← e1.keys_eq]; exact hk,
        e1.path_fwd hp⟩

/-- A fold of marking steps over handles marks from the record references of the handles. -/
theorem MarkSpec.foldl {P : Program} {hs : HandleId → Handle}
    (g : List (Addr × PointerData) → HandleId → List (Addr × PointerData)) :
    ∀ (fs : List HandleId) (ns0 : List (Addr × PointerData)),
      (∀ ns f, Ext ns0 ns → MarkSpec P hs ns (g ns f) ((hs f).ptr_data.toList)) →
      MarkSpec P hs ns0 (fs.foldl g ns0) (fs.filterMap (fun f => (hs f).ptr_data)) := by
  intro fs
  induction fs with
  | nil => intro ns0 _; exact MarkSpec.nil P hs ns0
  | cons f fs ih =>
    intro ns0 hg
    have h1 := hg ns0 f (Ext.ext_refl ns0)
    have h2 := ih (g ns0 f) (fun ns f2 he => hg ns f2 (h1.1.ext_trans he))
    have h3 := h1.append h2
    simp only [List.foldl_cons]
    cases hf : (hs f).ptr_data with
    | none => simpa [List.filterMap_cons, hf] using h3
    | some b => simpa [List.filterMap_cons, hf] using h3

theorem visit_zero (P : Program) (hs : HandleId → Handle) (ns : List (Addr × PointerData))
    (a : Addr) : PointerData.visit P hs 0 ns a = ns := rfl

theorem visit_succ (P : Program) (hs : HandleId → Handle) (fuel : Nat)
    (ns : List (Addr × PointerData)) (a : Addr) :
    PointerData.visit P hs (fuel + 1) ns a =
      match findNode ns a with
      | none => ns
      | some r =>
        if r.visited then ns
        else
          (P.visit r.operations.type r.ptr).foldl
            (fun ns f =>
              match (hs f).ptr_data with
              | none => ns
              | some b => PointerData.visit P hs fuel ns b)
            (setVisited ns a true) := rfl

/-- The marking step of one handle, given the specification of the visit it performs. -/
theorem markSpec_step {P : Program} {hs : HandleId → Handle} {ns : List (Addr × PointerData)}
    (v : List (Addr × PointerData) → Addr → List (Addr × PointerData))
    (hv : ∀ b, MarkSpec P hs ns (v ns b) [b]) (f : HandleId) :
    MarkSpec P hs ns
      (match (hs f).ptr_data with
        | none => ns
        | some b => v ns b) ((hs f).ptr_data.toList) := by
  cases hf : (hs f).ptr_data with
  | none => exact MarkSpec.nil P hs ns
  | some b => exact hv b

/-- The function `PointerData::visit` marks what is reachable from `a` and nothing else, when the bound on
the depth exceeds the number of unmarked records. -/
theorem visit_spec (P : Program) (hs : HandleId → Handle) :
    ∀ (fuel : Nat) (ns : List (Addr × PointerData)) (a : Addr), unmarkedCount ns < fuel →
      MarkSpec P hs ns (PointerData.visit P hs fuel ns a) [a] := by
  intro fuel
  induction fuel with
  | zero => intro ns a h; exact absurd h (Nat.not_lt_zero _)
  | succ fuel ih =>
    intro ns a hU
    rw [visit_succ]
    cases hf : findNode ns a with
    | none =>
      refine ⟨Ext.ext_refl ns, ?_, fun x h1 h2 => ?_⟩
      · intro b hb hk
        rw [List.mem_singleton] at hb; subst hb
        exact absurd hk ((findNode_eq_none_iff ns b).1 hf)
      · rw [h1] at h2; exact absurd h2 (by simp)
    | some r =>
      simp only
      cases hvis : r.visited with
      | true =>
        simp only [if_true]
        refine ⟨Ext.ext_refl ns, ?_, fun x h1 h2 => ?_⟩
        · intro b hb _
          rw [List.mem_singleton] at hb; subst hb
          simp [isMarked, hf, hvis]
        · rw [h1] at h2; exact absurd h2 (by simp)
      | false =>
        simp only [Bool.false_eq_true, if_false]
        have hlt := unmarkedCount_setVisited_lt ns a r hf hvis
        have h0 : Ext ns (setVisited ns a true) := Ext.setVisited ns a
        have hfold := @MarkSpec.foldl P hs
          (fun ns f =>
              match (hs f).ptr_data with
              | none => ns
              | some b => PointerData.visit P hs fuel ns b)
          (P.visit r.operations.type r.ptr) (setVisited ns a true)
          (fun ns2 f he => markSpec_step (PointerData.visit P hs fuel)
            (fun b => ih ns2 b (by have := he.unmarkedCount_le; omega)) f)
        obtain ⟨e1, m1, c1⟩ := hfold
        have hmark0 : ∀ x, isMarked (setVisited ns a true) x =
            if x = a then true else isMarked ns x := by
          intro x
          unfold isMarked
          rw [findNode_setVisited]
          by_cases hx : x = a
          · subst hx; simp [hf]
          · cases findNode ns x <;> simp [hx]
        have hak : a ∈ keys ns := mem_keys_of_findNode hf
        refine ⟨h0.ext_trans e1, ?_, ?_⟩
        · intro b hb _
          rw [List.mem_singleton] at hb; subst hb
          exact e1.isMarked_mono (by rw [hmark0]; simp)
        · intro x hx2 hx0
          by_cases hxa : x = a
          · subst hxa
            refine ⟨?_, x, List.mem_singleton_self x, hak, Relation.ReflTransGen.refl⟩
            intro y hy
            have hy0 : E P hs ns x y := ((h0.ext_trans e1).E_iff x y).1 hy
            obtain ⟨⟨r2, f, hr2, hfm, hfy⟩, hyk⟩ := hy0
            rw [hf] at hr2
            cases hr2
            refine m1 y ?_ (by rw [keys_setVisited]; exact hyk)
            exact List.mem_filterMap.2 ⟨f, hfm, hfy⟩
          · have hx1 : isMarked (setVisited ns a true) x = false := by
              rw [hmark0]; simp [hxa, hx0]
            obtain ⟨hc, b, hb, hbk, hp⟩ := c1 x hx2 hx1
            refine ⟨hc, a, List.mem_singleton_self a, hak, ?_⟩
            obtain ⟨f, hfm, hfb⟩ := List.mem_filterMap.1 hb
            have hbk0 : b ∈ keys ns := by rw [keys_setVisited] at hbk; exact hbk
            exact Relation.ReflTransGen.head ⟨⟨r, f, hf, hfm, hfb⟩, hbk0⟩ (h0.path_fwd hp)

theorem findNode_resetMarks (ns : List (Addr × PointerData)) (x : Addr) :
    findNode (resetMarks ns) x = (findNode ns x).map (fun r => { r with visited := false }) := by
  induction ns with
  | nil => simp [findNode, resetMarks]
  | cons e ns ih =>
    obtain ⟨k, r⟩ := e
    simp only [resetMarks, List.map_cons] at ih ⊢
    by_cases hx : k = x
    · simp [findNode, hx]
    · simp [findNode, hx, ih]

theorem keys_resetMarks (ns : List (Addr × PointerData)) : keys (resetMarks ns) = keys ns := by
  simp [keys, resetMarks, List.map_map, Function.comp_def]

theorem isMarked_resetMarks (ns : List (Addr × PointerData)) (x : Addr) :
    isMarked (resetMarks ns) x = false := by
  unfold isMarked
  rw [findNode_resetMarks]
  cases findNode ns x <;> simp

theorem E_resetMarks (P : Program) (hs : HandleId → Handle) (ns : List (Addr × PointerData))
    (a b : Addr) : E P hs (resetMarks ns) a b ↔ E P hs ns a b := by
  unfold E edge
  rw [keys_resetMarks, findNode_resetMarks]
  constructor
  · rintro ⟨⟨r, f, hr, hf, hb⟩, hk⟩
    cases h : findNode ns a with
    | none => simp [h] at hr
    | some r0 =>
      simp only [h, Option.map_some', Option.some.injEq] at hr
      subst hr
      exact ⟨⟨r0, f, rfl, hf, hb⟩, hk⟩
  · rintro ⟨⟨r, f, hr, hf, hb⟩, hk⟩
    exact ⟨⟨{ r with visited := false }, f, by rw [hr]; rfl, hf, hb⟩, hk⟩

theorem resetMarks_eq_of_ext {ns1 ns2 : List (Addr × PointerData)} (h : Ext ns1 ns2) :
    resetMarks ns2 = resetMarks ns1 := by
  induction h with
  | nil => rfl
  | @cons e1 e2 l1 l2 he _ ih =>
    simp only [resetMarks, List.map_cons] at ih ⊢
    rw [ih, he.1, he.2.1, he.2.2.1]

theorem resetMarks_resetMarks (ns : List (Addr × PointerData)) :
    resetMarks (resetMarks ns) = resetMarks ns := by
  simp [resetMarks, List.map_map, Function.comp_def]

theorem unmarkedCount_le_length (ns : List (Addr × PointerData)) :
    unmarkedCount ns ≤ ns.length := List.length_filter_le _ _

/-- The marking loop over the root set marks from the record references of the roots. -/
theorem markRoots_spec (P : Program) (hs : HandleId → Handle) (roots : List HandleId)
    (ns : List (Addr × PointerData)) :
    MarkSpec P hs ns (markRoots P hs roots ns) (roots.filterMap (fun h => (hs h).ptr_data)) := by
  unfold markRoots
  exact @MarkSpec.foldl P hs _ roots ns
    (fun ns2 f _ => markSpec_step (fun ns b => PointerData.visit P hs (ns.length + 1) ns b)
      (fun b => visit_spec P hs (ns2.length + 1) ns2 b
        (Nat.lt_succ_of_le (unmarkedCount_le_length ns2))) f)

theorem mark_ext (P : Program) (s : GCState) : Ext (resetMarks s.nodes) (mark P s).nodes :=
  (markRoots_spec P s.handles s.roots (resetMarks s.nodes)).1

theorem keys_mark (P : Program) (s : GCState) : keys (mark P s).nodes = keys s.nodes := by
  rw [(mark_ext P s).keys_eq, keys_resetMarks]

theorem E_mark (P : Program) (s : GCState) (a b : Addr) :
    E P s.handles (mark P s).nodes a b ↔ E P s.handles s.nodes a b := by
  rw [(mark_ext P s).E_iff, E_resetMarks]

theorem reachable_of_path {P : Program} {s : GCState} {b x : Addr}
    (hb : Reachable P s b) (hp : Relation.ReflTransGen (E P s.handles s.nodes) b x) :
    Reachable P s x := by
  induction hp with
  | refl => exact hb
  | tail _ hstep ih => exact Reachable.step ih hstep.1 hstep.2

/-- After the mark phase a record is marked exactly when it is reachable from the root set. -/
theorem isMarked_mark_iff (P : Program) (s : GCState) (a : Addr) :
    isMarked (mark P s).nodes a = true ↔ Reachable P s a := by
  obtain ⟨e, m, c⟩ := markRoots_spec P s.handles s.roots (resetMarks s.nodes)
  constructor
  · intro hm
    obtain ⟨_, b, hb, hbk, hp⟩ := c a hm (isMarked_resetMarks _ _)
    obtain ⟨h, hh, hhb⟩ := List.mem_filterMap.1 hb
    rw [keys_resetMarks] at hbk
    refine reachable_of_path (Reachable.root hh hhb hbk) ?_
    exact Relation.ReflTransGen.mono (fun u v huv => (E_resetMarks P s.handles s.nodes u v).1 huv) hp
  · intro hr
    induction hr with
    | @root h a hh ha hk =>
      exact m a (List.mem_filterMap.2 ⟨h, hh, ha⟩) (by rw [keys_resetMarks]; exact hk)
    | @step a b _ hedge hk ih =>
      have hc := (c a ih (isMarked_resetMarks _ _)).1
      exact hc b ((E_mark P s a b).2 ⟨hedge, hk⟩)

theorem mark_mark (P : Program) (s : GCState) : mark P (mark P s) = mark P s := by
  have h : resetMarks (mark P s).nodes = resetMarks s.nodes := by
    rw [resetMarks_eq_of_ext (mark_ext P s), resetMarks_resetMarks]
  have h2 : mark P (mark P s) =
      ⟨markRoots P s.handles s.roots (resetMarks (mark P s).nodes), s.roots, s.is_root,
        s.handles⟩ := rfl
  rw [h2, h]
  rfl

theorem reachable_mark_iff (P : Program) (s : GCState) (a : Addr) :
    Reachable P (mark P s) a ↔ Reachable P s a := by
  rw [← isMarked_mark_iff, ← isMarked_mark_iff, mark_mark]

mutual
theorem Cmd.induct {motive : Cmd → Prop}
    (hprim : ∀ c, c.isMake = false → motive c)
    (hmake : ∀ h t T body, (∀ c ∈ body, motive c) → motive (.make h t T body))
    (hthrow : ∀ body, (∀ c ∈ body, motive c) → motive (.makeThrow body)) :
    ∀ c, motive c
  | .make h t T body => hmake h t T body (Cmd.induct_list hprim hmake hthrow body)
  | .makeThrow body => hthrow body (Cmd.induct_list hprim hmake hthrow body)
  | .ctorDefault _ => hprim _ rfl
  | .ctorNull _ => hprim _ rfl
  | .ctorPtr _ _ _ => hprim _ rfl
  | .ctorCopy _ _ => hprim _ rfl
  | .ctorMove _ _ => hprim _ rfl
  | .ctorUnique _ _ _ _ => hprim _ rfl
  | .dtor _ => hprim _ rfl
  | .assignNull _ => hprim _ rfl
  | .assignCopy _ _ => hprim _ rfl
  | .assignMove _ _ => hprim _ rfl
  | .assignUnique _ _ _ _ => hprim _ rfl
  | .reset _ => hprim _ rfl
  | .resetPtr _ _ _ => hprim _ rfl
  | .resetPtrDel _ _ _ _ => hprim _ rfl
  | .swap _ _ => hprim _ rfl
theorem Cmd.induct_list {motive : Cmd → Prop}
    (hprim : ∀ c, c.isMake = false → motive c)
    (hmake : ∀ h t T body, (∀ c ∈ body, motive c) → motive (.make h t T body))
    (hthrow : ∀ body, (∀ c ∈ body, motive c) → motive (.makeThrow body)) :
    ∀ cs : List Cmd, ∀ c ∈ cs, motive c
  | [], _, hc => absurd hc (List.not_mem_nil _)
  | c :: cs, c2, hc => by
    rcases List.mem_cons.1 hc with h | h
    · rw [h]; exact Cmd.induct hprim hmake hthrow c
    · exact Cmd.induct_list hprim hmake hthrow cs c2 h
end

theorem execs_nil (P : Program) (s : GCState) : execs P [] s = s := by
  simp [execs]

theorem execs_cons (P : Program) (c : Cmd) (cs : List Cmd) (s : GCState) :
    execs P (c :: cs) s = execs P cs (exec P c s) := by
  simp [execs]

theorem exec_make (P : Program) (h : HandleId) (t : Addr) (T : TypeId) (body : List Cmd)
    (s : GCState) :
    exec P (.make h t T body) s =
      ptrCtor P h (some t) T (setIsRoot s.is_root (execs P body (setIsRoot false s))) := by
  simp [exec]

theorem exec_makeThrow (P : Program) (body : List Cmd) (s : GCState) :
    exec P (.makeThrow body) s = execs P body (setIsRoot false s) := by
  simp [exec]

theorem execs_append (P : Program) (cs1 cs2 : List Cmd) (s : GCState) :
    execs P (cs1 ++ cs2) s = execs P cs2 (execs P cs1 s) := by
  induction cs1 generalizing s with
  | nil => simp [execs_nil]
  | cons c cs ih => simp [execs_cons, ih]

/-- A property of states that is kept by every step of a sequence is kept by the sequence. -/
theorem execs_induct (P : Program) {R : GCState → GCState → Prop}
    (hrefl : ∀ s, R s s) (htrans : ∀ s1 s2 s3, R s1 s2 → R s2 s3 → R s1 s3)
    (cs : List Cmd) (hstep : ∀ c ∈ cs, ∀ s, R s (exec P c s)) :
    ∀ s, R s (execs P cs s) := by
  induction cs with
  | nil => intro s; rw [execs_nil]; exact hrefl s
  | cons c cs ih =>
    intro s
    rw [execs_cons]
    exact htrans _ _ _ (hstep c (List.mem_cons_self _ _) s)
      (ih (fun c2 hc2 => hstep c2 (List.mem_cons_of_mem _ hc2)) _)

/-! ### The components of the state after the primitive operations -/

@[simp] theorem setHandle_nodes (h : HandleId) (v : Handle) (s : GCState) :
    (setHandle h v s).nodes = s.nodes := rfl

@[simp] theorem setHandle_roots (h : HandleId) (v : Handle) (s : GCState) :
    (setHandle h v s).roots = s.roots := rfl

@[simp] theorem setHandle_is_root (h : HandleId) (v : Handle) (s : GCState) :
    (setHandle h v s).is_root = s.is_root := rfl

@[simp] theorem setHandle_handles (h : HandleId) (v : Handle) (s : GCState) (x : HandleId) :
    (setHandle h v s).handles x = if x = h then v else s.handles x := rfl

@[simp] theorem registerRoot_nodes (h : HandleId) (s : GCState) :
    (registerRoot h s).nodes = s.nodes := by
  unfold registerRoot; split <;> rfl

@[simp] theorem registerRoot_is_root (h : HandleId) (s : GCState) :
    (registerRoot h s).is_root = s.is_root := by
  unfold registerRoot; split <;> rfl

@[simp] theorem registerRoot_handles (h : HandleId) (s : GCState) :
    (registerRoot h s).handles = s.handles := by
  unfold registerRoot; split <;> rfl

theorem registerRoot_roots (h : HandleId) (s : GCState) :
    (registerRoot h s).roots = if s.is_root then s.roots.insert h else s.roots := by
  unfold registerRoot; split <;> rfl

theorem mem_registerRoot_roots (h x : HandleId) (s : GCState) :
    x ∈ (registerRoot h s).roots ↔ (s.is_root = true ∧ x = h) ∨ x ∈ s.roots := by
  rw [registerRoot_roots]
  cases s.is_root <;> simp

@[simp] theorem removeRoot_nodes (h : HandleId) (s : GCState) :
    (removeRoot h s).nodes = s.nodes := rfl

@[simp] theorem removeRoot_is_root (h : HandleId) (s : GCState) :
    (removeRoot h s).is_root = s.is_root := rfl

@[simp] theorem removeRoot_handles (h : HandleId) (s : GCState) :
    (removeRoot h s).handles = s.handles := rfl

theorem mem_removeRoot_roots (h x : HandleId) (s : GCState) :
    x ∈ (removeRoot h s).roots ↔ x ∈ s.roots ∧ x ≠ h := by
  simp [removeRoot]

/-- The traversal with the visitor `removeRoot`. -/
theorem foldl_removeRoot (fs : List HandleId) (s : GCState) :
    fs.foldl (fun s f => removeRoot f s) s =
      ⟨s.nodes, s.roots.filter (fun x => decide (x ∉ fs)), s.is_root, s.handles⟩ := by
  induction fs generalizing s with
  | nil => simp
  | cons f fs ih =>
    rw [List.foldl_cons, ih]
    simp only [removeRoot, List.filter_filter]
    congr 1
    apply List.filter_congr
    intro x _
    simp [not_or, Bool.and_comm]

theorem registerNode_eq (P : Program) (a : Addr) (T : TypeId) (d : DeleterId) (s : GCState) :
    registerNode P a T d s =
      ⟨insertNode s.nodes a ⟨a, false, ⟨T, d⟩⟩,
        s.roots.filter (fun x => decide (x ∉ P.visit T a)), s.is_root, s.handles⟩ := by
  unfold registerNode
  simp only [foldl_removeRoot]

@[simp] theorem registerNode_nodes (P : Program) (a : Addr) (T : TypeId) (d : DeleterId)
    (s : GCState) :
    (registerNode P a T d s).nodes = insertNode s.nodes a ⟨a, false, ⟨T, d⟩⟩ := by
  rw [registerNode_eq]

@[simp] theorem registerNode_roots (P : Program) (a : Addr) (T : TypeId) (d : DeleterId)
    (s : GCState) :
    (registerNode P a T d s).roots = s.roots.filter (fun x => decide (x ∉ P.visit T a)) := by
  rw [registerNode_eq]

@[simp] theorem registerNode_is_root (P : Program) (a : Addr) (T : TypeId) (d : DeleterId)
    (s : GCState) : (registerNode P a T d s).is_root = s.is_root := by
  rw [registerNode_eq]

@[simp] theorem registerNode_handles (P : Program) (a : Addr) (T : TypeId) (d : DeleterId)
    (s : GCState) : (registerNode P a T d s).handles = s.handles := by
  rw [registerNode_eq]

theorem findNode_insertNode (ns : List (Addr × PointerData)) (a x : Addr) (r : PointerData) :
    findNode (insertNode ns a r) x =
      match findNode ns x with
      | some r0 => some r0
      | none => if a = x then some r else none := by
  unfold insertNode
  cases ha : findNode ns a with
  | some r1 =>
    simp only
    cases hx : findNode ns x with
    | some r0 => rfl
    | none =>
      simp only
      by_cases hax : a = x
      · subst hax; rw [ha] at hx; cases hx
      · simp [hax]
  | none =>
    simp only [findNode]
    by_cases hax : a = x
    · subst hax; simp [ha]
    · simp only [hax, if_false]; cases findNode ns x <;> rfl

theorem findNode_eraseNode (ns : List (Addr × PointerData)) (k x : Addr) :
    findNode (eraseNode ns k) x = if x = k then none else findNode ns x := by
  induction ns with
  | nil => simp [findNode, eraseNode]
  | cons e ns ih =>
    obtain ⟨k1, r⟩ := e
    unfold eraseNode at ih ⊢
    by_cases h1 : k1 = k
    · subst h1
      simp only [List.filter_cons, ne_eq, not_true_eq_false, decide_False, Bool.false_eq_true,
        if_false, ih]
      by_cases hx : x = k1
      · simp [hx]
      · have : ¬ k1 = x := fun h => hx h.symm
        simp [hx, findNode, this]
    · simp only [List.filter_cons, ne_eq, h1, not_false_eq_true, decide_True, if_true, findNode,
        ih]
      by_cases hx : k1 = x
      · subst hx; simp [h1]
      · simp [hx]

theorem keys_eraseNode (ns : List (Addr × PointerData)) (k : Addr) :
    keys (eraseNode ns k) = (keys ns).filter (fun x => decide (x ≠ k)) := by
  simp [keys, eraseNode, List.filter_map, Function.comp_def]

theorem adopt_nodes (P : Program) (h : HandleId) (p : Option Addr) (T : TypeId) (d : DeleterId)
    (s : GCState) :
    (adopt P h p T d s).nodes =
      match p with
      | some a => insertNode s.nodes a ⟨a, false, ⟨T, d⟩⟩
      | none => s.nodes := by
  cases p <;> simp [adopt]

theorem adopt_is_root (P : Program) (h : HandleId) (p : Option Addr) (T : TypeId)
    (d : DeleterId) (s : GCState) : (adopt P h p T d s).is_root = s.is_root := by
  cases p <;> simp [adopt]

theorem adopt_roots (P : Program) (h : HandleId) (p : Option Addr) (T : TypeId) (d : DeleterId)
    (s : GCState) :
    (adopt P h p T d s).roots =
      match p with
      | some a => s.roots.filter (fun x => decide (x ∉ P.visit T a))
      | none => s.roots := by
  cases p <;> simp [adopt]

theorem NodesLe.nodes_refl (ns : List (Addr × PointerData)) : NodesLe ns ns := fun _ _ h => h

theorem NodesLe.nodes_trans {ns1 ns2 ns3 : List (Addr × PointerData)} (h1 : NodesLe ns1 ns2)
    (h2 : NodesLe ns2 ns3) : NodesLe ns1 ns3 := fun a r h => h2 a r (h1 a r h)

theorem NodesLe.insertNode (ns : List (Addr × PointerData)) (a : Addr) (r : PointerData) :
    NodesLe ns (insertNode ns a r) := by
  intro x r0 h
  rw [findNode_insertNode, h]

theorem adopt_nodesLe (P : Program) (h : HandleId) (p : Option Addr) (T : TypeId)
    (d : DeleterId) (s : GCState) : NodesLe s.nodes (adopt P h p T d s).nodes := by
  rw [adopt_nodes]
  cases p with
  | none => exact NodesLe.nodes_refl _
  | some a => exact NodesLe.insertNode _ _ _

theorem ptrCtor_nodesLe (P : Program) (h : HandleId) (p : Option Addr) (T : TypeId)
    (s : GCState) : NodesLe s.nodes (ptrCtor P h p T s).nodes := by
  unfold ptrCtor
  have := adopt_nodesLe P h p T (P.default_delete T) (registerRoot h (setHandle h ⟨p, none⟩ s))
  simpa using this

@[simp] theorem setIsRoot_nodes (b : Bool) (s : GCState) : (setIsRoot b s).nodes = s.nodes := rfl

@[simp] theorem setIsRoot_roots (b : Bool) (s : GCState) : (setIsRoot b s).roots = s.roots := rfl

@[simp] theorem setIsRoot_is_root (b : Bool) (s : GCState) : (setIsRoot b s).is_root = b := rfl

@[simp] theorem setIsRoot_handles (b : Bool) (s : GCState) :
    (setIsRoot b s).handles = s.handles := rfl

/-- A handle operation never changes or removes a record of the registry. -/
theorem exec_nodesLe (P : Program) : ∀ (c : Cmd) (s : GCState),
    NodesLe s.nodes (exec P c s).nodes := by
  intro c
  induction c using Cmd.induct with
  | hprim c hc =>
    intro s
    cases c with
    | make h t T body => simp [Cmd.isMake] at hc
    | makeThrow body => simp [Cmd.isMake] at hc
    | ctorPtr h p T => exact ptrCtor_nodesLe P h p T s
    | ctorUnique h p T d =>
      have := adopt_nodesLe P h p T d (registerRoot h (setHandle h Handle.null s))
      simpa [exec] using this
    | assignUnique h p T d => exact adopt_nodesLe P h p T d s
    | resetPtr h p T => exact adopt_nodesLe P h p T _ s
    | resetPtrDel h p T d => exact adopt_nodesLe P h p T d s
    | _ => simp [exec]; exact NodesLe.nodes_refl _
  | hmake h t T body ih =>
    intro s
    rw [exec_make]
    have h1 : NodesLe s.nodes (execs P body (setIsRoot false s)).nodes :=
      execs_induct P (R := fun s1 s2 => NodesLe s1.nodes s2.nodes)
        (fun _ => NodesLe.nodes_refl _) (fun _ _ _ => NodesLe.nodes_trans) body ih (setIsRoot false s)
    have h2 := ptrCtor_nodesLe P h (some t) T
      (setIsRoot s.is_root (execs P body (setIsRoot false s)))
    exact h1.nodes_trans h2
  | hthrow body ih =>
    intro s
    rw [exec_makeThrow]
    exact execs_induct P (R := fun s1 s2 => NodesLe s1.nodes s2.nodes)
      (fun _ => NodesLe.nodes_refl _) (fun _ _ _ => NodesLe.nodes_trans) body ih (setIsRoot false s)

theorem execs_nodesLe (P : Program) (cs : List Cmd) (s : GCState) :
    NodesLe s.nodes (execs P cs s).nodes :=
  execs_induct P (R := fun s1 s2 => NodesLe s1.nodes s2.nodes)
    (fun _ => NodesLe.nodes_refl _) (fun _ _ _ => NodesLe.nodes_trans) cs
    (fun c _ s => exec_nodesLe P c s) s


/-! ## The sweep loop -/

theorem foldl_invariant {α β : Type} (I : β → Prop) (f : β → α → β) (l : List α) (b : β)
    (h0 : I b) (hstep : ∀ b a, a ∈ l → I b → I (f b a)) : I (l.foldl f b) := by
  induction l generalizing b with
  | nil => exact h0
  | cons a l ih =>
    exact ih (f b a) (hstep b a (List.mem_cons_self _ _) h0)
      (fun b2 a2 ha2 => hstep b2 a2 (List.mem_cons_of_mem _ ha2))

theorem sweepStep_none {P : Program} {acc : GCState × List Addr} {k : Addr}
    (h : findNode acc.1.nodes k = none) : sweepStep P acc k = acc := by
  simp [sweepStep, h]

theorem sweepStep_marked {P : Program} {acc : GCState × List Addr} {k : Addr} {r : PointerData}
    (h : findNode acc.1.nodes k = some r) (hv : r.visited = true) : sweepStep P acc k = acc := by
  simp [sweepStep, h, hv]

theorem sweepStep_unmarked {P : Program} {acc : GCState × List Addr} {k : Addr}
    {r : PointerData} (h : findNode acc.1.nodes k = some r) (hv : r.visited = false) :
    sweepStep P acc k = (deleteEntry P r k acc.1, acc.2 ++ [k]) := by
  simp [sweepStep, h, hv]

/-- The three cases of a step of the sweep loop. -/
theorem sweepStep_cases (P : Program) (acc : GCState × List Addr) (k : Addr) :
    sweepStep P acc k = acc ∨
      ∃ r, findNode acc.1.nodes k = some r ∧ r.visited = false ∧
        sweepStep P acc k = (deleteEntry P r k acc.1, acc.2 ++ [k]) := by
  cases h : findNode acc.1.nodes k with
  | none => exact Or.inl (sweepStep_none h)
  | some r =>
    cases hv : r.visited with
    | true => exact Or.inl (sweepStep_marked h hv)
    | false => exact Or.inr ⟨r, rfl, hv, sweepStep_unmarked h hv⟩

theorem deleteEntry_nodes (P : Program) (r : PointerData) (k : Addr) (s : GCState) :
    (deleteEntry P r k s).nodes =
      eraseNode (execs P (P.deletePointer r.operations.deleter k) s).nodes k := rfl

theorem deleteEntry_roots (P : Program) (r : PointerData) (k : Addr) (s : GCState) :
    (deleteEntry P r k s).roots =
      (execs P (P.deletePointer r.operations.deleter k) s).roots := rfl

theorem deleteEntry_handles (P : Program) (r : PointerData) (k : Addr) (s : GCState) :
    (deleteEntry P r k s).handles =
      (execs P (P.deletePointer r.operations.deleter k) s).handles := rfl

/-- The record that is destroyed leaves the registry in the same step. -/
theorem not_mem_keys_deleteEntry (P : Program) (r : PointerData) (k : Addr) (s : GCState) :
    k ∉ keys (deleteEntry P r k s).nodes := by
  rw [deleteEntry_nodes, keys_eraseNode]
  simp

/-- The other records are not touched by the step that destroys `k`. -/
theorem findNode_deleteEntry_of_ne (P : Program) (r : PointerData) (k : Addr) (s : GCState)
    {x : Addr} {rx : PointerData} (hx : x ≠ k) (h : findNode s.nodes x = some rx) :
    findNode (deleteEntry P r k s).nodes x = some rx := by
  rw [deleteEntry_nodes, findNode_eraseNode, if_neg hx]
  exact execs_nodesLe P _ s x rx h

theorem mem_keys_deleteEntry_of_ne (P : Program) (r : PointerData) (k : Addr) (s : GCState)
    {x : Addr} (hx : x ≠ k) (h : x ∈ keys s.nodes) : x ∈ keys (deleteEntry P r k s).nodes := by
  rw [← findNode_isSome_iff] at h
  cases hf : findNode s.nodes x with
  | none => rw [hf] at h; cases h
  | some rx => exact mem_keys_of_findNode (findNode_deleteEntry_of_ne P r k s hx hf)

theorem isMarked_eq_true_iff (ns : List (Addr × PointerData)) (a : Addr) :
    isMarked ns a = true ↔ ∃ r, findNode ns a = some r ∧ r.visited = true := by
  unfold isMarked
  cases findNode ns a <;> simp

theorem isMarked_of_findNode {ns : List (Addr × PointerData)} {a : Addr} {r : PointerData}
    (h : findNode ns a = some r) : isMarked ns a = r.visited := by
  simp [isMarked, h]

theorem sweep_log_mono (P : Program) (ks : List Addr) (acc : GCState × List Addr) :
    ∀ k ∈ acc.2, k ∈ (ks.foldl (sweepStep P) acc).2 := by
  induction ks generalizing acc with
  | nil => intro k hk; exact hk
  | cons k0 ks ih =>
    intro k hk
    rw [List.foldl_cons]
    apply ih
    rcases sweepStep_cases P acc k0 with h | ⟨r, _, _, h⟩
    · rw [h]; exact hk
    · rw [h]; exact List.mem_append_left _ hk

/-- During the sweep marked records stay as they are, and only keys of unmarked records are
destroyed. -/
theorem sweep_sound (P : Program) (s : GCState) :
    (∀ x, isMarked s.nodes x = true → findNode (sweep P s).1.nodes x = findNode s.nodes x) ∧
      ∀ k ∈ (sweep P s).2, k ∈ keys s.nodes ∧ isMarked s.nodes k = false := by
  unfold sweep
  refine foldl_invariant
    (fun acc : GCState × List Addr =>
      (∀ x, isMarked s.nodes x = true → findNode acc.1.nodes x = findNode s.nodes x) ∧
        ∀ k ∈ acc.2, k ∈ keys s.nodes ∧ isMarked s.nodes k = false)
    (sweepStep P) (keys s.nodes) (s, []) ⟨fun _ _ => rfl, fun k hk => by simp at hk⟩ ?_
  rintro acc k hk ⟨h1, h2⟩
  rcases sweepStep_cases P acc k with h | ⟨r, hr, hv, h⟩
  · rw [h]; exact ⟨h1, h2⟩
  · rw [h]
    have hkm : isMarked s.nodes k = false := by
      cases hm : isMarked s.nodes k with
      | false => rfl
      | true =>
        have h3 := h1 k hm
        rw [hr] at h3
        rw [isMarked_of_findNode h3.symm, hv] at hm
        exact hm.symm
    refine ⟨fun x hx => ?_, fun k2 hk2 => ?_⟩
    · have hxk : x ≠ k := by
        intro hxk; rw [hxk, hkm] at hx; cases hx
      obtain ⟨rx, hrx, _⟩ := (isMarked_eq_true_iff _ _).1 hx
      rw [hrx]
      exact findNode_deleteEntry_of_ne P r k acc.1 hxk (by rw [h1 x hx]; exact hrx)
    · rcases List.mem_append.1 hk2 with h4 | h4
      · exact h2 k2 h4
      · rw [List.mem_singleton] at h4; subst h4; exact ⟨hk, hkm⟩

/-- Every unmarked record is destroyed by the sweep. -/
theorem sweep_complete (P : Program) (s : GCState) (k : Addr) (hk : k ∈ keys s.nodes)
    (hm : isMarked s.nodes k = false) : k ∈ (sweep P s).2 := by
  have hf : ∃ r, findNode s.nodes k = some r ∧ r.visited = false := by
    rw [← findNode_isSome_iff] at hk
    cases hf : findNode s.nodes k with
    | none => rw [hf] at hk; cases hk
    | some r => exact ⟨r, rfl, by rw [isMarked_of_findNode hf] at hm; exact hm⟩
  obtain ⟨r, hr, hv⟩ := hf
  have key : ∀ (ks : List Addr) (acc : GCState × List Addr), k ∈ ks →
      (k ∈ acc.2 ∨ findNode acc.1.nodes k = some r) → k ∈ (ks.foldl (sweepStep P) acc).2 := by
    intro ks
    induction ks with
    | nil => intro acc h; cases h
    | cons k0 ks ih =>
      intro acc hmem hacc
      rw [List.foldl_cons]
      rcases hacc with hacc | hacc
      · exact sweep_log_mono P ks _ k (sweep_log_mono P [k0] acc k hacc)
      · by_cases hk0 : k0 = k
        · subst hk0
          apply sweep_log_mono P ks _ k0
          rw [sweepStep_unmarked hacc hv]
          exact List.mem_append_right _ (List.mem_singleton_self _)
        · have hmem2 : k ∈ ks := by
            rcases List.mem_cons.1 hmem with h | h
            · exact absurd h.symm hk0
            · exact h
          apply ih _ hmem2
          rcases sweepStep_cases P acc k0 with h | ⟨r0, _, _, h⟩
          · rw [h]; exact Or.inr hacc
          · rw [h]
            exact Or.inr (findNode_deleteEntry_of_ne P r0 k0 acc.1 (Ne.symm hk0) hacc)
  exact key (keys s.nodes) (s, []) hk (Or.inr hr)

theorem mem_sweep_log_iff (P : Program) (s : GCState) (k : Addr) :
    k ∈ (sweep P s).2 ↔ k ∈ keys s.nodes ∧ isMarked s.nodes k = false :=
  ⟨fun h => (sweep_sound P s).2 k h, fun h => sweep_complete P s k h.1 h.2⟩

/-- A sweep that destroys nothing changes nothing. -/
theorem sweep_eq_of_log_nil (P : Program) (s : GCState) (h : (sweep P s).2 = []) :
    (sweep P s).1 = s := by
  have key : ∀ (ks : List Addr) (acc : GCState × List Addr),
      (ks.foldl (sweepStep P) acc).2 = [] → ks.foldl (sweepStep P) acc = acc := by
    intro ks
    induction ks with
    | nil => intro acc _; rfl
    | cons k0 ks ih =>
      intro acc hnil
      rw [List.foldl_cons] at hnil ⊢
      rcases sweepStep_cases P acc k0 with h | ⟨r, _, _, h⟩
      · rw [h] at hnil ⊢; exact ih acc hnil
      · exfalso
        have := sweep_log_mono P ks (sweepStep P acc k0) k0
          (by rw [h]; exact List.mem_append_right _ (List.mem_singleton_self _))
        rw [hnil] at this
        cases this
  have := key (keys s.nodes) (s, []) h
  unfold sweep
  rw [this]


/-! ## The sweep loop with the entries registered while it runs -/

theorem sweepLive_nil (P : Program) (fuel : Nat) (acc : GCState × List Addr) :
    sweepLive P fuel [] acc = some acc := by
  cases fuel <;> rfl

theorem sweepLive_cons (P : Program) (fuel : Nat) (k : Addr) (todo : List Addr)
    (acc : GCState × List Addr) :
    sweepLive P (fuel + 1) (k :: todo) acc =
      sweepLive P fuel (todo ++ stepAhead P acc k) (sweepStep P acc k) := rfl

theorem sweepStep_log (P : Program) (acc : GCState × List Addr) (k : Addr) :
    (sweepStep P acc k).2 = acc.2 ∨ (sweepStep P acc k).2 = acc.2 ++ [k] := by
  rcases sweepStep_cases P acc k with h | ⟨r, _, _, h⟩
  · exact Or.inl (by rw [h])
  · exact Or.inr (by rw [h])

/-- An iteration that destroys nothing adds nothing to the entries ahead of the iterator. -/
theorem stepAhead_of_log_eq (P : Program) (acc : GCState × List Addr) (k : Addr)
    (h : (sweepStep P acc k).2 = acc.2) :
    stepAhead P acc k = [] ∧ sweepStep P acc k = acc := by
  unfold stepAhead
  cases hf : findNode acc.1.nodes k with
  | none => exact ⟨rfl, sweepStep_none hf⟩
  | some r =>
    cases hv : r.visited with
    | true => exact ⟨by simp [hv], sweepStep_marked hf hv⟩
    | false =>
      rw [sweepStep_unmarked hf hv] at h
      have := congrArg List.length h
      simp at this

theorem registeredBy_of_nodes_eq {s s1 : GCState} (h : s1.nodes = s.nodes) :
    registeredBy s s1 = [] := by
  unfold registeredBy
  rw [h]
  simp

/-- A property of state and log that every iteration keeps holds when the sweep loop ends. -/
theorem sweepLive_invariant (P : Program) (I : GCState × List Addr → Prop)
    (hstep : ∀ acc k, I acc → I (sweepStep P acc k)) :
    ∀ (fuel : Nat) (todo : List Addr) (acc r : GCState × List Addr), I acc →
      sweepLive P fuel todo acc = some r → I r := by
  intro fuel
  induction fuel with
  | zero =>
    intro todo acc r hI h
    cases todo with
    | nil => rw [sweepLive_nil] at h; cases h; exact hI
    | cons k todo => cases h
  | succ fuel ih =>
    intro todo acc r hI h
    cases todo with
    | nil => rw [sweepLive_nil] at h; cases h; exact hI
    | cons k todo =>
      rw [sweepLive_cons] at h
      exact ih _ _ r (hstep acc k hI) h

/-- The sweep loop only appends to the log. -/
theorem sweepLive_log (P : Program) (fuel : Nat) (todo : List Addr)
    (acc r : GCState × List Addr) (h : sweepLive P fuel todo acc = some r) :
    ∃ l, r.2 = acc.2 ++ l := by
  refine sweepLive_invariant P (fun a => ∃ l, a.2 = acc.2 ++ l) ?_ fuel todo acc r ⟨[], by simp⟩ h
  rintro a k ⟨l, hl⟩
  rcases sweepStep_log P a k with h1 | h1
  · exact ⟨l, by rw [h1, hl]⟩
  · exact ⟨l ++ [k], by rw [h1, hl, List.append_assoc]⟩

/-- A sweep loop that ends with the log it started with has changed nothing, and so has the
loop over the entries present at its start. -/
theorem sweepLive_of_log_eq (P : Program) :
    ∀ (fuel : Nat) (todo : List Addr) (acc r : GCState × List Addr),
      sweepLive P fuel todo acc = some r → r.2 = acc.2 →
      r = acc ∧ todo.foldl (sweepStep P) acc = acc := by
  intro fuel
  induction fuel with
  | zero =>
    intro todo acc r h _
    cases todo with
    | nil => rw [sweepLive_nil] at h; cases h; exact ⟨rfl, rfl⟩
    | cons k todo => cases h
  | succ fuel ih =>
    intro todo acc r h hlog
    cases todo with
    | nil => rw [sweepLive_nil] at h; cases h; exact ⟨rfl, rfl⟩
    | cons k todo =>
      rw [sweepLive_cons] at h
      have hk : (sweepStep P acc k).2 = acc.2 := by
        rcases sweepStep_log P acc k with h1 | h1
        · exact h1
        · obtain ⟨l, hl⟩ := sweepLive_log P _ _ _ r h
          rw [hlog, h1, List.append_assoc] at hl
          have := congrArg List.length hl
          simp at this
      obtain ⟨h1, h2⟩ := stepAhead_of_log_eq P acc k hk
      rw [h1, h2, List.append_nil] at h
      obtain ⟨h3, h4⟩ := ih todo acc r h hlog
      exact ⟨h3, by rw [List.foldl_cons, h2, h4]⟩

/-- When the loop over the entries present at the start destroys nothing, the sweep loop ends
there and has changed nothing. -/
theorem sweepLive_of_fold_log_eq (P : Program) :
    ∀ (todo : List Addr) (acc : GCState × List Addr),
      (todo.foldl (sweepStep P) acc).2 = acc.2 →
      ∀ fuel, todo.length ≤ fuel → sweepLive P fuel todo acc = some acc := by
  intro todo
  induction todo with
  | nil => intro acc _ fuel _; exact sweepLive_nil P fuel acc
  | cons k todo ih =>
    intro acc h fuel hf
    cases fuel with
    | zero => simp at hf
    | succ fuel =>
      rw [List.foldl_cons] at h
      have hk : (sweepStep P acc k).2 = acc.2 := by
        rcases sweepStep_log P acc k with h1 | h1
        · exact h1
        · have hm := sweep_log_mono P todo (sweepStep P acc k) k (by rw [h1]; simp)
          rw [h] at hm
          have hlen : ∀ (ks : List Addr) (a : GCState × List Addr),
              a.2.length ≤ (ks.foldl (sweepStep P) a).2.length := by
            intro ks
            induction ks with
            | nil => intro a; exact Nat.le_refl _
            | cons k0 ks ihk =>
              intro a
              rw [List.foldl_cons]
              refine Nat.le_trans ?_ (ihk _)
              rcases sweepStep_log P a k0 with h2 | h2 <;> simp [h2]
          have := hlen todo (sweepStep P acc k)
          rw [h, h1] at this
          simp at this
      obtain ⟨h1, h2⟩ := stepAhead_of_log_eq P acc k hk
      rw [sweepLive_cons, h1, h2, List.append_nil]
      rw [h2] at h
      exact ih acc h fuel (by simpa using hf)

/-- When no iteration adds an entry ahead of the iterator, the sweep loop is the loop over the
entries present at its start. -/
theorem sweepLive_of_ahead_nil (P : Program) (hA : ∀ acc k, stepAhead P acc k = []) :
    ∀ (todo : List Addr) (acc : GCState × List Addr) (fuel : Nat), todo.length ≤ fuel →
      sweepLive P fuel todo acc = some (todo.foldl (sweepStep P) acc) := by
  intro todo
  induction todo with
  | nil => intro acc fuel _; exact sweepLive_nil P fuel acc
  | cons k todo ih =>
    intro acc fuel hf
    cases fuel with
    | zero => simp at hf
    | succ fuel =>
      rw [sweepLive_cons, hA, List.append_nil, List.foldl_cons]
      exact ih _ fuel (by simpa using hf)

/-- The sweep loop first passes the entries present at its start. -/
theorem sweepLive_append (P : Program) :
    ∀ (todo rest : List Addr) (fuel : Nat) (acc r : GCState × List Addr),
      sweepLive P fuel (todo ++ rest) acc = some r →
      ∃ fuel2 rest2, sweepLive P fuel2 (rest ++ rest2) (todo.foldl (sweepStep P) acc) = some r := by
  intro todo
  induction todo with
  | nil => intro rest fuel acc r h; exact ⟨fuel, [], by simpa using h⟩
  | cons k todo ih =>
    intro rest fuel acc r h
    cases fuel with
    | zero => cases h
    | succ fuel =>
      rw [List.cons_append, sweepLive_cons, List.append_assoc] at h
      obtain ⟨f2, r2, h2⟩ := ih _ fuel _ r h
      exact ⟨f2, stepAhead P acc k ++ r2, by rw [List.foldl_cons, ← List.append_assoc]; exact h2⟩

/-! ### One round -/

theorem liveRound_invariant (P : Program) (I : GCState × List Addr → Prop)
    (hstep : ∀ acc k, I acc → I (sweepStep P acc k)) (fuel : Nat) (s : GCState)
    (r : GCState × List Addr) (h0 : I (mark P s, [])) (h : liveRound P fuel s = some r) : I r :=
  sweepLive_invariant P I hstep _ _ _ r h0 h

/-- A round that destroys nothing leaves the state of its mark phase, and its loop over the
entries present at the start destroys nothing. -/
theorem liveRound_of_log_nil (P : Program) (fuel : Nat) (s : GCState)
    (r : GCState × List Addr) (h : liveRound P fuel s = some r) (hnil : r.2 = []) :
    r = (mark P s, []) ∧ collectRound P s = (mark P s, []) := by
  obtain ⟨h1, h2⟩ := sweepLive_of_log_eq P _ _ _ r h hnil
  exact ⟨h1, h2⟩

/-- When the loop over the entries present at the start destroys nothing, the round ends there,
whatever the bound. -/
theorem liveRound_of_collectRound_nil (P : Program) (s : GCState)
    (hnil : (collectRound P s).2 = []) (fuel : Nat) :
    liveRound P fuel s = some (mark P s, []) := by
  unfold liveRound
  refine sweepLive_of_fold_log_eq P _ _ hnil _ ?_
  simp [keys]

/-- The deletions of the loop over the entries present at the start come first in the log of
the round. -/
theorem liveRound_log_prefix (P : Program) (fuel : Nat) (s : GCState)
    (r : GCState × List Addr) (h : liveRound P fuel s = some r) :
    ∃ l, r.2 = (collectRound P s).2 ++ l := by
  unfold liveRound at h
  have h2 : sweepLive P ((mark P s).nodes.length + fuel) (keys (mark P s).nodes ++ [])
      (mark P s, []) = some r := by simpa using h
  obtain ⟨f2, r2, h3⟩ := sweepLive_append P _ _ _ _ r h2
  exact sweepLive_log P _ _ _ r h3


/-! ## One round of `collect` -/

theorem mem_collectRound_log_iff (P : Program) (s : GCState) (k : Addr) :
    k ∈ (collectRound P s).2 ↔ k ∈ keys s.nodes ∧ ¬ Reachable P s k := by
  unfold collectRound
  rw [mem_sweep_log_iff, keys_mark, ← isMarked_mark_iff]
  simp

theorem collectRound_findNode_of_reachable (P : Program) (s : GCState) (a : Addr)
    (h : Reachable P s a) :
    findNode (collectRound P s).1.nodes a = findNode (mark P s).nodes a :=
  (sweep_sound P (mark P s)).1 a ((isMarked_mark_iff P s a).2 h)

theorem collectRound_eq_of_log_nil (P : Program) (s : GCState)
    (h : (collectRound P s).2 = []) : (collectRound P s).1 = mark P s :=
  sweep_eq_of_log_nil P (mark P s) h

theorem reachable_mem_keys {P : Program} {s : GCState} {a : Addr} (h : Reachable P s a) :
    a ∈ keys s.nodes := by
  cases h with
  | root _ _ hk => exact hk
  | step _ _ hk => exact hk

/-- Reachability carries over to a state with the same roots and handles in which the
reachable records have the same traversal. -/
theorem reachable_transfer {P : Program} {s1 s2 : GCState} (hroots : s2.roots = s1.roots)
    (hhandles : s2.handles = s1.handles)
    (hrec : ∀ a, Reachable P s1 a → ∀ r1, findNode s1.nodes a = some r1 →
      ∃ r2, findNode s2.nodes a = some r2 ∧ r2.ptr = r1.ptr ∧ r2.operations = r1.operations)
    {a : Addr} (h : Reachable P s1 a) : Reachable P s2 a := by
  have hkey : ∀ b, Reachable P s1 b → b ∈ keys s2.nodes := by
    intro b hb
    have hbk := reachable_mem_keys hb
    rw [← findNode_isSome_iff] at hbk
    cases hf : findNode s1.nodes b with
    | none => rw [hf] at hbk; cases hbk
    | some r1 =>
      obtain ⟨r2, h2, _⟩ := hrec b hb r1 hf
      exact mem_keys_of_findNode h2
  induction h with
  | @root h a hh ha hk =>
    exact Reachable.root (by rw [hroots]; exact hh) (by rw [hhandles]; exact ha)
      (hkey a (Reachable.root hh ha hk))
  | @step a b hra hedge hk ih =>
    obtain ⟨r1, f, hr1, hf, hb⟩ := hedge
    obtain ⟨r2, hr2, hp, ho⟩ := hrec a hra r1 hr1
    refine Reachable.step ih ⟨r2, f, hr2, by rw [hp, ho]; exact hf, by rw [hhandles]; exact hb⟩
      (hkey b (Reachable.step hra ⟨r1, f, hr1, hf, hb⟩ hk))

theorem mark_findNode (P : Program) (s : GCState) {a : Addr} {r : PointerData}
    (h : findNode s.nodes a = some r) :
    ∃ r2, findNode (mark P s).nodes a = some r2 ∧ r2.ptr = r.ptr ∧
      r2.operations = r.operations := by
  have h1 : findNode (resetMarks s.nodes) a = some { r with visited := false } := by
    rw [findNode_resetMarks, h]; rfl
  obtain ⟨r2, h2, hp, ho, _⟩ := (mark_ext P s).findNode_fwd h1
  exact ⟨r2, h2, hp, ho⟩

/-! ## One round, with the entries registered while it runs -/

/-- An iteration of the sweep loop keeps the records that are marked in `m` as they are and
destroys only keys that are not marked in `m`. -/
theorem sweepStep_keeps_marked (P : Program) (m : List (Addr × PointerData))
    (acc : GCState × List Addr) (k : Addr)
    (h : (∀ x, isMarked m x = true → findNode acc.1.nodes x = findNode m x) ∧
      ∀ a ∈ acc.2, isMarked m a = false) :
    (∀ x, isMarked m x = true → findNode (sweepStep P acc k).1.nodes x = findNode m x) ∧
      ∀ a ∈ (sweepStep P acc k).2, isMarked m a = false := by
  obtain ⟨h1, h2⟩ := h
  rcases sweepStep_cases P acc k with h | ⟨r, hr, hv, h⟩
  · rw [h]; exact ⟨h1, h2⟩
  · rw [h]
    have hkm : isMarked m k = false := by
      cases hm : isMarked m k with
      | false => rfl
      | true =>
        have h3 := h1 k hm
        rw [hr] at h3
        rw [isMarked_of_findNode h3.symm, hv] at hm
        exact hm.symm
    refine ⟨fun x hx => ?_, fun k2 hk2 => ?_⟩
    · have hxk : x ≠ k := by
        intro hxk; rw [hxk, hkm] at hx; cases hx
      obtain ⟨rx, hrx, _⟩ := (isMarked_eq_true_iff _ _).1 hx
      rw [hrx]
      exact findNode_deleteEntry_of_ne P r k acc.1 hxk (by rw [h1 x hx]; exact hrx)
    · rcases List.mem_append.1 hk2 with h4 | h4
      · exact h2 k2 h4
      · rw [List.mem_singleton] at h4; subst h4; exact hkm

/-- A round neither destroys nor changes a record that is reachable when the round starts. -/
theorem liveRound_findNode_of_reachable (P : Program) (fuel : Nat) (s : GCState)
    (r : GCState × List Addr) (h : liveRound P fuel s = some r) (a : Addr)
    (ha : Reachable P s a) :
    findNode r.1.nodes a = findNode (mark P s).nodes a ∧ a ∉ r.2 := by
  have hI := liveRound_invariant P
    (fun acc => (∀ x, isMarked (mark P s).nodes x = true →
        findNode acc.1.nodes x = findNode (mark P s).nodes x) ∧
      ∀ a ∈ acc.2, isMarked (mark P s).nodes a = false)
    (fun acc k hI => sweepStep_keeps_marked P _ acc k hI) fuel s r
    ⟨fun _ _ => rfl, fun a ha => by simp at ha⟩ h
  have hm := (isMarked_mark_iff P s a).2 ha
  refine ⟨hI.1 a hm, fun hl => ?_⟩
  rw [hI.2 a hl] at hm
  cases hm

theorem sweepStep_removed_logged (P : Program) (acc : GCState × List Addr) (k a : Addr)
    (h : a ∈ keys acc.1.nodes ∨ a ∈ acc.2) :
    a ∈ keys (sweepStep P acc k).1.nodes ∨ a ∈ (sweepStep P acc k).2 := by
  rcases sweepStep_cases P acc k with h1 | ⟨r, _, _, h1⟩
  · rw [h1]; exact h
  · rw [h1]
    rcases h with h2 | h2
    · by_cases hak : a = k
      · exact Or.inr (by simp [hak])
      · exact Or.inl (mem_keys_deleteEntry_of_ne P r k acc.1 hak h2)
    · exact Or.inr (List.mem_append_left _ h2)

/-- A record that has left the registry when a round ends has been destroyed by the round. -/
theorem liveRound_removed_logged (P : Program) (fuel : Nat) (s : GCState)
    (r : GCState × List Addr) (h : liveRound P fuel s = some r) (a : Addr)
    (ha : a ∈ keys s.nodes) : a ∈ keys r.1.nodes ∨ a ∈ r.2 :=
  liveRound_invariant P (fun acc => a ∈ keys acc.1.nodes ∨ a ∈ acc.2)
    (fun acc k hI => sweepStep_removed_logged P acc k a hI) fuel s r
    (Or.inl (by rw [keys_mark]; exact ha)) h

/-! ## The loop of `collect` -/

theorem collectLoop_succ (P : Program) (fuel : Nat) (s : GCState) (log : List Addr) :
    collectLoop P (fuel + 1) s log =
      match liveRound P fuel s with
      | none => none
      | some r => if r.2 = [] then some (r.1, log) else collectLoop P fuel r.1 (log ++ r.2) :=
  rfl

/-- Induction over the rounds of a call of `collect` that returns: a relation between the state
and log at the start of a round and the final state and log that holds for a last round and
is carried backwards over a round that deletes. -/
theorem collectLoop_induct (P : Program) (R : GCState → List Addr → GCState → List Addr → Prop)
    (hlast : ∀ s log, (collectRound P s).2 = [] → R s log (mark P s) log)
    (hround : ∀ s log fuel r s2 log2, liveRound P fuel s = some r → r.2 ≠ [] →
      R r.1 (log ++ r.2) s2 log2 → R s log s2 log2) :
    ∀ (fuel : Nat) (s : GCState) (log : List Addr) (s2 : GCState) (log2 : List Addr),
      collectLoop P fuel s log = some (s2, log2) → R s log s2 log2 := by
  intro fuel
  induction fuel with
  | zero => intro s log s2 log2 h; cases h
  | succ fuel ih =>
    intro s log s2 log2 h
    rw [collectLoop_succ] at h
    cases hr : liveRound P fuel s with
    | none => rw [hr] at h; cases h
    | some r =>
      rw [hr] at h
      simp only at h
      by_cases hnil : r.2 = []
      · rw [if_pos hnil] at h
        cases h
        obtain ⟨h1, h2⟩ := liveRound_of_log_nil P fuel s r hr hnil
        rw [h1]
        exact hlast s log (by rw [h2])
      · rw [if_neg hnil] at h
        exact hround s log fuel r s2 log2 hr hnil (ih _ _ _ _ h)

/-- The state in which `collect` returns is the state after a mark phase whose sweep found
nothing to destroy. -/
theorem collect_final (P : Program) (fuel : Nat) (s s2 : GCState) (log log2 : List Addr)
    (h : collectLoop P fuel s log = some (s2, log2)) :
    ∃ s0, s2 = mark P s0 ∧ (collectRound P s0).2 = [] :=
  collectLoop_induct P (fun _ _ s2 _ => ∃ s0, s2 = mark P s0 ∧ (collectRound P s0).2 = [])
    (fun s _ hnil => ⟨s, rfl, hnil⟩) (fun _ _ _ _ _ _ _ _ h => h) fuel s log s2 log2 h

/-- When `collect` returns, every record of the registry is reachable from the root set. -/
theorem collect_final_reachable (P : Program) (fuel : Nat) (s s2 : GCState)
    (log log2 : List Addr) (h : collectLoop P fuel s log = some (s2, log2)) :
    ∀ a ∈ keys s2.nodes, Reachable P s2 a := by
  obtain ⟨s0, rfl, hnil⟩ := collect_final P fuel s s2 log log2 h
  intro a ha
  rw [keys_mark] at ha
  rw [reachable_mark_iff]
  by_contra hn
  have := (mem_collectRound_log_iff P s0 a).2 ⟨ha, hn⟩
  rw [hnil] at this
  cases this

/-- A second call of `collect` right after a call that returned does one round that destroys
nothing and returns the same state. -/
theorem collect_again (P : Program) (fuel : Nat) (s s2 : GCState) (log log2 : List Addr)
    (h : collectLoop P fuel s log = some (s2, log2)) (n : Nat) (log3 : List Addr) :
    collectLoop P (n + 1) s2 log3 = some (s2, log3) := by
  obtain ⟨s0, rfl, hnil⟩ := collect_final P fuel s s2 log log2 h
  have hr : collectRound P (mark P s0) = collectRound P s0 := by
    unfold collectRound; rw [mark_mark]
  have hl := liveRound_of_collectRound_nil P (mark P s0) (by rw [hr]; exact hnil) n
  rw [mark_mark] at hl
  rw [collectLoop_succ, hl]
  rfl

/-- The log handed to the loop is a prefix of the log it returns. -/
theorem collectLoop_eq_map (P : Program) :
    ∀ (fuel : Nat) (s : GCState) (log : List Addr),
      collectLoop P fuel s log =
        (collectLoop P fuel s []).map (fun r => (r.1, log ++ r.2)) := by
  intro fuel
  induction fuel with
  | zero => intro s log; rfl
  | succ fuel ih =>
    intro s log
    rw [collectLoop_succ, collectLoop_succ]
    cases hr : liveRound P fuel s with
    | none => rfl
    | some r =>
      simp only
      by_cases hnil : r.2 = []
      · simp [hnil]
      · rw [if_neg hnil, if_neg hnil, ih _ (log ++ r.2), ih _ ([] ++ r.2), Option.map_map]
        congr 1
        funext x
        simp [List.append_assoc]

theorem collect_succ (P : Program) (fuel : Nat) (s : GCState) :
    collect P (fuel + 1) s =
      match liveRound P fuel s with
      | none => none
      | some r =>
        if r.2 = [] then some (r.1, [])
        else (collect P fuel r.1).map (fun x => (x.1, r.2 ++ x.2)) := by
  unfold collect
  rw [collectLoop_succ]
  cases hr : liveRound P fuel s with
  | none => rfl
  | some r =>
    simp only
    by_cases hnil : r.2 = []
    · rw [if_pos hnil, if_pos hnil]
    · rw [if_neg hnil, if_neg hnil, List.nil_append, collectLoop_eq_map]

/-- The first round of a call of `collect`, when it ends and destroys nothing. -/
theorem collect_of_round_nil (P : Program) (fuel : Nat) (s : GCState)
    (hnil : (collectRound P s).2 = []) : collect P (fuel + 1) s = some (mark P s, []) := by
  rw [collect_succ, liveRound_of_collectRound_nil P s hnil fuel]
  rfl

/-- The first round of a call of `collect`, when it ends and destroys something. -/
theorem collect_of_round (P : Program) (fuel : Nat) (s : GCState) (r : GCState × List Addr)
    (hr : liveRound P fuel s = some r) (hne : r.2 ≠ []) :
    collect P (fuel + 1) s = (collect P fuel r.1).map (fun x => (x.1, r.2 ++ x.2)) := by
  rw [collect_succ, hr]
  simp only
  rw [if_neg hne]


/-- Induction over the rounds of a call of `collect` that returns. -/
theorem collect_induct (P : Program) (R : GCState → GCState → List Addr → Prop)
    (hlast : ∀ s, (collectRound P s).2 = [] → R s (mark P s) [])
    (hround : ∀ s fuel r s2 l, liveRound P fuel s = some r → r.2 ≠ [] → R r.1 s2 l →
      R s s2 (r.2 ++ l)) :
    ∀ (fuel : Nat) (s s2 : GCState) (l : List Addr),
      collect P fuel s = some (s2, l) → R s s2 l := by
  intro fuel
  induction fuel with
  | zero => intro s s2 l h; cases h
  | succ fuel ih =>
    intro s s2 l h
    rw [collect_succ] at h
    cases hr : liveRound P fuel s with
    | none => rw [hr] at h; cases h
    | some r =>
      rw [hr] at h
      simp only at h
      by_cases hnil : r.2 = []
      · rw [if_pos hnil] at h
        cases h
        obtain ⟨h1, h2⟩ := liveRound_of_log_nil P fuel s r hr hnil
        rw [h1]
        exact hlast s (by rw [h2])
      · rw [if_neg hnil] at h
        cases hc : collect P fuel r.1 with
        | none => rw [hc] at h; cases h
        | some x =>
          rw [hc] at h
          cases h
          exact hround s fuel r x.1 x.2 hr hnil (ih _ _ _ hc)

/-- A record that has left the registry when `collect` returns has been destroyed. -/
theorem collect_removed_logged (P : Program) (fuel : Nat) (s s2 : GCState) (l : List Addr)
    (h : collect P fuel s = some (s2, l)) :
    ∀ a ∈ keys s.nodes, a ∈ keys s2.nodes ∨ a ∈ l := by
  refine collect_induct P (fun s s2 l => ∀ a ∈ keys s.nodes, a ∈ keys s2.nodes ∨ a ∈ l)
    ?_ ?_ fuel s s2 l h
  · intro s _ a ha
    exact Or.inl (by rw [keys_mark]; exact ha)
  · intro s f r s2 l hr _ ih a ha
    rcases liveRound_removed_logged P f s r hr a ha with h1 | h1
    · rcases ih a h1 with h2 | h2
      · exact Or.inl h2
      · exact Or.inr (List.mem_append_right _ h2)
    · exact Or.inr (List.mem_append_left _ h1)

/-! ## Release strategies that leave the registry alone -/

theorem deleteEntry_nodes_of_keeps (P : Program) (hP : P.KeepsRegistry) (r : PointerData)
    (k : Addr) (s : GCState) : (deleteEntry P r k s).nodes = eraseNode s.nodes k := by
  rw [deleteEntry_nodes, hP]

theorem sweep_of_keeps (P : Program) (hP : P.KeepsRegistry) (s : GCState) :
    (sweep P s).1.nodes = s.nodes.filter (fun e => decide (e.1 ∉ (sweep P s).2)) ∧
      (sweep P s).2.Nodup := by
  unfold sweep
  refine foldl_invariant
    (fun acc : GCState × List Addr =>
      acc.1.nodes = s.nodes.filter (fun e => decide (e.1 ∉ acc.2)) ∧ acc.2.Nodup)
    (sweepStep P) (keys s.nodes) (s, []) ⟨by simp, List.nodup_nil⟩ ?_
  rintro acc k _ ⟨h1, h2⟩
  rcases sweepStep_cases P acc k with h | ⟨r, hr, _, h⟩
  · rw [h]; exact ⟨h1, h2⟩
  · rw [h]
    have hk : k ∉ acc.2 := by
      have := mem_keys_of_findNode hr
      rw [h1] at this
      simp only [keys, List.mem_map, List.mem_filter, decide_eq_true_eq] at this
      obtain ⟨e, ⟨_, he⟩, hek⟩ := this
      rw [hek] at he
      exact he
    refine ⟨?_, ?_⟩
    · simp only [deleteEntry_nodes_of_keeps P hP, eraseNode, h1, List.filter_filter]
      apply List.filter_congr
      intro e _
      simp [not_or, and_comm]
    · exact List.Nodup.append h2 (List.nodup_singleton k) (by simpa using hk)

theorem length_mark (P : Program) (s : GCState) : (mark P s).nodes.length = s.nodes.length := by
  rw [(mark_ext P s).length_eq]
  simp [resetMarks]

theorem collectRound_of_keeps (P : Program) (hP : P.KeepsRegistry) (s : GCState) :
    (∀ a, a ∈ keys (collectRound P s).1.nodes ↔ a ∈ keys s.nodes ∧ a ∉ (collectRound P s).2) ∧
      (collectRound P s).2.Nodup ∧
      (collectRound P s).1.nodes.length ≤ s.nodes.length ∧
      ((collectRound P s).2 ≠ [] → (collectRound P s).1.nodes.length < s.nodes.length) := by
  obtain ⟨h1, h2⟩ := sweep_of_keeps P hP (mark P s)
  have hlen := length_mark P s
  unfold collectRound
  refine ⟨?_, h2, ?_, ?_⟩
  · intro a
    rw [h1, ← keys_mark P s]
    simp only [keys, List.mem_map, List.mem_filter, decide_eq_true_eq]
    constructor
    · rintro ⟨e, ⟨he, hn⟩, rfl⟩; exact ⟨⟨e, he, rfl⟩, hn⟩
    · rintro ⟨⟨e, he, rfl⟩, hn⟩; exact ⟨e, ⟨he, hn⟩, rfl⟩
  · rw [h1, ← hlen]; exact List.length_filter_le _ _
  · intro hne
    rw [h1, ← hlen]
    obtain ⟨k, hk⟩ := List.exists_mem_of_ne_nil _ hne
    have hk2 := ((mem_sweep_log_iff P (mark P s) k).1 hk).1
    simp only [keys, List.mem_map] at hk2
    obtain ⟨e, he, hek⟩ := hk2
    apply List.length_filter_lt_length_iff_exists.2
    exact ⟨e, he, by simp [hek, hk]⟩

theorem stepAhead_of_keeps (P : Program) (hP : P.KeepsRegistry) (acc : GCState × List Addr)
    (k : Addr) : stepAhead P acc k = [] := by
  unfold stepAhead
  cases findNode acc.1.nodes k with
  | none => rfl
  | some r =>
    simp only
    split
    · rfl
    · rw [registeredBy_of_nodes_eq (hP _ _ _)]
      rfl

/-- When no iteration adds an entry ahead of the iterator, a round is the round over the
entries present when its sweep loop starts, whatever the bound. -/
theorem liveRound_of_ahead_nil (P : Program) (hA : ∀ acc k, stepAhead P acc k = [])
    (fuel : Nat) (s : GCState) : liveRound P fuel s = some (collectRound P s) := by
  unfold liveRound collectRound sweep
  exact sweepLive_of_ahead_nil P hA _ _ _ (by simp [keys])

theorem liveRound_of_keeps (P : Program) (hP : P.KeepsRegistry) (fuel : Nat) (s : GCState) :
    liveRound P fuel s = some (collectRound P s) :=
  liveRound_of_ahead_nil P (stepAhead_of_keeps P hP) fuel s

/-- When no release strategy registers an allocation, `collect` returns within as many rounds
as there are records, plus one. -/
theorem collect_returns (P : Program) (hP : P.KeepsRegistry) :
    ∀ (n : Nat) (s : GCState), s.nodes.length < n → ∃ r, collect P n s = some r := by
  intro n
  induction n with
  | zero => intro s h; exact absurd h (Nat.not_lt_zero _)
  | succ n ih =>
    intro s h
    by_cases hnil : (collectRound P s).2 = []
    · exact ⟨_, collect_of_round_nil P n s hnil⟩
    · rw [collect_of_round P n s _ (liveRound_of_keeps P hP n s) hnil]
      have hlt := (collectRound_of_keeps P hP s).2.2.2 hnil
      obtain ⟨r, hr⟩ := ih (collectRound P s).1 (by omega)
      rw [hr]
      exact ⟨_, rfl⟩

/-- When no release strategy registers an allocation, no key is destroyed twice and the keys
destroyed are the keys that have left the registry. -/
theorem collect_log_of_keeps (P : Program) (hP : P.KeepsRegistry) (fuel : Nat)
    (s s2 : GCState) (l : List Addr) (h : collect P fuel s = some (s2, l)) :
    l.Nodup ∧ (∀ a, a ∈ l ↔ a ∈ keys s.nodes ∧ a ∉ keys s2.nodes) ∧
      ∀ a ∈ keys s2.nodes, a ∈ keys s.nodes := by
  refine collect_induct P
    (fun s s2 l => l.Nodup ∧ (∀ a, a ∈ l ↔ a ∈ keys s.nodes ∧ a ∉ keys s2.nodes) ∧
      ∀ a ∈ keys s2.nodes, a ∈ keys s.nodes) ?_ ?_ fuel s s2 l h
  · intro s _
    refine ⟨List.nodup_nil, fun a => ?_, fun a ha => by rw [keys_mark] at ha; exact ha⟩
    rw [keys_mark]; simp
  · intro s f r s2 l hr _ ⟨ih1, ih2, ih3⟩
    have hr2 := liveRound_of_keeps P hP f s
    rw [hr] at hr2
    cases hr2
    obtain ⟨hk, hnd, _, _⟩ := collectRound_of_keeps P hP s
    refine ⟨?_, fun a => ?_, fun a ha => ((hk a).1 (ih3 a ha)).1⟩
    · refine List.Nodup.append hnd ih1 ?_
      intro a ha1 ha2
      exact ((hk a).1 ((ih2 a).1 ha2).1).2 ha1
    · rw [List.mem_append, ih2 a, hk a]
      constructor
      · rintro (h1 | ⟨⟨h1, _⟩, h2⟩)
        · refine ⟨((mem_collectRound_log_iff P s a).1 h1).1, fun h3 => ?_⟩
          exact ((hk a).1 (ih3 a h3)).2 h1
        · exact ⟨h1, h2⟩
      · rintro ⟨h1, h2⟩
        by_cases h3 : a ∈ (collectRound P s).2
        · exact Or.inl h3
        · exact Or.inr ⟨⟨h1, h3⟩, h2⟩

/-! ## The recursion of the mark phase -/

theorem sweepLiveRuns_nil (P : Program) (fuel : Nat) (acc : GCState × List Addr) :
    sweepLiveRuns P fuel [] acc = some [] := by
  cases fuel <;> rfl

theorem sweepLiveRuns_cons (P : Program) (fuel : Nat) (k : Addr) (todo : List Addr)
    (acc : GCState × List Addr) :
    sweepLiveRuns P (fuel + 1) (k :: todo) acc =
      (sweepLiveRuns P fuel (todo ++ stepAhead P acc k) (sweepStep P acc k)).map
        (fun l => stepRun acc k ++ l) := rfl

/-- The iteration at `k` makes no call and changes nothing, or makes the call of the release
strategy of the record of `k`, which is unmarked, and erases the entry. -/
theorem stepRun_cases (P : Program) (acc : GCState × List Addr) (k : Addr) :
    (stepRun acc k = [] ∧ sweepStep P acc k = acc ∧ stepAhead P acc k = []) ∨
      ∃ r, findNode acc.1.nodes k = some r ∧ r.visited = false ∧
        stepRun acc k = [⟨k, r.operations.deleter, acc.1⟩] ∧
        sweepStep P acc k = (deleteEntry P r k acc.1, acc.2 ++ [k]) ∧
        stepAhead P acc k =
          (Run.registers P ⟨k, r.operations.deleter, acc.1⟩).filter (P.ahead k) := by
  unfold stepRun stepAhead
  cases hf : findNode acc.1.nodes k with
  | none => exact Or.inl ⟨rfl, sweepStep_none hf, rfl⟩
  | some r =>
    cases hv : r.visited with
    | true => exact Or.inl ⟨by simp [hv], sweepStep_marked hf hv, by simp [hv]⟩
    | false =>
      exact Or.inr ⟨r, rfl, hv, by simp [hv], sweepStep_unmarked hf hv,
        by simp [hv, Run.registers, Run.post]⟩

/-- The sweep loop returns exactly when its list of calls is defined. -/
theorem sweepLiveRuns_of_sweepLive (P : Program) :
    ∀ (fuel : Nat) (todo : List Addr) (acc r : GCState × List Addr),
      sweepLive P fuel todo acc = some r → ∃ l, sweepLiveRuns P fuel todo acc = some l := by
  intro fuel
  induction fuel with
  | zero =>
    intro todo acc r h
    cases todo with
    | nil => exact ⟨[], sweepLiveRuns_nil P 0 acc⟩
    | cons k todo => cases h
  | succ fuel ih =>
    intro todo acc r h
    cases todo with
    | nil => exact ⟨[], sweepLiveRuns_nil P _ acc⟩
    | cons k todo =>
      rw [sweepLive_cons] at h
      obtain ⟨l, hl⟩ := ih _ _ r h
      exact ⟨stepRun acc k ++ l, by rw [sweepLiveRuns_cons, hl]; rfl⟩

/-- Induction over the iterations of a sweep loop that ends, with its calls: a relation between
the state and log at an iteration, the calls made from there on, and the final state and log. -/
theorem sweepLive_runs_induct (P : Program)
    (R : GCState × List Addr → List Run → GCState × List Addr → Prop)
    (hrefl : ∀ acc, R acc [] acc)
    (hstep : ∀ acc k l r, R (sweepStep P acc k) l r → R acc (stepRun acc k ++ l) r) :
    ∀ (fuel : Nat) (todo : List Addr) (acc r : GCState × List Addr) (l : List Run),
      sweepLive P fuel todo acc = some r → sweepLiveRuns P fuel todo acc = some l →
      R acc l r := by
  intro fuel
  induction fuel with
  | zero =>
    intro todo acc r l h hl
    cases todo with
    | nil =>
      rw [sweepLive_nil] at h; rw [sweepLiveRuns_nil] at hl
      cases h; cases hl
      exact hrefl acc
    | cons k todo => cases h
  | succ fuel ih =>
    intro todo acc r l h hl
    cases todo with
    | nil =>
      rw [sweepLive_nil] at h; rw [sweepLiveRuns_nil] at hl
      cases h; cases hl
      exact hrefl acc
    | cons k todo =>
      rw [sweepLive_cons] at h
      rw [sweepLiveRuns_cons] at hl
      cases hl2 : sweepLiveRuns P fuel (todo ++ stepAhead P acc k) (sweepStep P acc k) with
      | none => rw [hl2] at hl; cases hl
      | some l2 =>
        rw [hl2] at hl
        cases hl
        exact hstep acc k l2 r (ih _ _ r l2 h hl2)

/-- Induction over the iterations of the loop over the entries of given keys, with its
calls. -/
theorem sweep_runs_induct (P : Program)
    (R : GCState × List Addr → List Run → GCState × List Addr → Prop)
    (hrefl : ∀ acc, R acc [] acc)
    (hstep : ∀ acc k l r, R (sweepStep P acc k) l r → R acc (stepRun acc k ++ l) r) :
    ∀ (ks : List Addr) (acc : GCState × List Addr),
      R acc (sweepRuns P ks acc) (ks.foldl (sweepStep P) acc) := by
  intro ks
  induction ks with
  | nil => intro acc; exact hrefl acc
  | cons k ks ih =>
    intro acc
    exact hstep acc k _ _ (ih (sweepStep P acc k))

/-- The log of the sweep loop lists the keys of its calls. -/
theorem sweepLive_log_runs (P : Program) (fuel : Nat) (todo : List Addr)
    (acc r : GCState × List Addr) (l : List Run) (h : sweepLive P fuel todo acc = some r)
    (hl : sweepLiveRuns P fuel todo acc = some l) : r.2 = acc.2 ++ l.map Run.key := by
  refine sweepLive_runs_induct P (fun acc l r => r.2 = acc.2 ++ l.map Run.key)
    (fun acc => by simp) ?_ fuel todo acc r l h hl
  intro acc k l r ih
  rcases stepRun_cases P acc k with ⟨h1, h2, _⟩ | ⟨rec, _, _, h1, h2, _⟩
  · rw [h1, ← h2]; exact ih
  · rw [h1, ih, h2]
    simp

theorem liveRoundRuns_of_liveRound (P : Program) (fuel : Nat) (s : GCState)
    (r : GCState × List Addr) (h : liveRound P fuel s = some r) :
    ∃ l, liveRoundRuns P fuel s = some l ∧ r.2 = l.map Run.key := by
  obtain ⟨l, hl⟩ := sweepLiveRuns_of_sweepLive P _ _ _ r h
  refine ⟨l, hl, ?_⟩
  have := sweepLive_log_runs P _ _ _ r l h hl
  simpa using this

theorem collectRuns_succ (P : Program) (fuel : Nat) (s : GCState) :
    collectRuns P (fuel + 1) s =
      match liveRound P fuel s, liveRoundRuns P fuel s with
      | some r, some l =>
        if r.2 = [] then some l else (collectRuns P fuel r.1).map (fun l2 => l ++ l2)
      | _, _ => none := rfl

/-- Induction over the rounds of a call of `collect` that returns, with its calls of release
strategies. -/
theorem collect_runs_induct (P : Program) (R : GCState → List Run → GCState → Prop)
    (hlast : ∀ s, (collectRound P s).2 = [] → R s [] (mark P s))
    (hround : ∀ s fuel r l s2 l2, liveRound P fuel s = some r →
      liveRoundRuns P fuel s = some l → r.2 ≠ [] → R r.1 l2 s2 → R s (l ++ l2) s2) :
    ∀ (fuel : Nat) (s s2 : GCState) (log : List Addr) (runs : List Run),
      collect P fuel s = some (s2, log) → collectRuns P fuel s = some runs →
      R s runs s2 := by
  intro fuel
  induction fuel with
  | zero => intro s s2 log runs h; cases h
  | succ fuel ih =>
    intro s s2 log runs h hruns
    rw [collect_succ] at h
    rw [collectRuns_succ] at hruns
    cases hr : liveRound P fuel s with
    | none => rw [hr] at h; cases h
    | some r =>
      obtain ⟨l, hl, hlog⟩ := liveRoundRuns_of_liveRound P fuel s r hr
      rw [hr] at h
      rw [hr, hl] at hruns
      simp only at h hruns
      by_cases hnil : r.2 = []
      · rw [if_pos hnil] at h hruns
        cases h
        have hruns2 := Option.some.inj hruns
        subst hruns2
        obtain ⟨h1, h2⟩ := liveRound_of_log_nil P fuel s r hr hnil
        have hl0 : l = [] := by
          rw [hnil] at hlog
          exact List.map_eq_nil_iff.1 hlog.symm
        rw [h1, hl0]
        exact hlast s (by rw [h2])
      · rw [if_neg hnil] at h hruns
        cases hc : collect P fuel r.1 with
        | none => rw [hc] at h; cases h
        | some x =>
          rw [hc] at h
          cases h
          cases hc2 : collectRuns P fuel r.1 with
          | none => rw [hc2] at hruns; cases hruns
          | some l2 =>
            rw [hc2] at hruns
            cases hruns
            exact hround s fuel r l x.1 l2 hr hl hnil (ih _ _ _ _ hc hc2)

/-- A call of `collect` that returns has a list of calls, whose keys are the log. -/
theorem collectRuns_of_collect (P : Program) :
    ∀ (fuel : Nat) (s s2 : GCState) (log : List Addr), collect P fuel s = some (s2, log) →
      ∃ runs, collectRuns P fuel s = some runs ∧ log = runs.map Run.key := by
  intro fuel
  induction fuel with
  | zero => intro s s2 log h; cases h
  | succ fuel ih =>
    intro s s2 log h
    rw [collect_succ] at h
    rw [collectRuns_succ]
    cases hr : liveRound P fuel s with
    | none => rw [hr] at h; cases h
    | some r =>
      obtain ⟨l, hl, hlog⟩ := liveRoundRuns_of_liveRound P fuel s r hr
      rw [hr] at h
      rw [hl]
      simp only at h ⊢
      by_cases hnil : r.2 = []
      · rw [if_pos hnil] at h ⊢
        cases h
        exact ⟨l, rfl, by rw [← hlog, hnil]⟩
      · rw [if_neg hnil] at h ⊢
        cases hc : collect P fuel r.1 with
        | none => rw [hc] at h; cases h
        | some x =>
          rw [hc] at h
          cases h
          obtain ⟨l2, hl2, hlog2⟩ := ih _ _ _ hc
          refine ⟨l ++ l2, by rw [hl2]; rfl, ?_⟩
          simp [hlog, hlog2]

/-- A property of state and log that every iteration keeps, when the call it makes has the
property `Q`, holds when the sweep loop ends, if all its calls have the property `Q`. -/
theorem sweepLive_runs_invariant (P : Program) (I : GCState × List Addr → Prop)
    (Q : Run → Prop)
    (hstep : ∀ acc k, I acc → (∀ e ∈ stepRun acc k, Q e) → I (sweepStep P acc k))
    (fuel : Nat) (todo : List Addr) (acc r : GCState × List Addr) (l : List Run)
    (h : sweepLive P fuel todo acc = some r) (hl : sweepLiveRuns P fuel todo acc = some l)
    (hI : I acc) (hQ : ∀ e ∈ l, Q e) : I r := by
  refine sweepLive_runs_induct P (fun acc l r => I acc → (∀ e ∈ l, Q e) → I r)
    (fun _ h _ => h) ?_ fuel todo acc r l h hl hI hQ
  intro acc k l r ih hI hQ
  exact ih (hstep acc k hI (fun e he => hQ e (List.mem_append_left _ he)))
    (fun e he => hQ e (List.mem_append_right _ he))

/-- The same for the loop over the entries present at the start. -/
theorem sweep_runs_invariant (P : Program) (I : GCState × List Addr → Prop) (Q : Run → Prop)
    (hstep : ∀ acc k, I acc → (∀ e ∈ stepRun acc k, Q e) → I (sweepStep P acc k))
    (ks : List Addr) (acc : GCState × List Addr) (hI : I acc)
    (hQ : ∀ e ∈ sweepRuns P ks acc, Q e) : I (ks.foldl (sweepStep P) acc) := by
  refine sweep_runs_induct P (fun acc l r => I acc → (∀ e ∈ l, Q e) → I r)
    (fun _ h _ => h) ?_ ks acc hI hQ
  intro acc k l r ih hI hQ
  exact ih (hstep acc k hI (fun e he => hQ e (List.mem_append_left _ he)))
    (fun e he => hQ e (List.mem_append_right _ he))

/-! ### The call that destroys a record -/

/-- C2: `collect` reclaims everything unreachable within the one call.  When `collect` returns,
every record left in the registry is reachable from the root set of the final state, and every
record registered at entry that is not reachable in the final state has been destroyed and is no
longer registered; this holds for every program, whatever its release strategies do to the root
set.  When no release strategy registers an allocation, `collect` does return. -/
theorem collect_reclaims_unreachable (P : Program) (s : GCState) :
    (∀ fuel s2 log, collect P fuel s = some (s2, log) →
        (∀ a ∈ keys s2.nodes, Reachable P s2 a) ∧
          ∀ a ∈ keys s.nodes, ¬ Reachable P s2 a → a ∈ log ∧ a ∉ keys s2.nodes) ∧
      (P.KeepsRegistry → ∃ r, collect P (s.nodes.length + 1) s = some r) := by
  refine ⟨fun fuel s2 log h => ?_, fun hP => collect_returns P hP _ s (Nat.lt_succ_self _)⟩
  have h1 := collect_final_reachable P fuel s s2 [] log h
  refine ⟨h1, fun a ha hn => ?_⟩
  have hk : a ∉ keys s2.nodes := fun hk => hn (h1 a hk)
  rcases collect_removed_logged P fuel s s2 log h a ha with h2 | h2
  · exact absurd h2 hk
  · exact ⟨h2, hk⟩

/-- An allocation kept alive only through a root handle owned by a destroyed object is destroyed
by the same call of `collect`: the instance of C2 at `ownerState`. -/
theorem collect_reclaims_unreachable_witness :
    (collect ownerProgram 3 ownerState).map (fun r => (keys r.1.nodes, r.1.roots, r.2)) =
        some ([], [], [10, 20]) ∧
      ∀ s2 log, collect ownerProgram 3 ownerState = some (s2, log) →
        (∀ a ∈ keys s2.nodes, Reachable ownerProgram s2 a) ∧
          ∀ a ∈ keys ownerState.nodes, ¬ Reachable ownerProgram s2 a →
            a ∈ log ∧ a ∉ keys s2.nodes :=
  ⟨by decide, fun s2 log h =>
    (collect_reclaims_unreachable ownerProgram ownerState).1 3 s2 log h⟩

/-- C5: `collect` is idempotent.  A call of `collect` on the state in which a call of `collect`
has returned performs one round, calls no release strategy, and returns the same state (so the
same registry). -/
theorem collect_idempotent (P : Program) (fuel : Nat) (s s1 : GCState) (log : List Addr)
    (h : collect P fuel s = some (s1, log)) (n : Nat) :
    collect P (n + 1) s1 = some (s1, []) :=
  collect_again P fuel s s1 [] log h n []

/-- The instance of C5 at the state of `main.cpp` in front of its first `collect`. -/
theorem collect_idempotent_witness :
    collect mainProgram 1 (mark mainProgram mainState) =
      some (mark mainProgram mainState, []) :=
  collect_idempotent mainProgram 1 mainState (mark mainProgram mainState) [] rfl 0

theorem mainProgram_keepsRegistry : mainProgram.KeepsRegistry := by
  intro d a s
  simp [mainProgram, execs, exec]

theorem mainState2_unreachable (x : Addr) : ¬ Reachable mainProgram mainState2 x := by
  intro h
  have hk := reachable_mem_keys h
  have hm := (isMarked_mark_iff mainProgram mainState2 x).2 h
  have hk2 : x = 20 ∨ x = 10 := by
    have : keys mainState2.nodes = [20, 10] := by decide
    rw [this] at hk
    simpa using hk
  rcases hk2 with rfl | rfl
  · exact absurd hm (by decide)
  · exact absurd hm (by decide)

theorem mainStateAt_eq (R tmp : HandleId) (a b : Addr) (hab : a ≠ b) (h1 : R ≠ tmp)
    (h2 : R ≠ S.next a) (h3 : R ≠ S.next b) (h4 : tmp ≠ S.next a) (h5 : tmp ≠ S.next b) :
    (mainStateAt R tmp a b).roots = [R] ∧
      (mainStateAt R tmp a b).nodes = [(b, record b 0 0), (a, record a 0 0)] ∧
      (mainStateAt R tmp a b).is_root = true ∧
      ((mainStateAt R tmp a b).handles R).ptr_data = some a ∧
      ((mainStateAt R tmp a b).handles (S.next a)).ptr_data = some b ∧
      ((mainStateAt R tmp a b).handles (S.next b)).ptr_data = some a := by
  unfold S.next at h2 h3 h4 h5
  have hba : ¬ b = a := fun h => hab h.symm
  simp [mainStateAt, mainBuildAt, execs, exec, ptrCtor, adopt, registerNode, registerRoot,
    removeRoot, setHandle, setIsRoot, insertNode, findNode, GCState.init, mainProgram, S.next,
    Handle.null, List.insert, record, h1, h2, h3, h4, h5, hab, hba, Ne.symm h1, Ne.symm h2,
    Ne.symm h3, Ne.symm h4, Ne.symm h5]

/-- When no release strategy registers an allocation, a registered record that is unreachable
when `collect` is called is destroyed exactly once and is not registered at return. -/
theorem collect_unreachable_destroyed (P : Program) (hP : P.KeepsRegistry) (s s2 : GCState)
    (log : List Addr) (fuel : Nat) (hr : collect P fuel s = some (s2, log)) (a : Addr)
    (ha : a ∈ keys s.nodes) (hna : ¬ Reachable P s a) :
    log.count a = 1 ∧ a ∉ keys s2.nodes := by
  obtain ⟨hnd, hmem, _⟩ := collect_log_of_keeps P hP fuel s s2 log hr
  have h1 := (mem_collectRound_log_iff P s a).2 ⟨ha, hna⟩
  have hal : a ∈ log := by
    cases fuel with
    | zero => cases hr
    | succ fuel =>
      have hne : (collectRound P s).2 ≠ [] := List.ne_nil_of_mem h1
      rw [collect_of_round P fuel s _ (liveRound_of_keeps P hP fuel s) hne] at hr
      cases hc : collect P fuel (collectRound P s).1 with
      | none => rw [hc] at hr; cases hr
      | some r =>
        rw [hc] at hr
        cases hr
        exact List.mem_append_left _ h1
  exact ⟨List.count_eq_one_of_mem hnd hal, ((hmem a).1 hal).2⟩

theorem mainStateAt_all_reachable (R tmp : HandleId) (a b : Addr) (hab : a ≠ b) (h1 : R ≠ tmp)
    (h2 : R ≠ S.next a) (h3 : R ≠ S.next b) (h4 : tmp ≠ S.next a) (h5 : tmp ≠ S.next b) :
    ∀ k ∈ keys (mainStateAt R tmp a b).nodes, Reachable mainProgram (mainStateAt R tmp a b) k := by
  obtain ⟨hroots, hnodes, _, hR, hna, _⟩ := mainStateAt_eq R tmp a b hab h1 h2 h3 h4 h5
  have hka : a ∈ keys (mainStateAt R tmp a b).nodes := by rw [hnodes]; simp [keys]
  have hkb : b ∈ keys (mainStateAt R tmp a b).nodes := by rw [hnodes]; simp [keys]
  have hra : Reachable mainProgram (mainStateAt R tmp a b) a :=
    Reachable.root (by rw [hroots]; exact List.mem_singleton_self R) hR hka
  have hfa : findNode (mainStateAt R tmp a b).nodes a = some (record a 0 0) := by
    have hba : ¬ b = a := fun h => hab h.symm
    rw [hnodes]; simp [findNode, hba]
  have hrb : Reachable mainProgram (mainStateAt R tmp a b) b :=
    Reachable.step hra ⟨record a 0 0, S.next a, hfa, by simp [mainProgram, record], hna⟩ hkb
  intro k hk
  rw [hnodes] at hk
  simp only [keys, List.map_cons, List.map_nil, List.mem_cons, List.mem_singleton,
    List.not_mem_nil, or_false] at hk
  rcases hk with rfl | rfl
  · exact hrb
  · exact hra

theorem mainState2At_unreachable (R tmp : HandleId) (a b : Addr) (hab : a ≠ b) (h1 : R ≠ tmp)
    (h2 : R ≠ S.next a) (h3 : R ≠ S.next b) (h4 : tmp ≠ S.next a) (h5 : tmp ≠ S.next b)
    (x : Addr) : ¬ Reachable mainProgram (mainState2At R tmp a b) x := by
  obtain ⟨hroots, _, _, _, _, _⟩ := mainStateAt_eq R tmp a b hab h1 h2 h3 h4 h5
  have hroot : ∀ y h, h ∈ (mainState2At R tmp a b).roots →
      ((mainState2At R tmp a b).handles h).ptr_data ≠ some y := by
    intro y h hh
    have hr : (mainState2At R tmp a b).roots = [R] := by
      simp [mainState2At, exec, mark, hroots]
    rw [hr, List.mem_singleton] at hh
    subst hh
    simp [mainState2At, exec, Handle.null]
  intro h
  induction h with
  | @root h y hh hy _ => exact hroot y h hh hy
  | step _ _ _ ih => exact ih

/-- C7: the scenario of `main.cpp`, for any addresses `a` and `b` of the two objects and any
locations `R` of the handle `s` and `tmp` of the temporary.  After the three statements that
build the cycle the root set is exactly `R` and the registry holds exactly `A` and `B`; the
first `collect` does one round, destroys nothing and keeps both records; after `s = nullptr`
the second `collect` returns, has destroyed `A` exactly once and `B` exactly once and nothing
else, and leaves the registry empty. -/
theorem main_scenario (R tmp : HandleId) (a b : Addr) (hab : a ≠ b) (h1 : R ≠ tmp)
    (h2 : R ≠ S.next a) (h3 : R ≠ S.next b) (h4 : tmp ≠ S.next a) (h5 : tmp ≠ S.next b) :
    (mainStateAt R tmp a b).roots = [R] ∧
      keys (mainStateAt R tmp a b).nodes = [b, a] ∧
      collect mainProgram 1 (mainStateAt R tmp a b) =
        some (mark mainProgram (mainStateAt R tmp a b), []) ∧
      keys (mark mainProgram (mainStateAt R tmp a b)).nodes = [b, a] ∧
      ∃ s2 log, collect mainProgram 3 (mainState2At R tmp a b) = some (s2, log) ∧
        log.count a = 1 ∧ log.count b = 1 ∧ (∀ x ∈ log, x = a ∨ x = b) ∧ s2.nodes = [] := by
  obtain ⟨hroots, hnodes, _, _, _, _⟩ := mainStateAt_eq R tmp a b hab h1 h2 h3 h4 h5
  have hkeys : keys (mainStateAt R tmp a b).nodes = [b, a] := by rw [hnodes]; rfl
  have hnil : (collectRound mainProgram (mainStateAt R tmp a b)).2 = [] := by
    apply List.eq_nil_iff_forall_not_mem.2
    intro k hk
    obtain ⟨hk1, hk2⟩ := (mem_collectRound_log_iff _ _ k).1 hk
    exact hk2 (mainStateAt_all_reachable R tmp a b hab h1 h2 h3 h4 h5 k hk1)
  have hkeys1 : keys (mark mainProgram (mainStateAt R tmp a b)).nodes = [b, a] := by
    rw [keys_mark, hkeys]
  have hkeys2 : keys (mainState2At R tmp a b).nodes = [b, a] := by
    rw [← hkeys1]; rfl
  refine ⟨hroots, hkeys, ?_, hkeys1, ?_⟩
  · exact collect_of_round_nil mainProgram 0 _ hnil
  · have hlen : (mainState2At R tmp a b).nodes.length = 2 := by
      have := congrArg List.length hkeys2
      simpa [keys] using this
    obtain ⟨⟨s2, log⟩, hr⟩ := collect_returns mainProgram mainProgram_keepsRegistry 3
      (mainState2At R tmp a b) (by omega)
    obtain ⟨_, hmem, hsub⟩ := collect_log_of_keeps mainProgram mainProgram_keepsRegistry 3 _ s2
      log hr
    have hun := mainState2At_unreachable R tmp a b hab h1 h2 h3 h4 h5
    have hda := collect_unreachable_destroyed mainProgram mainProgram_keepsRegistry _ s2 log 3 hr
      a (by rw [hkeys2]; simp) (hun a)
    have hdb := collect_unreachable_destroyed mainProgram mainProgram_keepsRegistry _ s2 log 3 hr
      b (by rw [hkeys2]; simp) (hun b)
    refine ⟨s2, log, hr, hda.1, hdb.1, fun x hx => ?_, ?_⟩
    · have := ((hmem x).1 hx).1
      rw [hkeys2] at this
      simp only [List.mem_cons, List.mem_singleton, List.not_mem_nil, or_false] at this
      exact this.symm
    · have hk : keys s2.nodes = [] := by
        apply List.eq_nil_iff_forall_not_mem.2
        intro x hx
        have := hsub x hx
        rw [hkeys2] at this
        simp only [List.mem_cons, List.mem_singleton, List.not_mem_nil, or_false] at this
        rcases this with rfl | rfl
        · exact hdb.2 hx
        · exact hda.2 hx
      simpa [keys] using hk

/-- The instance of C7 with the handles at `1` and `2` and the objects at `10` and `20`. -/
theorem main_scenario_witness :
    (mainStateAt 1 2 10 20).roots = [1] ∧
      keys (mainStateAt 1 2 10 20).nodes = [20, 10] ∧
      collect mainProgram 1 (mainStateAt 1 2 10 20) =
        some (mark mainProgram (mainStateAt 1 2 10 20), []) ∧
      keys (mark mainProgram (mainStateAt 1 2 10 20)).nodes = [20, 10] ∧
      ∃ s2 log, collect mainProgram 3 (mainState2At 1 2 10 20) = some (s2, log) ∧
        log.count 10 = 1 ∧ log.count 20 = 1 ∧ (∀ x ∈ log, x = 10 ∨ x = 20) ∧ s2.nodes = [] :=
  main_scenario 1 2 10 20 (by decide) (by decide) (by decide) (by decide) (by decide)
    (by decide)

/-! ## The flag `is_root` and the root set under handle operations -/

theorem adopt_handles_self (P : Program) (h : HandleId) (p : Option Addr) (T : TypeId)
    (d : DeleterId) (s : GCState) : (adopt P h p T d s).handles h = ⟨p, p⟩ := by
  cases p <;> simp [adopt, Handle.null]

theorem ptrCtor_is_root (P : Program) (h : HandleId) (p : Option Addr) (T : TypeId)
    (s : GCState) : (ptrCtor P h p T s).is_root = s.is_root := by
  simp [ptrCtor, adopt_is_root]

theorem mem_adopt_roots (P : Program) (h : HandleId) (p : Option Addr) (T : TypeId)
    (d : DeleterId) (s : GCState) (x : HandleId) :
    x ∈ (adopt P h p T d s).roots ↔ x ∈ s.roots ∧ ∀ a, p = some a → x ∉ P.visit T a := by
  rw [adopt_roots]
  cases p <;> simp

theorem mem_ptrCtor_roots (P : Program) (h : HandleId) (p : Option Addr) (T : TypeId)
    (s : GCState) (x : HandleId) :
    x ∈ (ptrCtor P h p T s).roots ↔
      ((s.is_root = true ∧ x = h) ∨ x ∈ s.roots) ∧ ∀ a, p = some a → x ∉ P.visit T a := by
  unfold ptrCtor
  rw [mem_adopt_roots, mem_registerRoot_roots]
  simp

/-- A handle operation that finds the flag `is_root` clear leaves it clear. -/
theorem exec_is_root_false (P : Program) : ∀ (c : Cmd) (s : GCState),
    s.is_root = false → (exec P c s).is_root = false := by
  intro c
  induction c using Cmd.induct with
  | hprim c hc =>
    intro s hs
    cases c <;> first
      | (simp [Cmd.isMake] at hc; done)
      | simpa [exec, adopt_is_root, ptrCtor_is_root] using hs
  | hmake h t T body _ =>
    intro s hs
    rw [exec_make, ptrCtor_is_root]
    exact hs
  | hthrow body ih =>
    intro s _
    rw [exec_makeThrow]
    exact execs_induct P (R := fun s1 s2 => s1.is_root = false → s2.is_root = false)
      (fun _ h => h) (fun _ _ _ h12 h23 h => h23 (h12 h)) body ih (setIsRoot false s) rfl

theorem execs_is_root_false (P : Program) (cs : List Cmd) (s : GCState)
    (hs : s.is_root = false) : (execs P cs s).is_root = false :=
  execs_induct P (R := fun s1 s2 => s1.is_root = false → s2.is_root = false)
    (fun _ h => h) (fun _ _ _ h12 h23 h => h23 (h12 h)) cs
    (fun c _ s => exec_is_root_false P c s) s hs

/-- While the flag `is_root` is clear no handle operation adds to the root set. -/
theorem exec_roots_of_flag_clear (P : Program) : ∀ (c : Cmd) (s : GCState),
    s.is_root = false → ∀ x ∈ (exec P c s).roots, x ∈ s.roots := by
  intro c
  induction c using Cmd.induct with
  | hprim c hc =>
    intro s hs x hx
    cases c with
    | make h t T body => simp [Cmd.isMake] at hc
    | makeThrow body => simp [Cmd.isMake] at hc
    | ctorPtr h p T =>
      have := (mem_ptrCtor_roots P h p T s x).1 hx
      simpa [hs] using this.1
    | ctorUnique h p T d =>
      simp only [exec] at hx
      have := ((mem_adopt_roots P h p T d _ x).1 hx).1
      simpa [mem_registerRoot_roots, hs] using this
    | assignUnique h p T d => exact ((mem_adopt_roots P h p T d s x).1 hx).1
    | resetPtr h p T => exact ((mem_adopt_roots P h p T _ s x).1 hx).1
    | resetPtrDel h p T d => exact ((mem_adopt_roots P h p T d s x).1 hx).1
    | dtor h => exact ((mem_removeRoot_roots h x s).1 hx).1
    | ctorDefault h => simpa [exec, mem_registerRoot_roots, hs] using hx
    | ctorNull h => simpa [exec, mem_registerRoot_roots, hs] using hx
    | ctorCopy h r => simpa [exec, mem_registerRoot_roots, hs] using hx
    | ctorMove h r => simpa [exec, mem_registerRoot_roots, hs] using hx
    | assignNull h => simpa [exec] using hx
    | assignCopy h r => simpa [exec] using hx
    | assignMove h r => simpa [exec] using hx
    | reset h => simpa [exec] using hx
    | swap h r => simpa [exec] using hx
  | hmake h t T body ih =>
    intro s hs x hx
    rw [exec_make] at hx
    have h1 := ((mem_ptrCtor_roots P h (some t) T _ x).1 hx).1
    simp only [setIsRoot_is_root, setIsRoot_roots, hs, Bool.false_eq_true, false_and,
      false_or] at h1
    have h2 : ∀ s0 : GCState, s0.is_root = false →
        ∀ y ∈ (execs P body s0).roots, y ∈ s0.roots := by
      intro s0 hs0
      have := execs_induct P
        (R := fun s1 s2 => s1.is_root = false →
          s2.is_root = false ∧ ∀ y ∈ s2.roots, y ∈ s1.roots)
        (fun _ h => ⟨h, fun _ hy => hy⟩)
        (fun _ _ _ h12 h23 h => ⟨(h23 (h12 h).1).1,
          fun y hy => (h12 h).2 y ((h23 (h12 h).1).2 y hy)⟩)
        body (fun c hc s1 h => ⟨exec_is_root_false P c s1 h, ih c hc s1 h⟩) s0 hs0
      exact this.2
    exact h2 (setIsRoot false s) rfl x h1
  | hthrow body ih =>
    intro s hs x hx
    rw [exec_makeThrow] at hx
    have := execs_induct P
      (R := fun s1 s2 => s1.is_root = false →
        s2.is_root = false ∧ ∀ y ∈ s2.roots, y ∈ s1.roots)
      (fun _ h => ⟨h, fun _ hy => hy⟩)
      (fun _ _ _ h12 h23 h => ⟨(h23 (h12 h).1).1,
        fun y hy => (h12 h).2 y ((h23 (h12 h).1).2 y hy)⟩)
      body (fun c hc s1 h => ⟨exec_is_root_false P c s1 h, ih c hc s1 h⟩)
      (setIsRoot false s) rfl
    exact this.2 x hx

/-- After a call of the factory the root set holds at most the handle that received the result
in addition to what it held before. -/
theorem make_roots (P : Program) (h : HandleId) (t : Addr) (T : TypeId) (body : List Cmd)
    (s : GCState) : ∀ x ∈ (exec P (.make h t T body) s).roots, x = h ∨ x ∈ s.roots := by
  intro x hx
  rw [exec_make] at hx
  have h1 := ((mem_ptrCtor_roots P h (some t) T _ x).1 hx).1
  rcases h1 with ⟨_, h1⟩ | h1
  · exact Or.inl h1
  · refine Or.inr ?_
    simp only [setIsRoot_roots] at h1
    have := execs_induct P
      (R := fun s1 s2 => s1.is_root = false →
        s2.is_root = false ∧ ∀ y ∈ s2.roots, y ∈ s1.roots)
      (fun _ h => ⟨h, fun _ hy => hy⟩)
      (fun _ _ _ h12 h23 h => ⟨(h23 (h12 h).1).1,
        fun y hy => (h12 h).2 y ((h23 (h12 h).1).2 y hy)⟩)
      body (fun c _ s1 h => ⟨exec_is_root_false P c s1 h,
        exec_roots_of_flag_clear P c s1 h⟩) (setIsRoot false s) rfl
    exact this.2 x h1

/-- C8, as stated, fails in three ways.  With the flag set, the handle `next` of the object at
`10`, constructed from the pointer to that object, is not in the root set after its
construction, because the registration of the pointee strips it (first conjunct).  A handle
that the constructor run by the factory constructs at the location that then receives the
result of the factory is in the root set when the factory returns (second conjunct), and so
is one that the constructor constructs at a location that is in the root set when the factory
is called (third conjunct). -/
theorem root_suppression_fails :
    (GCState.init.is_root = true ∧
        S.next 10 ∉
          (exec mainProgram (Cmd.ctorPtr (S.next 10) (some 10) 0) GCState.init).roots) ∧
      (5 ∈ constructsAll [Cmd.ctorDefault 5] ∧
        5 ∈ (exec mainProgram (.make 5 10 0 [Cmd.ctorDefault 5]) GCState.init).roots) ∧
      (7 ∈ constructsAll [Cmd.ctorDefault 7] ∧
        7 ∈ (exec mainProgram (.make 1 10 0 [Cmd.ctorDefault 7])
          ⟨[], [7], true, fun _ => Handle.null⟩).roots) := by
  decide

/-- C8 (amended): root suppression.  (1) For every call of the factory that returns, a handle
that the constructor body constructs at a location that is not in the root set when the
factory is called and is not the location of the handle that the factory returns is absent
from the root set when the factory returns.  (2) While the flag is set, a handle constructed
by default, null, copy or move construction is in the root set right after its construction,
and a handle constructed from a pointer is in the root set right after its construction exactly
when the traversal of the pointee does not enumerate it. -/
theorem root_suppression (P : Program) (s : GCState) :
    (∀ h t T body x, x ∈ constructsAll body → x ∉ s.roots → x ≠ h →
        x ∉ (exec P (.make h t T body) s).roots) ∧
      (s.is_root = true → ∀ h r p T,
        h ∈ (exec P (.ctorDefault h) s).roots ∧ h ∈ (exec P (.ctorNull h) s).roots ∧
        h ∈ (exec P (.ctorCopy h r) s).roots ∧ h ∈ (exec P (.ctorMove h r) s).roots ∧
        (h ∈ (exec P (.ctorPtr h p T) s).roots ↔ ∀ a, p = some a → h ∉ P.visit T a)) := by
  refine ⟨fun h t T body x _ hx hxh hmem => ?_, fun hs h r p T => ?_⟩
  · rcases make_roots P h t T body s x hmem with h1 | h1
    · exact hxh h1
    · exact hx h1
  · refine ⟨?_, ?_, ?_, ?_, ?_⟩
    · simp [exec, mem_registerRoot_roots, hs]
    · simp [exec, mem_registerRoot_roots, hs]
    · simp [exec, mem_registerRoot_roots, hs]
    · simp [exec, mem_registerRoot_roots, hs]
    · simp [exec, mem_ptrCtor_roots, hs]

/-- The instance of C8 (amended) at the first statement of `main.cpp`: the member `next` of the
new object is not a root, the handle `s` is. -/
theorem root_suppression_witness :
    S.next 10 ∉ (exec mainProgram (.make 1 10 0 [Cmd.ctorDefault (S.next 10)])
        GCState.init).roots ∧
      1 ∈ (exec mainProgram (.ctorDefault 1) GCState.init).roots :=
  ⟨(root_suppression mainProgram GCState.init).1 1 10 0 [Cmd.ctorDefault (S.next 10)]
      (S.next 10) (by decide) (by decide) (by decide),
    ((root_suppression mainProgram GCState.init).2 (by decide) 1 1 none 0).1⟩

/-- C9, as stated, fails in three ways.  When the factory is called while the flag is clear, as
it is inside a constructor run by the factory, the handle that receives the result is not in
the root set: neither right after the inner call (first conjunct) nor after the outer call
(second conjunct).  When the handle that receives the result is one that the traversal of the
new instance enumerates, the registration of the instance strips it, also with the flag set
(third conjunct).  And when the constructor has registered the instance itself, here by
`reset(this, d)` on a handle with the release strategy `7`, the record keeps that release
strategy, not the default `0` (fourth conjunct). -/
theorem make_result_not_root_when_nested :
    5 ∉ (exec mainProgram (.make 5 20 0 [Cmd.ctorDefault (S.next 20)])
        (setIsRoot false GCState.init)).roots ∧
      (exec mainProgram
        (.make 1 10 0 [Cmd.ctorDefault (S.next 10), .make 5 20 0 [Cmd.ctorDefault (S.next 20)]])
        GCState.init).roots = [1] ∧
      (GCState.init.is_root = true ∧
        S.next 10 ∉ (exec mainProgram (.make (S.next 10) 10 0 []) GCState.init).roots) ∧
      (findNode (exec mainProgram
          (.make 1 10 0 [Cmd.ctorDefault 50, Cmd.resetPtrDel 50 (some 10) 0 7])
          GCState.init).nodes 10).map (fun r => r.operations.deleter) = some 7 := by
  decide

/-- C9 (amended): the factory postcondition.  After a call of `Ptr<T>::make` that returns, the
handle that receives the result has the new instance as its target and as its record
reference; the registry has a record for the address of the instance, which is the record of
type `T` with the default release strategy when the address has no record at the time the
constructor body has finished; and the handle is in the root set when the flag is set at the
call and the traversal of the new instance does not enumerate the handle. -/
theorem make_postcondition (P : Program) (s : GCState) (h : HandleId) (t : Addr) (T : TypeId)
    (body : List Cmd) :
    ((exec P (.make h t T body) s).handles h = ⟨some t, some t⟩) ∧
      (∃ r, findNode (exec P (.make h t T body) s).nodes t = some r) ∧
      (t ∉ keys (execs P body (setIsRoot false s)).nodes →
        findNode (exec P (.make h t T body) s).nodes t =
          some ⟨t, false, ⟨T, P.default_delete T⟩⟩) ∧
      (s.is_root = true → h ∉ P.visit T t → h ∈ (exec P (.make h t T body) s).roots) := by
  rw [exec_make]
  refine ⟨?_, ?_, ?_, ?_⟩
  · exact adopt_handles_self P h (some t) T _ _
  · simp only [ptrCtor, adopt_nodes, registerRoot_nodes, setHandle_nodes, setIsRoot_nodes,
      findNode_insertNode]
    cases findNode (execs P body (setIsRoot false s)).nodes t <;> simp
  · intro hk
    have hn := (findNode_eq_none_iff _ _).2 hk
    simp only [ptrCtor, adopt_nodes, registerRoot_nodes, setHandle_nodes, setIsRoot_nodes,
      findNode_insertNode, hn]
    simp
  · intro hs hv
    rw [mem_ptrCtor_roots]
    simp [hs, hv]

/-- The instance of C9 (amended) at the first statement of `main.cpp`. -/
theorem make_postcondition_witness :
    (exec mainProgram (.make 1 10 0 [Cmd.ctorDefault (S.next 10)]) GCState.init).handles 1 =
        ⟨some 10, some 10⟩ ∧
      findNode (exec mainProgram (.make 1 10 0 [Cmd.ctorDefault (S.next 10)])
        GCState.init).nodes 10 = some ⟨10, false, ⟨0, 0⟩⟩ ∧
      1 ∈ (exec mainProgram (.make 1 10 0 [Cmd.ctorDefault (S.next 10)]) GCState.init).roots :=
  ⟨(make_postcondition mainProgram GCState.init 1 10 0 [Cmd.ctorDefault (S.next 10)]).1,
    (make_postcondition mainProgram GCState.init 1 10 0 [Cmd.ctorDefault (S.next 10)]).2.2.1
      (by decide),
    (make_postcondition mainProgram GCState.init 1 10 0 [Cmd.ctorDefault (S.next 10)]).2.2.2
      (by decide) (by decide)⟩


/-! ## The root set and the history of the handles -/

theorem execH_make (P : Program) (h : HandleId) (t : Addr) (T : TypeId) (body : List Cmd)
    (σ : GCState × History) :
    execH P (.make h t T body) σ =
      (ptrCtor P h (some t) T (setIsRoot σ.1.is_root (execsH P body (setIsRoot false σ.1, σ.2)).1),
        ((execsH P body (setIsRoot false σ.1, σ.2)).2.construct σ.1.is_root h).adopted P
          (some t) T) := by
  simp [execH]

theorem execH_makeThrow (P : Program) (body : List Cmd) (σ : GCState × History) :
    execH P (.makeThrow body) σ = execsH P body (setIsRoot false σ.1, σ.2) := by
  simp [execH]

theorem execH_prim (P : Program) (c : Cmd) (hc : c.isMake = false) (σ : GCState × History) :
    execH P c σ = (exec P c σ.1, Cmd.event P σ.1.is_root c σ.2) := by
  cases c <;> first | (simp [Cmd.isMake] at hc; done) | simp [execH, Cmd.event]

theorem execsH_nil (P : Program) (σ : GCState × History) : execsH P [] σ = σ := by
  simp [execsH]

theorem execsH_cons (P : Program) (c : Cmd) (cs : List Cmd) (σ : GCState × History) :
    execsH P (c :: cs) σ = execsH P cs (execH P c σ) := by
  simp [execsH]

/-- A relation between states with histories that every step of a sequence satisfies is
satisfied by the sequence. -/
theorem execsH_induct (P : Program) {R : GCState × History → GCState × History → Prop}
    (hrefl : ∀ σ, R σ σ) (htrans : ∀ σ1 σ2 σ3, R σ1 σ2 → R σ2 σ3 → R σ1 σ3)
    (cs : List Cmd) (hstep : ∀ c ∈ cs, ∀ σ, R σ (execH P c σ)) :
    ∀ σ, R σ (execsH P cs σ) := by
  induction cs with
  | nil => intro σ; rw [execsH_nil]; exact hrefl σ
  | cons c cs ih =>
    intro σ
    rw [execsH_cons]
    exact htrans _ _ _ (hstep c (List.mem_cons_self _ _) σ)
      (ih (fun c2 hc2 => hstep c2 (List.mem_cons_of_mem _ hc2)) _)

/-- The history does not change what the handle operations do to the state. -/
theorem execH_fst (P : Program) : ∀ (c : Cmd) (σ : GCState × History),
    (execH P c σ).1 = exec P c σ.1 := by
  intro c
  induction c using Cmd.induct with
  | hprim c hc => intro σ; rw [execH_prim P c hc]
  | hmake h t T body ih =>
    intro σ
    rw [execH_make, exec_make]
    have key : ∀ (cs : List Cmd), (∀ c ∈ cs, ∀ σ, (execH P c σ).1 = exec P c σ.1) →
        ∀ σ, (execsH P cs σ).1 = execs P cs σ.1 := by
      intro cs
      induction cs with
      | nil => intro _ σ; rw [execsH_nil, execs_nil]
      | cons c cs ihc =>
        intro hcs σ
        rw [execsH_cons, execs_cons, ihc (fun c2 hc2 => hcs c2 (List.mem_cons_of_mem _ hc2)),
          hcs c (List.mem_cons_self _ _)]
    simp only [key body ih]
  | hthrow body ih =>
    intro σ
    rw [execH_makeThrow, exec_makeThrow]
    have key : ∀ (cs : List Cmd), (∀ c ∈ cs, ∀ σ, (execH P c σ).1 = exec P c σ.1) →
        ∀ σ, (execsH P cs σ).1 = execs P cs σ.1 := by
      intro cs
      induction cs with
      | nil => intro _ σ; rw [execsH_nil, execs_nil]
      | cons c cs ihc =>
        intro hcs σ
        rw [execsH_cons, execs_cons, ihc (fun c2 hc2 => hcs c2 (List.mem_cons_of_mem _ hc2)),
          hcs c (List.mem_cons_self _ _)]
    simp only [key body ih]

theorem execsH_fst (P : Program) (cs : List Cmd) (σ : GCState × History) :
    (execsH P cs σ).1 = execs P cs σ.1 := by
  induction cs generalizing σ with
  | nil => rw [execsH_nil, execs_nil]
  | cons c cs ih => rw [execsH_cons, execs_cons, ih, execH_fst]

theorem rootsMatch_construct {roots : List HandleId} {H : History} (flag : Bool) (h : HandleId)
    (hm : ∀ x, x ∈ roots ↔ x ∈ H.born ∧ x ∉ H.stripped) :
    ∀ x, x ∈ (if flag = true then roots.insert h else roots) ↔
      x ∈ (H.construct flag h).born ∧ x ∉ (H.construct flag h).stripped := by
  intro x
  cases flag with
  | false => simpa [History.construct] using hm x
  | true =>
    simp only [History.construct, if_true, List.mem_insert_iff, List.mem_filter,
      decide_eq_true_eq, hm x]
    by_cases hx : x = h
    · simp [hx]
    · simp [hx]

theorem rootsMatch_destroy {roots : List HandleId} {H : History} (h : HandleId)
    (hm : ∀ x, x ∈ roots ↔ x ∈ H.born ∧ x ∉ H.stripped) :
    ∀ x, x ∈ roots.filter (fun y => decide (y ≠ h)) ↔
      x ∈ (H.destroy h).born ∧ x ∉ (H.destroy h).stripped := by
  intro x
  simp only [History.destroy, List.mem_filter, decide_eq_true_eq, hm x]
  tauto

theorem rootsMatch_adopted {roots : List HandleId} {H : History} (P : Program)
    (p : Option Addr) (T : TypeId)
    (hm : ∀ x, x ∈ roots ↔ x ∈ H.born ∧ x ∉ H.stripped) :
    ∀ x, x ∈ (match p with
        | some a => roots.filter (fun y => decide (y ∉ P.visit T a))
        | none => roots) ↔
      x ∈ (H.adopted P p T).born ∧ x ∉ (H.adopted P p T).stripped := by
  intro x
  cases p with
  | none => simpa [History.adopted] using hm x
  | some a =>
    simp only [History.adopted, History.strip, List.mem_filter, decide_eq_true_eq,
      List.mem_append, hm x]
    tauto

/-- A handle operation other than a call of the factory keeps the root set and the history in
step. -/
theorem rootsMatch_prim (P : Program) (c : Cmd) (hc : c.isMake = false) (s : GCState)
    (H : History) (hm : RootsMatch (s, H)) :
    RootsMatch (exec P c s, Cmd.event P s.is_root c H) := by
  unfold RootsMatch at hm ⊢
  simp only at hm ⊢
  cases c with
  | make h t T body => simp [Cmd.isMake] at hc
  | makeThrow body => simp [Cmd.isMake] at hc
  | ctorDefault h =>
    simpa [exec, Cmd.event, registerRoot_roots] using rootsMatch_construct s.is_root h hm
  | ctorNull h =>
    simpa [exec, Cmd.event, registerRoot_roots] using rootsMatch_construct s.is_root h hm
  | ctorCopy h r =>
    simpa [exec, Cmd.event, registerRoot_roots] using rootsMatch_construct s.is_root h hm
  | ctorMove h r =>
    simpa [exec, Cmd.event, registerRoot_roots] using rootsMatch_construct s.is_root h hm
  | ctorPtr h p T =>
    have h1 := rootsMatch_adopted P p T (rootsMatch_construct s.is_root h hm)
    simpa [exec, Cmd.event, ptrCtor, adopt_roots, registerRoot_roots] using h1
  | ctorUnique h p T d =>
    have h1 := rootsMatch_adopted P p T (rootsMatch_construct s.is_root h hm)
    simpa [exec, Cmd.event, adopt_roots, registerRoot_roots] using h1
  | dtor h => simpa [exec, Cmd.event, removeRoot] using rootsMatch_destroy h hm
  | assignUnique h p T d =>
    simpa [exec, Cmd.event, adopt_roots] using rootsMatch_adopted P p T hm
  | resetPtr h p T =>
    simpa [exec, Cmd.event, adopt_roots] using rootsMatch_adopted P p T hm
  | resetPtrDel h p T d =>
    simpa [exec, Cmd.event, adopt_roots] using rootsMatch_adopted P p T hm
  | assignNull h => simpa [exec, Cmd.event] using hm
  | assignCopy h r => simpa [exec, Cmd.event] using hm
  | assignMove h r => simpa [exec, Cmd.event] using hm
  | reset h => simpa [exec, Cmd.event] using hm
  | swap h r => simpa [exec, Cmd.event] using hm

/-- Every handle operation keeps the root set and the history in step. -/
theorem rootsMatch_execH (P : Program) : ∀ (c : Cmd) (σ : GCState × History),
    RootsMatch σ → RootsMatch (execH P c σ) := by
  intro c
  induction c using Cmd.induct with
  | hprim c hc =>
    intro σ hm
    rw [execH_prim P c hc]
    exact rootsMatch_prim P c hc σ.1 σ.2 hm
  | hmake h t T body ih =>
    intro σ hm
    rw [execH_make]
    have h1 : RootsMatch (execsH P body (setIsRoot false σ.1, σ.2)) :=
      execsH_induct P (R := fun σ1 σ2 => RootsMatch σ1 → RootsMatch σ2) (fun _ h => h)
        (fun _ _ _ h12 h23 h => h23 (h12 h)) body ih (setIsRoot false σ.1, σ.2) hm
    unfold RootsMatch at h1 ⊢
    have h2 := rootsMatch_adopted P (some t) T (rootsMatch_construct σ.1.is_root h h1)
    simpa [ptrCtor, adopt_roots, registerRoot_roots] using h2
  | hthrow body ih =>
    intro σ hm
    rw [execH_makeThrow]
    exact execsH_induct P (R := fun σ1 σ2 => RootsMatch σ1 → RootsMatch σ2) (fun _ h => h)
      (fun _ _ _ h12 h23 h => h23 (h12 h)) body ih (setIsRoot false σ.1, σ.2) hm

theorem rootsMatch_execsH (P : Program) (cs : List Cmd) (σ : GCState × History)
    (hm : RootsMatch σ) : RootsMatch (execsH P cs σ) :=
  execsH_induct P (R := fun σ1 σ2 => RootsMatch σ1 → RootsMatch σ2) (fun _ h => h)
    (fun _ _ _ h12 h23 h => h23 (h12 h)) cs (fun c _ σ => rootsMatch_execH P c σ) σ hm

theorem deleteEntryH_fst (P : Program) (r : PointerData) (k : Addr) (σ : GCState × History) :
    (deleteEntryH P r k σ).1 = deleteEntry P r k σ.1 := by
  simp only [deleteEntryH, deleteEntry, execsH_fst]

theorem rootsMatch_deleteEntryH (P : Program) (r : PointerData) (k : Addr)
    (σ : GCState × History) (hm : RootsMatch σ) : RootsMatch (deleteEntryH P r k σ) := by
  have h1 := rootsMatch_execsH P (P.deletePointer r.operations.deleter k) σ hm
  unfold RootsMatch at h1 ⊢
  exact h1

theorem sweepStepH_cases (P : Program) (acc : (GCState × History) × List Addr) (k : Addr) :
    (sweepStepH P acc k = acc ∧ sweepStep P (acc.1.1, acc.2) k = (acc.1.1, acc.2)) ∨
      ∃ r, sweepStepH P acc k = (deleteEntryH P r k acc.1, acc.2 ++ [k]) ∧
        sweepStep P (acc.1.1, acc.2) k = (deleteEntry P r k acc.1.1, acc.2 ++ [k]) := by
  unfold sweepStepH sweepStep
  cases hf : findNode acc.1.1.nodes k with
  | none => exact Or.inl ⟨rfl, rfl⟩
  | some r =>
    cases hv : r.visited with
    | true => exact Or.inl ⟨by simp [hv], by simp [hv]⟩
    | false => exact Or.inr ⟨r, by simp [hv], by simp [hv]⟩

theorem sweepStepH_proj (P : Program) (acc : (GCState × History) × List Addr) (k : Addr) :
    ((sweepStepH P acc k).1.1, (sweepStepH P acc k).2) = sweepStep P (acc.1.1, acc.2) k := by
  rcases sweepStepH_cases P acc k with ⟨h1, h2⟩ | ⟨r, h1, h2⟩
  · rw [h1, h2]
  · rw [h1, h2, deleteEntryH_fst]

theorem sweepLiveH_proj (P : Program) :
    ∀ (fuel : Nat) (todo : List Addr) (acc : (GCState × History) × List Addr),
      (sweepLiveH P fuel todo acc).map (fun r => (r.1.1, r.2)) =
        sweepLive P fuel todo (acc.1.1, acc.2) := by
  intro fuel
  induction fuel with
  | zero =>
    intro todo acc
    cases todo with
    | nil => rfl
    | cons k todo => rfl
  | succ fuel ih =>
    intro todo acc
    cases todo with
    | nil => rfl
    | cons k todo =>
      show (sweepLiveH P fuel (todo ++ stepAhead P (acc.1.1, acc.2) k) (sweepStepH P acc k)).map _
        = sweepLive P fuel (todo ++ stepAhead P (acc.1.1, acc.2) k)
            (sweepStep P (acc.1.1, acc.2) k)
      rw [ih, sweepStepH_proj]

theorem sweepLiveH_invariant (P : Program) (I : (GCState × History) × List Addr → Prop)
    (hstep : ∀ acc k, I acc → I (sweepStepH P acc k)) :
    ∀ (fuel : Nat) (todo : List Addr) (acc r : (GCState × History) × List Addr),
      I acc → sweepLiveH P fuel todo acc = some r → I r := by
  intro fuel
  induction fuel with
  | zero =>
    intro todo acc r hI h
    cases todo with
    | nil =>
      have h2 : some acc = some r := h
      cases h2
      exact hI
    | cons k todo => cases h
  | succ fuel ih =>
    intro todo acc r hI h
    cases todo with
    | nil =>
      have h2 : some acc = some r := h
      cases h2
      exact hI
    | cons k todo => exact ih _ _ _ (hstep acc k hI) h

theorem liveRoundH_proj (P : Program) (fuel : Nat) (σ : GCState × History) :
    (liveRoundH P fuel σ).map (fun r => (r.1.1, r.2)) = liveRound P fuel σ.1 := by
  unfold liveRoundH liveRound
  exact sweepLiveH_proj P _ _ _

theorem rootsMatch_liveRoundH (P : Program) (fuel : Nat) (σ : GCState × History)
    (r : (GCState × History) × List Addr) (hm : RootsMatch σ)
    (h : liveRoundH P fuel σ = some r) : RootsMatch r.1 := by
  unfold liveRoundH at h
  refine sweepLiveH_invariant P (fun acc => RootsMatch acc.1) ?_ _ _ _ r ?_ h
  · intro acc k hI
    rcases sweepStepH_cases P acc k with ⟨h1, _⟩ | ⟨r, h1, _⟩
    · rw [h1]; exact hI
    · rw [h1]; exact rootsMatch_deleteEntryH P r k acc.1 hI
  · exact hm

theorem collectLoopH_succ (P : Program) (fuel : Nat) (σ : GCState × History)
    (log : List Addr) :
    collectLoopH P (fuel + 1) σ log =
      match liveRoundH P fuel σ with
      | none => none
      | some r =>
        if r.2 = [] then some (r.1, log) else collectLoopH P fuel r.1 (log ++ r.2) := rfl

/-- The history does not change what `collect` does to the state, nor what it destroys. -/
theorem collectLoopH_proj (P : Program) :
    ∀ (fuel : Nat) (σ : GCState × History) (log : List Addr),
      (collectLoopH P fuel σ log).map (fun r => (r.1.1, r.2)) = collectLoop P fuel σ.1 log := by
  intro fuel
  induction fuel with
  | zero => intro σ log; rfl
  | succ fuel ih =>
    intro σ log
    have hp := liveRoundH_proj P fuel σ
    rw [collectLoopH_succ, collectLoop_succ, ← hp]
    cases hr : liveRoundH P fuel σ with
    | none => rfl
    | some r =>
      simp only [Option.map_some']
      by_cases hnil : r.2 = []
      · rw [if_pos hnil, if_pos hnil]; rfl
      · rw [if_neg hnil, if_neg hnil, ih]

theorem rootsMatch_collectLoopH (P : Program) :
    ∀ (fuel : Nat) (σ σ2 : GCState × History) (log log2 : List Addr), RootsMatch σ →
      collectLoopH P fuel σ log = some (σ2, log2) → RootsMatch σ2 := by
  intro fuel
  induction fuel with
  | zero => intro σ σ2 log log2 _ h; cases h
  | succ fuel ih =>
    intro σ σ2 log log2 hm h
    rw [collectLoopH_succ] at h
    cases hr : liveRoundH P fuel σ with
    | none => rw [hr] at h; cases h
    | some r =>
      rw [hr] at h
      have h1 := rootsMatch_liveRoundH P fuel σ r hm hr
      by_cases hnil : r.2 = []
      · simp only [if_pos hnil] at h
        cases h
        exact h1
      · simp only [if_neg hnil] at h
        exact ih _ _ _ _ h1 h

theorem reached_rootsMatch (P : Program) (σ : GCState × History) (h : Reached P σ) :
    RootsMatch σ := by
  induction h with
  | init => intro x; simp [GCState.init]
  | cmd c _ ih => exact rootsMatch_execH P c _ ih
  | collect fuel _ hc ih => exact rootsMatch_collectLoopH P fuel _ _ _ _ ih hc

theorem reached_execsH (P : Program) (cs : List Cmd) :
    ∀ σ, Reached P σ → Reached P (execsH P cs σ) := by
  induction cs with
  | nil => intro σ h; rw [execsH_nil]; exact h
  | cons c cs ih => intro σ h; rw [execsH_cons]; exact ih _ (Reached.cmd c h)

/-- C10, as stated, fails: the handle `next` of an object built outside the factory is
constructed while the flag is set and is never destroyed, yet it is no longer in the root set
once a handle has adopted the object, because the registration strips it. -/
theorem root_stripped_by_registration :
    Reached mainProgram
        (execH mainProgram (.ctorPtr 1 (some 10) 0)
          (execH mainProgram (.ctorDefault (S.next 10)) (GCState.init, ⟨[], []⟩))) ∧
      S.next 10 ∈ (execH mainProgram (.ctorPtr 1 (some 10) 0)
          (execH mainProgram (.ctorDefault (S.next 10)) (GCState.init, ⟨[], []⟩))).2.born ∧
      S.next 10 ∉ (execH mainProgram (.ctorPtr 1 (some 10) 0)
          (execH mainProgram (.ctorDefault (S.next 10)) (GCState.init, ⟨[], []⟩))).1.roots :=
  ⟨Reached.cmd _ (Reached.cmd _ Reached.init), by decide, by decide⟩

/-- C10 (amended): the root-set membership invariant.  The history kept next to the state does
not change what the handle operations and `collect` do (first two parts).  In every state
reached from the initial state by handle constructions, destructions, assignments, resets,
swaps, factory calls, registrations and calls of `collect`, a handle is a member of the root
set if and only if it was constructed while the flag was set, has not been destroyed since,
and has not since been enumerated by the traversal of a registration. -/
theorem roots_follow_history (P : Program) :
    (∀ c σ, (execH P c σ).1 = exec P c σ.1) ∧
      (∀ fuel σ, (collectH P fuel σ).map (fun r => (r.1.1, r.2)) = collect P fuel σ.1) ∧
      ∀ σ, Reached P σ → ∀ h, h ∈ σ.1.roots ↔ h ∈ σ.2.born ∧ h ∉ σ.2.stripped :=
  ⟨execH_fst P, fun fuel σ => collectLoopH_proj P fuel σ [], reached_rootsMatch P⟩

/-- The instance of C10 (amended) at the state of `main.cpp` in front of its first `collect`. -/
theorem roots_follow_history_witness :
    ∀ h, h ∈ (execsH mainProgram mainBuild (GCState.init, ⟨[], []⟩)).1.roots ↔
      h ∈ (execsH mainProgram mainBuild (GCState.init, ⟨[], []⟩)).2.born ∧
        h ∉ (execsH mainProgram mainBuild (GCState.init, ⟨[], []⟩)).2.stripped :=
  (roots_follow_history mainProgram).2.2 _
    (reached_execsH mainProgram mainBuild _ Reached.init)


/-! ## Registration -/

theorem insertNode_of_mem {ns : List (Addr × PointerData)} {a : Addr} (r : PointerData)
    (h : a ∈ keys ns) : insertNode ns a r = ns := by
  rw [← findNode_isSome_iff] at h
  unfold insertNode
  cases hf : findNode ns a with
  | none => rw [hf] at h; cases h
  | some r0 => rfl

theorem insertNode_of_not_mem {ns : List (Addr × PointerData)} {a : Addr} (r : PointerData)
    (h : a ∉ keys ns) : insertNode ns a r = (a, r) :: ns := by
  have hf := (findNode_eq_none_iff ns a).2 h
  unfold insertNode
  rw [hf]

theorem nodup_keys_insertNode (ns : List (Addr × PointerData)) (a : Addr) (r : PointerData)
    (h : (keys ns).Nodup) : (keys (insertNode ns a r)).Nodup := by
  by_cases ha : a ∈ keys ns
  · rw [insertNode_of_mem r ha]; exact h
  · rw [insertNode_of_not_mem r ha]
    exact List.nodup_cons.2 ⟨ha, h⟩

/-- C11, as stated, fails: `registerNode` on an address that has a record still runs the
traversal with the visitor `removeRoot`.  The object at `10` was registered through its base
type, whose traversal enumerates nothing, so its handle `next` is still a root; registering
the address again through the derived type removes that handle from the root set. -/
theorem reregistration_strips_roots :
    findNode baseAdopted.nodes 10 = some (record 10 0 0) ∧
      baseAdopted.roots = [1, S.next 10] ∧
      (registerNode twoTypeProgram 10 1 0 baseAdopted).roots = [1] := by
  decide

/-- C11 (amended): for an address `p` that has a record, `registerNode(p, d)` leaves the
registry as it is (the same entries, so the same addresses and the same record for `p`, with
its mark bit and its operations; the reference it returns is the reference of that record),
and leaves the flag and the handles as they are; a handle is in the root set afterwards
exactly when it was before and the traversal of `p` does not enumerate it.  For every address,
a registry with one record per address has one record per address after `registerNode`. -/
theorem reregistration (P : Program) (s : GCState) (p : Addr) (T : TypeId) (d : DeleterId) :
    (p ∈ keys s.nodes →
        (registerNode P p T d s).nodes = s.nodes ∧
          findNode (registerNode P p T d s).nodes p = findNode s.nodes p ∧
          (registerNode P p T d s).is_root = s.is_root ∧
          (registerNode P p T d s).handles = s.handles ∧
          ∀ x, x ∈ (registerNode P p T d s).roots ↔ x ∈ s.roots ∧ x ∉ P.visit T p) ∧
      ((keys s.nodes).Nodup → (keys (registerNode P p T d s).nodes).Nodup) := by
  refine ⟨fun hp => ?_, fun hn => ?_⟩
  · have h1 : (registerNode P p T d s).nodes = s.nodes := by
      rw [registerNode_nodes, insertNode_of_mem _ hp]
    refine ⟨h1, by rw [h1], registerNode_is_root P p T d s, registerNode_handles P p T d s,
      fun x => ?_⟩
    rw [registerNode_roots]
    simp
  · rw [registerNode_nodes]
    exact nodup_keys_insertNode _ _ _ hn

/-- The instance of C11 (amended) at the object adopted through its base type. -/
theorem reregistration_witness :
    (registerNode twoTypeProgram 10 1 0 baseAdopted).nodes = baseAdopted.nodes ∧
      findNode (registerNode twoTypeProgram 10 1 0 baseAdopted).nodes 10 =
        findNode baseAdopted.nodes 10 ∧
      (registerNode twoTypeProgram 10 1 0 baseAdopted).is_root = baseAdopted.is_root ∧
      (registerNode twoTypeProgram 10 1 0 baseAdopted).handles = baseAdopted.handles ∧
      ∀ x, x ∈ (registerNode twoTypeProgram 10 1 0 baseAdopted).roots ↔
        x ∈ baseAdopted.roots ∧ x ∉ twoTypeProgram.visit 1 10 :=
  (reregistration twoTypeProgram baseAdopted 10 1 0).1 (by decide)

/-- C18: adoption strips root status.  For an address `p` that has no record, after
`registerNode` the registry is the former registry with one more entry, the record of `p` with
the type and the release strategy of the call, so every former record is unchanged; no handle
that the traversal of `p` enumerates is in the root set; and every other handle is in the
root set exactly when it was before.  The flag and the handles are unchanged. -/
theorem adoption_strips_roots (P : Program) (s : GCState) (p : Addr) (T : TypeId)
    (d : DeleterId) (hp : p ∉ keys s.nodes) :
    (registerNode P p T d s).nodes = (p, ⟨p, false, ⟨T, d⟩⟩) :: s.nodes ∧
      (∀ a r, findNode s.nodes a = some r → findNode (registerNode P p T d s).nodes a = some r) ∧
      (∀ a, a ∈ keys (registerNode P p T d s).nodes ↔ a = p ∨ a ∈ keys s.nodes) ∧
      (∀ f ∈ P.visit T p, f ∉ (registerNode P p T d s).roots) ∧
      (∀ x, x ∉ P.visit T p → (x ∈ (registerNode P p T d s).roots ↔ x ∈ s.roots)) ∧
      (registerNode P p T d s).is_root = s.is_root ∧
      (registerNode P p T d s).handles = s.handles := by
  have h1 : (registerNode P p T d s).nodes = (p, ⟨p, false, ⟨T, d⟩⟩) :: s.nodes := by
    rw [registerNode_nodes, insertNode_of_not_mem _ hp]
  refine ⟨h1, ?_, ?_, ?_, ?_, registerNode_is_root P p T d s, registerNode_handles P p T d s⟩
  · rw [registerNode_nodes]; exact NodesLe.insertNode _ _ _
  · intro a; rw [h1]; simp [keys]
  · intro f hf; rw [registerNode_roots]; simp [hf]
  · intro x hx; rw [registerNode_roots]; simp [hx]

/-- The instance of C18 at an object built outside the factory at `10`, whose handle `next` is
a root, registered with the type of `main.cpp`: the handle is a root before the registration
and not after it. -/
theorem adoption_strips_roots_witness :
    10 ∉ keys (exec mainProgram (Cmd.ctorDefault (S.next 10)) GCState.init).nodes ∧
      S.next 10 ∈ (exec mainProgram (Cmd.ctorDefault (S.next 10)) GCState.init).roots ∧
      S.next 10 ∉ (registerNode mainProgram 10 0 0
        (exec mainProgram (Cmd.ctorDefault (S.next 10)) GCState.init)).roots :=
  ⟨by decide, by decide,
    (adoption_strips_roots mainProgram
      (exec mainProgram (Cmd.ctorDefault (S.next 10)) GCState.init) 10 0 0
      (by decide)).2.2.2.1 (S.next 10) (by decide)⟩

/-! ## Every record is destroyed at most once -/

/-- A property of the registry that every insertion keeps is kept by every handle operation. -/
theorem exec_nodes_invariant (P : Program) (I : List (Addr × PointerData) → Prop)
    (hins : ∀ ns a r, I ns → I (insertNode ns a r)) :
    ∀ (c : Cmd) (s : GCState), I s.nodes → I (exec P c s).nodes := by
  have hadopt : ∀ h p T d (s : GCState), I s.nodes → I (adopt P h p T d s).nodes := by
    intro h p T d s hs
    rw [adopt_nodes]
    cases p with
    | none => exact hs
    | some a => exact hins _ _ _ hs
  have hptr : ∀ h p T (s : GCState), I s.nodes → I (ptrCtor P h p T s).nodes := by
    intro h p T s hs
    unfold ptrCtor
    exact hadopt _ _ _ _ _ (by simpa using hs)
  intro c
  induction c using Cmd.induct with
  | hprim c hc =>
    intro s hs
    cases c with
    | make h t T body => simp [Cmd.isMake] at hc
    | makeThrow body => simp [Cmd.isMake] at hc
    | ctorPtr h p T => exact hptr h p T s hs
    | ctorUnique h p T d =>
      have := hadopt h p T d (registerRoot h (setHandle h Handle.null s)) (by simpa using hs)
      simpa [exec] using this
    | assignUnique h p T d => exact hadopt h p T d s hs
    | resetPtr h p T => exact hadopt h p T _ s hs
    | resetPtrDel h p T d => exact hadopt h p T d s hs
    | _ => simpa [exec] using hs
  | hmake h t T body ih =>
    intro s hs
    rw [exec_make]
    have h1 : I (execs P body (setIsRoot false s)).nodes :=
      execs_induct P (R := fun s1 s2 => I s1.nodes → I s2.nodes)
        (fun _ h => h) (fun _ _ _ h12 h23 h => h23 (h12 h)) body ih (setIsRoot false s) hs
    exact hptr h (some t) T _ h1
  | hthrow body ih =>
    intro s hs
    rw [exec_makeThrow]
    exact execs_induct P (R := fun s1 s2 => I s1.nodes → I s2.nodes)
      (fun _ h => h) (fun _ _ _ h12 h23 h => h23 (h12 h)) body ih (setIsRoot false s) hs

theorem execs_nodes_invariant (P : Program) (I : List (Addr × PointerData) → Prop)
    (hins : ∀ ns a r, I ns → I (insertNode ns a r)) (cs : List Cmd) (s : GCState)
    (hs : I s.nodes) : I (execs P cs s).nodes :=
  execs_induct P (R := fun s1 s2 => I s1.nodes → I s2.nodes)
    (fun _ h => h) (fun _ _ _ h12 h23 h => h23 (h12 h)) cs
    (fun c _ s => exec_nodes_invariant P I hins c s) s hs

/-- Handle operations register a key at most once: it has a record from then on. -/
theorem registeredBy_nodup (P : Program) (cs : List Cmd) (s : GCState) :
    (registeredBy s (execs P cs s)).Nodup := by
  unfold registeredBy
  rw [List.nodup_reverse]
  refine execs_nodes_invariant P
    (fun ns => ((keys ns).filter (fun a => decide (a ∉ keys s.nodes))).Nodup) ?_ cs s ?_
  · intro ns a r hns
    by_cases ha : a ∈ keys ns
    · rw [insertNode_of_mem r ha]; exact hns
    · rw [insertNode_of_not_mem r ha]
      show (List.filter _ (a :: keys ns)).Nodup
      rw [List.filter_cons]
      split
      · refine List.nodup_cons.2 ⟨fun hm => ha (List.mem_filter.1 hm).1, hns⟩
      · exact hns
  · have : (keys s.nodes).filter (fun a => decide (a ∉ keys s.nodes)) = [] := by
      rw [List.filter_eq_nil_iff]
      intro a ha
      simpa using ha
    show ((keys s.nodes).filter (fun a => decide (a ∉ keys s.nodes))).Nodup
    rw [this]
    exact List.nodup_nil

theorem mem_registeredBy (s s1 : GCState) (a : Addr) :
    a ∈ registeredBy s s1 ↔ a ∈ keys s1.nodes ∧ a ∉ keys s.nodes := by
  unfold registeredBy
  simp

theorem recordCount_of_mem {s : GCState} {a : Addr} (h : a ∈ keys s.nodes) :
    recordCount s a = 1 := by
  unfold recordCount; rw [if_pos h]

theorem recordCount_of_not_mem {s : GCState} {a : Addr} (h : a ∉ keys s.nodes) :
    recordCount s a = 0 := by
  unfold recordCount; rw [if_neg h]

theorem recordCount_mark (P : Program) (s : GCState) (a : Addr) :
    recordCount (mark P s) a = recordCount s a := by
  unfold recordCount; rw [keys_mark]

/-- The call of a release strategy by the sweep loop, with the erasure that follows it: the key
of the call loses its record, and every other key has a record afterwards exactly when it had
one before or the call has registered it. -/
theorem deleteEntry_recordCount (P : Program) (r : PointerData) (k : Addr) (s : GCState)
    (hk : k ∈ keys s.nodes) (a : Addr) :
    (if k = a then 1 else 0) + recordCount (deleteEntry P r k s) a =
      recordCount s a +
        (registeredBy s (execs P (P.deletePointer r.operations.deleter k) s)).count a := by
  have hnd := registeredBy_nodup P (P.deletePointer r.operations.deleter k) s
  have hmem := mem_registeredBy s (execs P (P.deletePointer r.operations.deleter k) s) a
  have hle : ∀ x, x ∈ keys s.nodes →
      x ∈ keys (execs P (P.deletePointer r.operations.deleter k) s).nodes := by
    intro x hx
    rw [← findNode_isSome_iff] at hx
    cases hf : findNode s.nodes x with
    | none => rw [hf] at hx; cases hx
    | some rx => exact mem_keys_of_findNode (execs_nodesLe P _ s x rx hf)
  have hdel : a ∈ keys (deleteEntry P r k s).nodes ↔
      a ≠ k ∧ a ∈ keys (execs P (P.deletePointer r.operations.deleter k) s).nodes := by
    rw [deleteEntry_nodes, keys_eraseNode]
    simp [and_comm]
  by_cases hka : k = a
  · subst hka
    have h1 : k ∉ registeredBy s (execs P (P.deletePointer r.operations.deleter k) s) :=
      fun h => (hmem.1 h).2 hk
    rw [if_pos rfl, recordCount_of_not_mem (fun h => (hdel.1 h).1 rfl), recordCount_of_mem hk,
      List.count_eq_zero_of_not_mem h1]
  · rw [if_neg hka]
    have hak : a ≠ k := fun h => hka h.symm
    by_cases ha : a ∈ keys s.nodes
    · have h1 : a ∉ registeredBy s (execs P (P.deletePointer r.operations.deleter k) s) :=
        fun h => (hmem.1 h).2 ha
      rw [recordCount_of_mem (hdel.2 ⟨hak, hle a ha⟩), recordCount_of_mem ha,
        List.count_eq_zero_of_not_mem h1]
    · rw [recordCount_of_not_mem ha]
      by_cases hp : a ∈ keys (execs P (P.deletePointer r.operations.deleter k) s).nodes
      · rw [recordCount_of_mem (hdel.2 ⟨hak, hp⟩),
          List.count_eq_one_of_mem hnd (hmem.2 ⟨hp, ha⟩)]
      · have h1 : a ∉ registeredBy s (execs P (P.deletePointer r.operations.deleter k) s) :=
          fun h => hp (hmem.1 h).1
        rw [recordCount_of_not_mem (fun h => hp (hdel.1 h).2),
          List.count_eq_zero_of_not_mem h1]

theorem registeredIn_append (P : Program) (l1 l2 : List Run) :
    registeredIn P (l1 ++ l2) = registeredIn P l1 ++ registeredIn P l2 := by
  unfold registeredIn
  exact List.flatMap_append _ _ _

/-- The sweep loop: the calls on a key and the record it has at the end make up for the
record it had at the start and the registrations by the calls. -/
theorem sweepLive_conservation (P : Program) (a : Addr) (fuel : Nat) (todo : List Addr)
    (acc r : GCState × List Addr) (l : List Run)
    (h : sweepLive P fuel todo acc = some r) (hl : sweepLiveRuns P fuel todo acc = some l) :
    (l.map Run.key).count a + recordCount r.1 a =
      recordCount acc.1 a + (registeredIn P l).count a := by
  refine sweepLive_runs_induct P
    (fun acc l r => (l.map Run.key).count a + recordCount r.1 a =
      recordCount acc.1 a + (registeredIn P l).count a) ?_ ?_ fuel todo acc r l h hl
  · intro acc
    simp [registeredIn]
  · intro acc k l r ih
    rcases stepRun_cases P acc k with ⟨h1, h2, _⟩ | ⟨rec, hrec, _, h1, h2, _⟩
    · rw [h1, List.nil_append]
      rw [h2] at ih
      exact ih
    · rw [h2] at ih
      have hd := deleteEntry_recordCount P rec k acc.1 (mem_keys_of_findNode hrec) a
      have hreg : registeredIn P [⟨k, rec.operations.deleter, acc.1⟩] =
          registeredBy acc.1 (execs P (P.deletePointer rec.operations.deleter k) acc.1) := by
        simp [registeredIn, Run.registers, Run.post]
      rw [h1, registeredIn_append, hreg, List.map_append, List.count_append, List.count_append]
      simp only [List.map_cons, List.map_nil, List.count_cons, List.count_nil, beq_iff_eq,
        Nat.zero_add] at hd ⊢
      simp only at ih
      omega

/-- A call of `collect` that returns: for every key, the number of calls of release strategies
on the key plus the record it has at the end is the record it had at the start plus the number
of times the calls have registered it. -/
theorem collect_conservation (P : Program) (a : Addr) :
    ∀ (fuel : Nat) (s s2 : GCState) (log : List Addr) (runs : List Run),
      collect P fuel s = some (s2, log) → collectRuns P fuel s = some runs →
      (runs.map Run.key).count a + recordCount s2 a =
        recordCount s a + (registeredIn P runs).count a := by
  refine collect_runs_induct P
    (fun s runs s2 => (runs.map Run.key).count a + recordCount s2 a =
      recordCount s a + (registeredIn P runs).count a) ?_ ?_
  · intro s _
    simp [registeredIn, recordCount_mark]
  · intro s fuel r l s2 l2 hr hl _ ih
    have h1 := sweepLive_conservation P a _ _ _ r l hr hl
    rw [recordCount_mark] at h1
    rw [registeredIn_append, List.map_append, List.count_append, List.count_append]
    simp only at h1 ih
    omega

/-- Every call of a release strategy that the sweep loop makes is on a record that is unmarked
when the loop reaches it, with the release strategy of that record. -/
theorem sweepLive_runs_unmarked (P : Program) (fuel : Nat) (todo : List Addr)
    (acc r : GCState × List Addr) (l : List Run)
    (h : sweepLive P fuel todo acc = some r) (hl : sweepLiveRuns P fuel todo acc = some l) :
    ∀ e ∈ l, ∃ rec, findNode e.pre.nodes e.key = some rec ∧ rec.visited = false ∧
      e.deleter = rec.operations.deleter := by
  refine sweepLive_runs_induct P
    (fun _ l _ => ∀ e ∈ l, ∃ rec, findNode e.pre.nodes e.key = some rec ∧
      rec.visited = false ∧ e.deleter = rec.operations.deleter) ?_ ?_ fuel todo acc r l h hl
  · intro _ e he
    cases he
  · intro acc k l r ih e he
    rcases List.mem_append.1 he with h1 | h1
    · rcases stepRun_cases P acc k with ⟨h2, _, _⟩ | ⟨rec, hrec, hv, h2, _, _⟩
      · rw [h2] at h1; cases h1
      · rw [h2, List.mem_singleton] at h1
        subst h1
        exact ⟨rec, hrec, hv, rfl⟩
    · exact ih e h1

theorem collect_runs_unmarked (P : Program) :
    ∀ (fuel : Nat) (s s2 : GCState) (log : List Addr) (runs : List Run),
      collect P fuel s = some (s2, log) → collectRuns P fuel s = some runs →
      ∀ e ∈ runs, ∃ rec, findNode e.pre.nodes e.key = some rec ∧ rec.visited = false ∧
        e.deleter = rec.operations.deleter := by
  refine collect_runs_induct P
    (fun _ runs _ => ∀ e ∈ runs, ∃ rec, findNode e.pre.nodes e.key = some rec ∧
      rec.visited = false ∧ e.deleter = rec.operations.deleter) ?_ ?_
  · intro _ _ e he
    cases he
  · intro s fuel r l s2 l2 hr hl _ ih e he
    rcases List.mem_append.1 he with h1 | h1
    · exact sweepLive_runs_unmarked P _ _ _ r l hr hl e h1
    · exact ih e h1

/-- A registered record that is unreachable when `collect` is called is destroyed by the first
round of the call. -/
theorem collect_destroys_unreachable (P : Program) (fuel : Nat) (s s2 : GCState)
    (log : List Addr) (hr : collect P fuel s = some (s2, log)) (a : Addr)
    (ha : a ∈ keys s.nodes) (hna : ¬ Reachable P s a) : a ∈ log := by
  have h1 := (mem_collectRound_log_iff P s a).2 ⟨ha, hna⟩
  cases fuel with
  | zero => cases hr
  | succ fuel =>
    rw [collect_succ] at hr
    cases hl : liveRound P fuel s with
    | none => rw [hl] at hr; cases hr
    | some r =>
      rw [hl] at hr
      obtain ⟨l, hpre⟩ := liveRound_log_prefix P fuel s r hl
      have har : a ∈ r.2 := by rw [hpre]; exact List.mem_append_left _ h1
      have hne : r.2 ≠ [] := List.ne_nil_of_mem har
      simp only [if_neg hne] at hr
      cases hc : collect P fuel r.1 with
      | none => rw [hc] at hr; cases hr
      | some x =>
        rw [hc] at hr
        cases hr
        exact List.mem_append_left _ har

/-- C3: no record is destroyed twice.  (1) An iteration of the sweep loop at an entry whose
record is unmarked calls the release strategy of that record on its key and erases the entry
in the same iteration, so that the key has no record when the iteration ends; at an entry
whose record is marked, or at a key without an entry, it calls nothing and changes nothing.
(2) In a call of `collect` that returns, over all its rounds: the keys destroyed are the keys
of the calls of release strategies; every call is on a record that is unmarked when the loop
reaches it, with the release strategy of that record; for every address, the number of calls
on it plus the record it has at return equals the record it had at the call plus the number of
times a release strategy has registered it during the call, so that every record is destroyed
at most once; and an address that no release strategy registers during the call is destroyed
at most once, and is destroyed exactly when it has left the registry.  (3) When no release
strategy registers an allocation the call returns, and no address is destroyed twice. -/
theorem destroyed_once (P : Program) :
    (∀ (acc : GCState × List Addr) (k : Addr),
        (∀ r, findNode acc.1.nodes k = some r → r.visited = false →
          sweepStep P acc k = (deleteEntry P r k acc.1, acc.2 ++ [k]) ∧
            stepRun acc k = [⟨k, r.operations.deleter, acc.1⟩] ∧
            k ∉ keys (sweepStep P acc k).1.nodes) ∧
        ((∀ r, findNode acc.1.nodes k = some r → r.visited = true) →
          sweepStep P acc k = acc ∧ stepRun acc k = [])) ∧
      (∀ fuel s s2 log runs, collect P fuel s = some (s2, log) →
        collectRuns P fuel s = some runs →
        log = runs.map Run.key ∧
          (∀ e ∈ runs, ∃ r, findNode e.pre.nodes e.key = some r ∧ r.visited = false ∧
            e.deleter = r.operations.deleter) ∧
          (∀ a, log.count a + recordCount s2 a =
            recordCount s a + (registeredIn P runs).count a) ∧
          (∀ a, a ∉ registeredIn P runs →
            log.count a ≤ 1 ∧ (a ∈ log ↔ a ∈ keys s.nodes ∧ a ∉ keys s2.nodes))) ∧
      (P.KeepsRegistry → ∀ s, ∃ s2 log, collect P (s.nodes.length + 1) s = some (s2, log) ∧
        log.Nodup ∧ ∀ a, a ∈ log ↔ a ∈ keys s.nodes ∧ a ∉ keys s2.nodes) := by
  refine ⟨fun acc k => ⟨fun r hr hv => ?_, fun hm => ?_⟩,
    fun fuel s s2 log runs hcol hruns => ?_, fun hP s => ?_⟩
  · have h1 : sweepStep P acc k = (deleteEntry P r k acc.1, acc.2 ++ [k]) :=
      sweepStep_unmarked hr hv
    refine ⟨h1, ?_, ?_⟩
    · unfold stepRun
      rw [hr]
      simp [hv]
    · rw [h1]
      exact not_mem_keys_deleteEntry P r k acc.1
  · rcases stepRun_cases P acc k with ⟨h1, h2, _⟩ | ⟨rec, hrec, hv, _, _, _⟩
    · exact ⟨h2, h1⟩
    · rw [hm rec hrec] at hv
      cases hv
  · obtain ⟨runs2, hruns2, hlog⟩ := collectRuns_of_collect P fuel s s2 log hcol
    rw [hruns] at hruns2
    cases hruns2
    have hcons : ∀ a, log.count a + recordCount s2 a =
        recordCount s a + (registeredIn P runs).count a := by
      intro a
      rw [hlog]
      exact collect_conservation P a fuel s s2 log runs hcol hruns
    refine ⟨hlog, collect_runs_unmarked P fuel s s2 log runs hcol hruns, hcons, fun a ha => ?_⟩
    have h1 := hcons a
    rw [List.count_eq_zero_of_not_mem ha] at h1
    have hpos : a ∈ log ↔ 0 < log.count a := List.count_pos_iff.symm
    unfold recordCount at h1
    refine ⟨?_, ?_⟩
    · split at h1 <;> split at h1 <;> omega
    · rw [hpos]
      constructor
      · intro hc
        refine ⟨?_, ?_⟩
        · by_contra hs
          rw [if_neg hs] at h1
          split at h1 <;> omega
        · intro hs2
          rw [if_pos hs2] at h1
          split at h1 <;> omega
      · rintro ⟨hs, hs2⟩
        rw [if_pos hs, if_neg hs2] at h1
        omega
  · obtain ⟨⟨s2, log⟩, hr⟩ := collect_returns P hP _ s (Nat.lt_succ_self _)
    obtain ⟨hnd, hmem, _⟩ := collect_log_of_keeps P hP _ s s2 log hr
    exact ⟨s2, log, hr, hnd, hmem⟩

/-- The instance of C3 at the state of `main.cpp` in front of its second `collect`: the call
destroys the objects at `20` and at `10`, each once, and leaves the registry empty. -/
theorem destroyed_once_witness :
    (collect mainProgram 3 mainState2).map (fun r => (r.2, keys r.1.nodes)) =
        some ([20, 10], []) ∧
      ∃ s2 log runs, collect mainProgram 3 mainState2 = some (s2, log) ∧
        collectRuns mainProgram 3 mainState2 = some runs ∧
        log = runs.map Run.key ∧
        (∀ e ∈ runs, ∃ r, findNode e.pre.nodes e.key = some r ∧ r.visited = false ∧
          e.deleter = r.operations.deleter) ∧
        (∀ a, log.count a + recordCount s2 a =
          recordCount mainState2 a + (registeredIn mainProgram runs).count a) ∧
        (∀ a, a ∉ registeredIn mainProgram runs →
          log.count a ≤ 1 ∧ (a ∈ log ↔ a ∈ keys mainState2.nodes ∧ a ∉ keys s2.nodes)) := by
  refine ⟨by decide, ?_⟩
  obtain ⟨⟨s2, log⟩, hr⟩ := collect_returns mainProgram mainProgram_keepsRegistry 3
    mainState2 (by decide)
  obtain ⟨runs, hruns, _⟩ := collectRuns_of_collect mainProgram 3 mainState2 s2 log hr
  exact ⟨s2, log, runs, hr, hruns,
    (destroyed_once mainProgram).2.1 3 mainState2 s2 log runs hr hruns⟩

/-- C6: cycle reclamation.  Let `A` and `B` be registered, with a traversed handle of each
referring to the other, while no root handle refers to `A` or `B` and no reachable record has a
traversed handle that refers to `A` or `B`.  Then neither is reachable, and the sweep loop of
the first round calls the release strategy of each.  In a call of `collect` that returns, both
are destroyed; for each of the two addresses the number of calls on it plus the record it has
at return is one plus the number of times a release strategy has registered the address
during the call, so that the record it had at the call is destroyed exactly once; and when no
release strategy registers the address during the call, the address is destroyed exactly once
and has no record at return.  When no release strategy registers an allocation the call
returns. -/
theorem cycle_reclaimed (P : Program) (s : GCState) (A B : Addr)
    (hA : A ∈ keys s.nodes) (hB : B ∈ keys s.nodes)
    (_hAB : edge P s.handles s.nodes A B) (_hBA : edge P s.handles s.nodes B A)
    (hroot : ∀ h ∈ s.roots,
      (s.handles h).ptr_data ≠ some A ∧ (s.handles h).ptr_data ≠ some B)
    (hreach : ∀ x, Reachable P s x →
      ¬ edge P s.handles s.nodes x A ∧ ¬ edge P s.handles s.nodes x B) :
    (¬ Reachable P s A ∧ ¬ Reachable P s B) ∧
      (A ∈ (collectRound P s).2 ∧ B ∈ (collectRound P s).2) ∧
      (∀ fuel s2 log runs, collect P fuel s = some (s2, log) →
        collectRuns P fuel s = some runs →
        A ∈ log ∧ B ∈ log ∧
          log.count A + recordCount s2 A = 1 + (registeredIn P runs).count A ∧
          log.count B + recordCount s2 B = 1 + (registeredIn P runs).count B ∧
          (A ∉ registeredIn P runs → log.count A = 1 ∧ A ∉ keys s2.nodes) ∧
          (B ∉ registeredIn P runs → log.count B = 1 ∧ B ∉ keys s2.nodes)) ∧
      (P.KeepsRegistry → ∃ s2 log, collect P (s.nodes.length + 1) s = some (s2, log) ∧
        log.count A = 1 ∧ log.count B = 1 ∧ A ∉ keys s2.nodes ∧ B ∉ keys s2.nodes) := by
  have hnA : ¬ Reachable P s A := by
    intro h
    cases h with
    | @root h _ hh ha _ => exact (hroot h hh).1 ha
    | @step x _ hx he _ => exact (hreach x hx).1 he
  have hnB : ¬ Reachable P s B := by
    intro h
    cases h with
    | @root h _ hh ha _ => exact (hroot h hh).2 ha
    | @step x _ hx he _ => exact (hreach x hx).2 he
  have hone : ∀ a, a ∈ keys s.nodes → ∀ fuel s2 log runs, collect P fuel s = some (s2, log) →
      collectRuns P fuel s = some runs → a ∈ log →
      log.count a + recordCount s2 a = 1 + (registeredIn P runs).count a ∧
        (a ∉ registeredIn P runs → log.count a = 1 ∧ a ∉ keys s2.nodes) := by
    intro a ha fuel s2 log runs hcol hruns hal
    obtain ⟨runs2, hruns2, hlog⟩ := collectRuns_of_collect P fuel s s2 log hcol
    rw [hruns] at hruns2
    cases hruns2
    have h1 := collect_conservation P a fuel s s2 log runs hcol hruns
    rw [← hlog, recordCount_of_mem ha] at h1
    refine ⟨h1, fun hreg => ?_⟩
    rw [List.count_eq_zero_of_not_mem hreg] at h1
    have h2 : 0 < log.count a := List.count_pos_iff.2 hal
    refine ⟨?_, fun hk => ?_⟩
    · unfold recordCount at h1
      split at h1 <;> omega
    · rw [recordCount_of_mem hk] at h1
      omega
  refine ⟨⟨hnA, hnB⟩,
    ⟨(mem_collectRound_log_iff P s A).2 ⟨hA, hnA⟩, (mem_collectRound_log_iff P s B).2 ⟨hB, hnB⟩⟩,
    fun fuel s2 log runs hcol hruns => ?_, fun hP => ?_⟩
  · have hAl := collect_destroys_unreachable P fuel s s2 log hcol A hA hnA
    have hBl := collect_destroys_unreachable P fuel s s2 log hcol B hB hnB
    obtain ⟨a1, a2⟩ := hone A hA fuel s2 log runs hcol hruns hAl
    obtain ⟨b1, b2⟩ := hone B hB fuel s2 log runs hcol hruns hBl
    exact ⟨hAl, hBl, a1, b1, a2, b2⟩
  · obtain ⟨⟨s2, log⟩, hr⟩ := collect_returns P hP _ s (Nat.lt_succ_self _)
    obtain ⟨hnd, hmem, _⟩ := collect_log_of_keeps P hP _ s s2 log hr
    have hAl := collect_destroys_unreachable P _ s s2 log hr A hA hnA
    have hBl := collect_destroys_unreachable P _ s s2 log hr B hB hnB
    exact ⟨s2, log, hr, List.count_eq_one_of_mem hnd hAl, List.count_eq_one_of_mem hnd hBl,
      ((hmem A).1 hAl).2, ((hmem B).1 hBl).2⟩

/-- The instance of C6 at the state of `main.cpp` in front of its second `collect`, with `A` at
`10` and `B` at `20`: the call returns, has destroyed each of the two exactly once, and neither
is registered at return. -/
theorem cycle_reclaimed_witness :
    (collect mainProgram 3 mainState2).map (fun r => (r.2, keys r.1.nodes)) =
        some ([20, 10], []) ∧
      ∃ s2 log, collect mainProgram (mainState2.nodes.length + 1) mainState2 = some (s2, log) ∧
        log.count 10 = 1 ∧ log.count 20 = 1 ∧ 10 ∉ keys s2.nodes ∧ 20 ∉ keys s2.nodes :=
  ⟨by decide,
    (cycle_reclaimed mainProgram mainState2 10 20 (by decide) (by decide)
      ⟨⟨10, true, ⟨0, 0⟩⟩, S.next 10, by decide, by decide, by decide⟩
      ⟨⟨20, true, ⟨0, 0⟩⟩, S.next 20, by decide, by decide, by decide⟩
      (by decide) (fun x hx => absurd hx (mainState2_unreachable x))).2.2.2
      mainProgram_keepsRegistry⟩


/-! ## Handle operations: release strategies, assignment, frame -/

/-- C13: move assignment transfers and nulls.  After `dst = std::move(src)`, for a destination
and a source that are two handles, the destination holds the target and the record reference
that the source held, the source holds null for both, and the root set and the registry are
unchanged; so are every other handle and the flag. -/
theorem move_assignment (P : Program) (s : GCState) (dst src : HandleId) (hne : dst ≠ src) :
    (exec P (.assignMove dst src) s).handles dst = s.handles src ∧
      (exec P (.assignMove dst src) s).handles src = Handle.null ∧
      (exec P (.assignMove dst src) s).roots = s.roots ∧
      (exec P (.assignMove dst src) s).nodes = s.nodes ∧
      (∀ x, x ≠ dst → x ≠ src → (exec P (.assignMove dst src) s).handles x = s.handles x) ∧
      (exec P (.assignMove dst src) s).is_root = s.is_root := by
  refine ⟨?_, ?_, rfl, rfl, fun x h1 h2 => ?_, rfl⟩
  · simp [exec, hne]
  · simp [exec]
  · simp [exec, h1, h2]

/-- The instance of C13 in the sample program: `s->next = GC::Ptr<S>::make("B")` move-assigns
the temporary `2`, which targets `20`, to the handle `next` of the object at `10`. -/
theorem move_assignment_witness :
    S.next 10 ≠ 2 ∧
      (exec mainProgram (.assignMove (S.next 10) 2)
        (execs mainProgram [Cmd.make 1 10 0 [Cmd.ctorDefault (S.next 10)],
          Cmd.make 2 20 0 [Cmd.ctorDefault (S.next 20)]] GCState.init)).handles (S.next 10) =
        ⟨some 20, some 20⟩ ∧
      (exec mainProgram (.assignMove (S.next 10) 2)
        (execs mainProgram [Cmd.make 1 10 0 [Cmd.ctorDefault (S.next 10)],
          Cmd.make 2 20 0 [Cmd.ctorDefault (S.next 20)]] GCState.init)).handles 2 =
        Handle.null :=
  ⟨by decide,
    ((move_assignment mainProgram _ (S.next 10) 2 (by decide)).1).trans (by decide),
    (move_assignment mainProgram _ (S.next 10) 2 (by decide)).2.1⟩

/-- C14, as stated, fails for the adoption of an exclusively-owned pointer: the object at `10`
was built outside the factory, so its handle `next` is a root; after the handle `1` is assigned
the pointer to the object, the handle `next` is no longer in the root set. -/
theorem assignment_strips_adopted_fields :
    (execs mainProgram [Cmd.ctorDefault (S.next 10), Cmd.ctorDefault 1] GCState.init).roots =
        [1, S.next 10] ∧
      (exec mainProgram (.assignUnique 1 (some 10) 0 0)
        (execs mainProgram [Cmd.ctorDefault (S.next 10), Cmd.ctorDefault 1]
          GCState.init)).roots = [1] := by
  decide

/-- C14 (amended): assignment and the root set.  Assignment from `nullptr`, by copy and by move
leaves the root set as it is.  After the assignment of an exclusively-owned pointer `p`, a
handle is in the root set exactly when it was before and, for a non-null `p`, the traversal of
the adopted object does not enumerate it. -/
theorem assignment_roots (P : Program) (s : GCState) (h r : HandleId) (p : Option Addr)
    (T : TypeId) (d : DeleterId) :
    (exec P (.assignNull h) s).roots = s.roots ∧
      (exec P (.assignCopy h r) s).roots = s.roots ∧
      (exec P (.assignMove h r) s).roots = s.roots ∧
      ∀ x, x ∈ (exec P (.assignUnique h p T d) s).roots ↔
        x ∈ s.roots ∧ ∀ a, p = some a → x ∉ P.visit T a :=
  ⟨rfl, rfl, rfl, fun x => mem_adopt_roots P h p T d s x⟩

theorem registerNode_congr {P Q : Program} (hPQ : SameTypes P Q) (a : Addr) (T : TypeId)
    (d : DeleterId) (s : GCState) : registerNode Q a T d s = registerNode P a T d s := by
  unfold registerNode
  rw [hPQ.1]

theorem adopt_congr {P Q : Program} (hPQ : SameTypes P Q) (h : HandleId) (p : Option Addr)
    (T : TypeId) (d : DeleterId) (s : GCState) : adopt Q h p T d s = adopt P h p T d s := by
  cases p with
  | none => rfl
  | some a => simp only [adopt, registerNode_congr hPQ]

theorem ptrCtor_congr {P Q : Program} (hPQ : SameTypes P Q) (h : HandleId) (p : Option Addr)
    (T : TypeId) (s : GCState) : ptrCtor Q h p T s = ptrCtor P h p T s := by
  unfold ptrCtor
  rw [adopt_congr hPQ, hPQ.2]

/-- A handle operation does the same under every choice of release strategies: it runs
none. -/
theorem exec_congr {P Q : Program} (hPQ : SameTypes P Q) : ∀ (c : Cmd) (s : GCState),
    exec Q c s = exec P c s := by
  intro c
  induction c using Cmd.induct with
  | hprim c hc =>
    intro s
    cases c with
    | make h t T body => simp [Cmd.isMake] at hc
    | makeThrow body => simp [Cmd.isMake] at hc
    | ctorPtr h p T => exact ptrCtor_congr hPQ h p T s
    | ctorUnique h p T d => simp only [exec, adopt_congr hPQ]
    | assignUnique h p T d => simp only [exec, adopt_congr hPQ]
    | resetPtr h p T => simp only [exec, adopt_congr hPQ, hPQ.2]
    | resetPtrDel h p T d => simp only [exec, adopt_congr hPQ]
    | _ => simp only [exec]
  | hmake h t T body ih =>
    intro s
    rw [exec_make, exec_make]
    have key : ∀ (cs : List Cmd), (∀ c ∈ cs, ∀ s, exec Q c s = exec P c s) →
        ∀ s, execs Q cs s = execs P cs s := by
      intro cs
      induction cs with
      | nil => intro _ s; rw [execs_nil, execs_nil]
      | cons c cs ihc =>
        intro hcs s
        rw [execs_cons, execs_cons, hcs c (List.mem_cons_self _ _),
          ihc (fun c2 hc2 => hcs c2 (List.mem_cons_of_mem _ hc2))]
    rw [key body ih, ptrCtor_congr hPQ]
  | hthrow body ih =>
    intro s
    rw [exec_makeThrow, exec_makeThrow]
    have key : ∀ (cs : List Cmd), (∀ c ∈ cs, ∀ s, exec Q c s = exec P c s) →
        ∀ s, execs Q cs s = execs P cs s := by
      intro cs
      induction cs with
      | nil => intro _ s; rw [execs_nil, execs_nil]
      | cons c cs ihc =>
        intro hcs s
        rw [execs_cons, execs_cons, hcs c (List.mem_cons_self _ _),
          ihc (fun c2 hc2 => hcs c2 (List.mem_cons_of_mem _ hc2))]
    rw [key body ih]

/-- C15: handles never destroy.  For every handle operation (every constructor, assignment,
reset, swap, destruction of a handle, and call of the factory), the state after the operation
is the same under every choice of release strategies, so the operation runs none of them, and
every record that the registry holds before the operation is held unchanged, with the same
release strategy, after it.  The registry is shortened only by `eraseNode`, which only the
sweep of `collect` calls. -/
theorem handles_never_destroy (P : Program) (c : Cmd) (s : GCState) :
    (∀ Q, SameTypes P Q → exec Q c s = exec P c s) ∧
      (∀ a r, findNode s.nodes a = some r → findNode (exec P c s).nodes a = some r) ∧
      ∀ a, a ∈ keys s.nodes → a ∈ keys (exec P c s).nodes := by
  refine ⟨fun Q hPQ => exec_congr hPQ c s, exec_nodesLe P c s, fun a ha => ?_⟩
  rw [← findNode_isSome_iff] at ha
  cases hf : findNode s.nodes a with
  | none => rw [hf] at ha; cases ha
  | some r => exact mem_keys_of_findNode (exec_nodesLe P c s a r hf)


/-! ## What `collect` leaves alone -/

/-- A property of the state that does not depend on the registry and that every sequence of
handle operations keeps is kept by every iteration of the sweep loop. -/
theorem sweepStep_preserves (P : Program) (I : GCState → Prop)
    (hexec : ∀ cs s, I s → I (execs P cs s))
    (hnodes : ∀ s ns, I s → I ⟨ns, s.roots, s.is_root, s.handles⟩)
    (acc : GCState × List Addr) (k : Addr) (hI : I acc.1) : I (sweepStep P acc k).1 := by
  rcases sweepStep_cases P acc k with h1 | ⟨r, _, _, h1⟩
  · rw [h1]; exact hI
  · rw [h1]
    exact hnodes _ _ (hexec (P.deletePointer r.operations.deleter k) acc.1 hI)

/-- Such a property is kept by a call of `collect` that returns. -/
theorem collect_preserves (P : Program) (I : GCState → Prop)
    (hexec : ∀ cs s, I s → I (execs P cs s))
    (hnodes : ∀ s ns, I s → I ⟨ns, s.roots, s.is_root, s.handles⟩) :
    ∀ (fuel : Nat) (s s2 : GCState) (log : List Addr), I s →
      collect P fuel s = some (s2, log) → I s2 := by
  intro fuel s s2 log hI hc
  refine collect_induct P (fun s s2 _ => I s → I s2) ?_ ?_ fuel s s2 log hc hI
  · intro s _ h
    exact hnodes s _ h
  · intro s fuel r s2 l hr _ ih h
    exact ih (liveRound_invariant P (fun acc => I acc.1)
      (fun acc k => sweepStep_preserves P I hexec hnodes acc k) fuel s r (hnodes s _ h) hr)

theorem collectH_proj (P : Program) (fuel : Nat) (σ σ2 : GCState × History) (log : List Addr)
    (h : collectH P fuel σ = some (σ2, log)) : collect P fuel σ.1 = some (σ2.1, log) := by
  have := collectLoopH_proj P fuel σ []
  unfold collectH at h
  rw [h] at this
  exact this.symm

/-- Such a property holds in every state that the program reaches when it holds in the initial
state. -/
theorem reached_preserves (P : Program) (I : GCState → Prop) (h0 : I GCState.init)
    (hexec : ∀ c s, I s → I (exec P c s))
    (hnodes : ∀ s ns, I s → I ⟨ns, s.roots, s.is_root, s.handles⟩)
    (σ : GCState × History) (h : Reached P σ) : I σ.1 := by
  have hexecs : ∀ cs s, I s → I (execs P cs s) := fun cs s hs =>
    execs_induct P (R := fun s1 s2 => I s1 → I s2) (fun _ h => h)
      (fun _ _ _ h12 h23 h => h23 (h12 h)) cs (fun c _ s => hexec c s) s hs
  induction h with
  | init => exact h0
  | cmd c _ ih => rw [execH_fst]; exact hexec c _ ih
  | collect fuel _ hc ih =>
    exact collect_preserves P I hexecs hnodes fuel _ _ _ ih (collectH_proj P fuel _ _ _ hc)

/-! ## The flag `is_root` -/

/-- When the constructor exits by an exception the factory leaves the flag clear: the
statement that restores it is not reached. -/
theorem makeThrow_leaves_flag_clear (P : Program) (body : List Cmd) (s : GCState) :
    (exec P (.makeThrow body) s).is_root = false := by
  rw [exec_makeThrow]
  exact execs_is_root_false P body _ rfl

theorem mark_eq_of_eqUpToMarks (P : Program) (s1 s2 : GCState) (h : EqUpToMarks s1 s2) :
    mark P s1 = mark P s2 := by
  obtain ⟨h1, h2, h3, h4⟩ := h
  have e1 : mark P s1 = ⟨markRoots P s1.handles s1.roots (resetMarks s1.nodes), s1.roots,
      s1.is_root, s1.handles⟩ := rfl
  have e2 : mark P s2 = ⟨markRoots P s2.handles s2.roots (resetMarks s2.nodes), s2.roots,
      s2.is_root, s2.handles⟩ := rfl
  rw [e1, e2, h1, h2, h3, h4]

/-- C19: the mark bits are scratch state.  For two states that differ at most in the mark bits
of their records, the mark phase of `collect` produces the same state, and a call of `collect`
has the same outcome in both: it returns in one exactly when it returns in the other, with the
same keys destroyed in the same order and the same final state (registry, root set, flag,
handles). -/
theorem marks_are_scratch (P : Program) (s1 s2 : GCState) (h : EqUpToMarks s1 s2)
    (fuel : Nat) :
    mark P s1 = mark P s2 ∧ collectRound P s1 = collectRound P s2 ∧
      collect P fuel s1 = collect P fuel s2 := by
  have hm := mark_eq_of_eqUpToMarks P s1 s2 h
  have hr : collectRound P s1 = collectRound P s2 := by
    unfold collectRound; rw [hm]
  refine ⟨hm, hr, ?_⟩
  cases fuel with
  | zero => rfl
  | succ fuel =>
    have hl : liveRound P fuel s1 = liveRound P fuel s2 := by
      unfold liveRound; rw [hm]
    rw [collect_succ, collect_succ, hl]

/-- The instance of C19 at the state of `main.cpp` in front of its first `collect` and the
same state with every mark bit set. -/
theorem marks_are_scratch_witness :
    collect mainProgram 3 mainState = collect mainProgram 3 (mark mainProgram mainState) :=
  (marks_are_scratch mainProgram mainState (mark mainProgram mainState)
    ⟨by decide, rfl, rfl, rfl⟩ 3).2.2


/-! ## The mark bits after the mark phase -/

theorem marksByKey_resetMarks (ns : List (Addr × PointerData)) : MarksByKey (resetMarks ns) := by
  intro e he
  rw [isMarked_resetMarks]
  obtain ⟨e0, _, rfl⟩ := List.mem_map.1 he
  rfl

theorem isMarked_setVisited (ns : List (Addr × PointerData)) (a x : Addr) :
    isMarked (setVisited ns a true) x =
      if x = a then decide (a ∈ keys ns) else isMarked ns x := by
  unfold isMarked
  rw [findNode_setVisited]
  by_cases hx : x = a
  · subst hx
    cases hf : findNode ns x with
    | none => simp [(findNode_eq_none_iff _ _).1 hf]
    | some r => simp [mem_keys_of_findNode hf]
  · cases hf : findNode ns x <;> simp [hx]

theorem marksByKey_setVisited (ns : List (Addr × PointerData)) (a : Addr)
    (h : MarksByKey ns) : MarksByKey (setVisited ns a true) := by
  intro e he
  obtain ⟨e0, he0, rfl⟩ := List.mem_map.1 he
  by_cases hk : e0.1 = a
  · have hmem : a ∈ keys ns := hk ▸ List.mem_map_of_mem Prod.fst he0
    simp [hk, isMarked_setVisited, hmem]
  · simp only [if_neg hk, isMarked_setVisited]
    exact h e0 he0

theorem marksByKey_visit (P : Program) (hs : HandleId → Handle) :
    ∀ (fuel : Nat) (ns : List (Addr × PointerData)) (a : Addr), MarksByKey ns →
      MarksByKey (PointerData.visit P hs fuel ns a) := by
  intro fuel
  induction fuel with
  | zero => intro ns a h; exact h
  | succ fuel ih =>
    intro ns a h
    rw [visit_succ]
    cases hf : findNode ns a with
    | none => exact h
    | some r =>
      simp only
      by_cases hv : r.visited = true
      · rw [if_pos hv]; exact h
      · rw [if_neg hv]
        refine foldl_invariant MarksByKey _ _ _ (marksByKey_setVisited ns a h) ?_
        intro ns2 f _ h2
        cases (hs f).ptr_data with
        | none => exact h2
        | some b => exact ih ns2 b h2

theorem marksByKey_mark (P : Program) (s : GCState) : MarksByKey (mark P s).nodes := by
  show MarksByKey (markRoots P s.handles s.roots (resetMarks s.nodes))
  unfold markRoots
  refine foldl_invariant MarksByKey _ _ _ (marksByKey_resetMarks s.nodes) ?_
  intro ns2 f _ h2
  cases (s.handles f).ptr_data with
  | none => exact h2
  | some b => exact marksByKey_visit P s.handles _ ns2 b h2

theorem ext_eq_of_all_marked : ∀ (ns ms : List (Addr × PointerData)),
    Ext (resetMarks ns) ms → (∀ e ∈ ns, e.2.visited = true) → (∀ e ∈ ms, e.2.visited = true) →
    ms = ns := by
  intro ns
  induction ns with
  | nil =>
    intro ms h _ _
    cases h
    rfl
  | cons e ns ih =>
    intro ms h h1 h2
    cases h with
    | @cons _ m _ ms2 hem hrest =>
      obtain ⟨hk, hp, ho, _⟩ := hem
      have hv1 := h1 e (List.mem_cons_self _ _)
      have hv2 := h2 m (List.mem_cons_self _ _)
      have hm : m = e := by
        obtain ⟨mk, mr⟩ := m
        obtain ⟨ek, er⟩ := e
        obtain ⟨mp, mv, mo⟩ := mr
        obtain ⟨ep, ev, eo⟩ := er
        simp only at hk hp ho hv1 hv2
        subst hk hp ho hv1 hv2
        rfl
      rw [hm, ih ms2 hrest (fun x hx => h1 x (List.mem_cons_of_mem _ hx))
        (fun x hx => h2 x (List.mem_cons_of_mem _ hx))]

/-- The mark phase leaves a state as it is when every record is marked and reachable. -/
theorem mark_eq_self (P : Program) (s : GCState) (h1 : ∀ e ∈ s.nodes, e.2.visited = true)
    (h2 : ∀ a ∈ keys s.nodes, Reachable P s a) : mark P s = s := by
  have hn : (mark P s).nodes = s.nodes := by
    refine ext_eq_of_all_marked s.nodes _ (mark_ext P s) h1 (fun e he => ?_)
    rw [marksByKey_mark P s e he]
    refine (isMarked_mark_iff P s e.1).2 (h2 e.1 ?_)
    rw [← keys_mark P s]
    exact List.mem_map_of_mem Prod.fst he
  have e1 : mark P s = ⟨(mark P s).nodes, s.roots, s.is_root, s.handles⟩ := rfl
  rw [e1, hn]


/-! ## Targets and record references of the handles -/

theorem HandlesFrom.from_refl (s : GCState) : HandlesFrom s s :=
  ⟨NodesLe.nodes_refl _, fun x => Or.inr (Or.inl ⟨x, rfl⟩)⟩

theorem HandlesFrom.from_trans {s1 s2 s3 : GCState} (h12 : HandlesFrom s1 s2)
    (h23 : HandlesFrom s2 s3) : HandlesFrom s1 s3 := by
  refine ⟨NodesLe.nodes_trans h12.1 h23.1, fun x => ?_⟩
  rcases h23.2 x with h | ⟨r, h⟩ | h
  · exact Or.inl h
  · rcases h12.2 r with h2 | ⟨r2, h2⟩ | ⟨a, h2, ha⟩
    · exact Or.inl (h.trans h2)
    · exact Or.inr (Or.inl ⟨r2, h.trans h2⟩)
    · refine Or.inr (Or.inr ⟨a, h.trans h2, ?_⟩)
      obtain ⟨r0, hr0⟩ := Option.isSome_iff_exists.1 ((findNode_isSome_iff _ _).2 ha)
      exact mem_keys_of_findNode (h23.1 a r0 hr0)
  · exact Or.inr (Or.inr h)

theorem adopt_handles (P : Program) (h : HandleId) (p : Option Addr) (T : TypeId)
    (d : DeleterId) (s : GCState) (x : HandleId) :
    (adopt P h p T d s).handles x = if x = h then ⟨p, p⟩ else s.handles x := by
  cases p <;> simp [adopt, Handle.null]

theorem mem_keys_insertNode_self (ns : List (Addr × PointerData)) (a : Addr) (r : PointerData) :
    a ∈ keys (insertNode ns a r) := by
  rw [← findNode_isSome_iff, findNode_insertNode]
  cases findNode ns a <;> simp

theorem adopt_handlesFrom (P : Program) (h : HandleId) (p : Option Addr) (T : TypeId)
    (d : DeleterId) (s : GCState) : HandlesFrom s (adopt P h p T d s) := by
  refine ⟨adopt_nodesLe P h p T d s, fun x => ?_⟩
  rw [adopt_handles]
  by_cases hx : x = h
  · rw [if_pos hx]
    cases p with
    | none => exact Or.inl rfl
    | some a =>
      refine Or.inr (Or.inr ⟨a, rfl, ?_⟩)
      rw [adopt_nodes]
      exact mem_keys_insertNode_self _ _ _
  · rw [if_neg hx]
    exact Or.inr (Or.inl ⟨x, rfl⟩)

theorem ptrCtor_handlesFrom (P : Program) (h : HandleId) (p : Option Addr) (T : TypeId)
    (s : GCState) : HandlesFrom s (ptrCtor P h p T s) := by
  refine ⟨ptrCtor_nodesLe P h p T s, fun x => ?_⟩
  unfold ptrCtor
  rw [adopt_handles]
  by_cases hx : x = h
  · rw [if_pos hx]
    cases p with
    | none => exact Or.inl rfl
    | some a =>
      refine Or.inr (Or.inr ⟨a, rfl, ?_⟩)
      rw [adopt_nodes]
      exact mem_keys_insertNode_self _ _ _
  · rw [if_neg hx]
    refine Or.inr (Or.inl ⟨x, ?_⟩)
    simp [hx]

theorem handlesFrom_of_eq {s s2 : GCState} (hn : s2.nodes = s.nodes)
    (hh : s2.handles = s.handles) : HandlesFrom s s2 := by
  refine ⟨?_, fun x => Or.inr (Or.inl ⟨x, by rw [hh]⟩)⟩
  rw [hn]
  exact NodesLe.nodes_refl _

/-- Every handle operation leaves in each handle null, the value of a handle, or the reference
of a registered record. -/
theorem exec_handlesFrom (P : Program) : ∀ (c : Cmd) (s : GCState),
    HandlesFrom s (exec P c s) := by
  intro c
  induction c using Cmd.induct with
  | hprim c hc =>
    intro s
    cases c with
    | make h t T body => simp [Cmd.isMake] at hc
    | makeThrow body => simp [Cmd.isMake] at hc
    | ctorPtr h p T => exact ptrCtor_handlesFrom P h p T s
    | ctorUnique h p T d =>
      refine ⟨exec_nodesLe P _ s, fun x => ?_⟩
      have e : exec P (.ctorUnique h p T d) s =
          adopt P h p T d (registerRoot h (setHandle h Handle.null s)) := by simp [exec]
      rw [e, adopt_handles]
      by_cases hx : x = h
      · rw [if_pos hx]
        cases p with
        | none => exact Or.inl rfl
        | some a =>
          refine Or.inr (Or.inr ⟨a, rfl, ?_⟩)
          rw [adopt_nodes]
          exact mem_keys_insertNode_self _ _ _
      · rw [if_neg hx]
        exact Or.inr (Or.inl ⟨x, by simp [hx]⟩)
    | assignUnique h p T d => exact adopt_handlesFrom P h p T d s
    | resetPtr h p T => exact adopt_handlesFrom P h p T _ s
    | resetPtrDel h p T d => exact adopt_handlesFrom P h p T d s
    | ctorDefault h =>
      refine ⟨exec_nodesLe P _ s, fun x => ?_⟩
      by_cases hx : x = h
      · exact Or.inl (by simp [exec, hx])
      · exact Or.inr (Or.inl ⟨x, by simp [exec, hx]⟩)
    | ctorNull h =>
      refine ⟨exec_nodesLe P _ s, fun x => ?_⟩
      by_cases hx : x = h
      · exact Or.inl (by simp [exec, hx])
      · exact Or.inr (Or.inl ⟨x, by simp [exec, hx]⟩)
    | assignNull h =>
      refine ⟨exec_nodesLe P _ s, fun x => ?_⟩
      by_cases hx : x = h
      · exact Or.inl (by simp [exec, hx])
      · exact Or.inr (Or.inl ⟨x, by simp [exec, hx]⟩)
    | reset h =>
      refine ⟨exec_nodesLe P _ s, fun x => ?_⟩
      by_cases hx : x = h
      · exact Or.inl (by simp [exec, hx])
      · exact Or.inr (Or.inl ⟨x, by simp [exec, hx]⟩)
    | dtor h => exact handlesFrom_of_eq rfl rfl
    | ctorCopy h r =>
      refine ⟨exec_nodesLe P _ s, fun x => ?_⟩
      by_cases hx : x = h
      · exact Or.inr (Or.inl ⟨r, by simp [exec, hx]⟩)
      · exact Or.inr (Or.inl ⟨x, by simp [exec, hx]⟩)
    | assignCopy h r =>
      refine ⟨exec_nodesLe P _ s, fun x => ?_⟩
      by_cases hx : x = h
      · exact Or.inr (Or.inl ⟨r, by simp [exec, hx]⟩)
      · exact Or.inr (Or.inl ⟨x, by simp [exec, hx]⟩)
    | ctorMove h r =>
      refine ⟨exec_nodesLe P _ s, fun x => ?_⟩
      by_cases hr : x = r
      · exact Or.inl (by simp [exec, hr])
      · by_cases hx : x = h
        · subst hx
          exact Or.inr (Or.inl ⟨r, by simp [exec, hr]⟩)
        · exact Or.inr (Or.inl ⟨x, by simp [exec, hx, hr]⟩)
    | assignMove h r =>
      refine ⟨exec_nodesLe P _ s, fun x => ?_⟩
      by_cases hr : x = r
      · exact Or.inl (by simp [exec, hr])
      · by_cases hx : x = h
        · subst hx
          exact Or.inr (Or.inl ⟨r, by simp [exec, hr]⟩)
        · exact Or.inr (Or.inl ⟨x, by simp [exec, hx, hr]⟩)
    | swap h r =>
      refine ⟨exec_nodesLe P _ s, fun x => ?_⟩
      by_cases hr : x = r
      · exact Or.inr (Or.inl ⟨h, by simp [exec, hr]⟩)
      · by_cases hx : x = h
        · subst hx
          exact Or.inr (Or.inl ⟨r, by simp [exec, hr]⟩)
        · exact Or.inr (Or.inl ⟨x, by simp [exec, hx, hr]⟩)
  | hmake h t T body ih =>
    intro s
    rw [exec_make]
    have h1 : HandlesFrom s (setIsRoot false s) := handlesFrom_of_eq rfl rfl
    have h2 : HandlesFrom (setIsRoot false s) (execs P body (setIsRoot false s)) :=
      execs_induct P (R := HandlesFrom) HandlesFrom.from_refl
        (fun _ _ _ => HandlesFrom.from_trans) body (fun c hc s => ih c hc s) _
    have h3 : HandlesFrom (execs P body (setIsRoot false s))
        (setIsRoot s.is_root (execs P body (setIsRoot false s))) := handlesFrom_of_eq rfl rfl
    exact (h1.from_trans h2).from_trans (h3.from_trans (ptrCtor_handlesFrom P h (some t) T _))
  | hthrow body ih =>
    intro s
    rw [exec_makeThrow]
    have h1 : HandlesFrom s (setIsRoot false s) := handlesFrom_of_eq rfl rfl
    have h2 : HandlesFrom (setIsRoot false s) (execs P body (setIsRoot false s)) :=
      execs_induct P (R := HandlesFrom) HandlesFrom.from_refl
        (fun _ _ _ => HandlesFrom.from_trans) body (fun c hc s => ih c hc s) _
    exact h1.from_trans h2

theorem execs_handlesFrom (P : Program) (cs : List Cmd) (s : GCState) :
    HandlesFrom s (execs P cs s) :=
  execs_induct P (R := HandlesFrom) HandlesFrom.from_refl
    (fun _ _ _ => HandlesFrom.from_trans) cs (fun c _ s => exec_handlesFrom P c s) s

theorem HandlesFrom.agree {s s2 : GCState} (h : HandlesFrom s s2) (ha : Agree s) : Agree s2 := by
  intro x
  rcases h.2 x with h1 | ⟨r, h1⟩ | ⟨a, h1, _⟩
  · rw [h1]; rfl
  · rw [h1]; exact ha r
  · rw [h1]

theorem agree_init : Agree GCState.init := fun _ => rfl

theorem reached_agree (P : Program) (σ : GCState × History) (h : Reached P σ) : Agree σ.1 :=
  reached_preserves P Agree agree_init (fun c s hs => (exec_handlesFrom P c s).agree hs)
    (fun _ _ hs => hs) σ h

/-- A call of a release strategy that starts with every handle holding the same target and
record reference, and changes the target of no handle, changes no handle. -/
theorem run_handles_eq (P : Program) (e : Run) (ha : Agree e.pre)
    (hp : ∀ h, ((e.post P).handles h).ptr = (e.pre.handles h).ptr) :
    (e.post P).handles = e.pre.handles := by
  have ha2 : Agree (e.post P) := (execs_handlesFrom P _ e.pre).agree ha
  funext h
  have h1 := ha2 h
  have h2 := ha h
  have h3 := hp h
  cases hx : (e.post P).handles h with
  | mk p1 d1 =>
    cases hy : e.pre.handles h with
    | mk p2 d2 =>
      rw [hx] at h1 h3
      rw [hy] at h2 h3
      simp only at h1 h2 h3
      rw [← h1, ← h2, h3]

/-- An iteration of the sweep loop whose call, if it makes one, changes neither the root set
nor the target of a handle, changes neither the root set nor a handle. -/
theorem sweepStep_quiet (P : Program) (roots : List HandleId) (hs : HandleId → Handle)
    (acc : GCState × List Addr) (k : Addr)
    (hI : Agree acc.1 ∧ acc.1.roots = roots ∧ acc.1.handles = hs)
    (hQ : ∀ e ∈ stepRun acc k, (e.post P).roots = e.pre.roots ∧
      ∀ h, ((e.post P).handles h).ptr = (e.pre.handles h).ptr) :
    Agree (sweepStep P acc k).1 ∧ (sweepStep P acc k).1.roots = roots ∧
      (sweepStep P acc k).1.handles = hs := by
  rcases stepRun_cases P acc k with ⟨_, h2, _⟩ | ⟨rec, _, _, h1, h2, _⟩
  · rw [h2]; exact hI
  · obtain ⟨hq1, hq2⟩ := hQ ⟨k, rec.operations.deleter, acc.1⟩ (by rw [h1]; simp)
    have hh := run_handles_eq P ⟨k, rec.operations.deleter, acc.1⟩ hI.1 hq2
    have hroots : (deleteEntry P rec k acc.1).roots = acc.1.roots := by
      rw [deleteEntry_roots]; exact hq1
    have hhandles : (deleteEntry P rec k acc.1).handles = acc.1.handles := by
      rw [deleteEntry_handles]; exact hh
    rw [h2]
    refine ⟨fun h => ?_, hroots.trans hI.2.1, hhandles.trans hI.2.2⟩
    show ((deleteEntry P rec k acc.1).handles h).ptr = ((deleteEntry P rec k acc.1).handles h).ptr_data
    rw [hhandles]
    exact hI.1 h

/-- A round all of whose calls of release strategies leave the root set and the targets of the
handles alone keeps the root set, the handles, and what is reachable. -/
theorem liveRound_quiet (P : Program) (fuel : Nat) (s : GCState) (r : GCState × List Addr)
    (l : List Run) (h : liveRound P fuel s = some r) (hl : liveRoundRuns P fuel s = some l)
    (ha : Agree s)
    (hQ : ∀ e ∈ l, (e.post P).roots = e.pre.roots ∧
      ∀ h, ((e.post P).handles h).ptr = (e.pre.handles h).ptr) :
    Agree r.1 ∧ r.1.roots = s.roots ∧ r.1.handles = s.handles ∧
      ∀ a, Reachable P s a → Reachable P r.1 a := by
  have hI := sweepLive_runs_invariant P
    (fun acc => Agree acc.1 ∧ acc.1.roots = s.roots ∧ acc.1.handles = s.handles)
    (fun e => (e.post P).roots = e.pre.roots ∧
      ∀ h, ((e.post P).handles h).ptr = (e.pre.handles h).ptr)
    (fun acc k hI hQ => sweepStep_quiet P s.roots s.handles acc k hI hQ)
    _ _ _ r l h hl ⟨fun x => ha x, rfl, rfl⟩ hQ
  refine ⟨hI.1, hI.2.1, hI.2.2, fun a hra => ?_⟩
  refine @reachable_transfer P s r.1 hI.2.1 hI.2.2 ?_ a hra
  intro b hb r1 hr1
  rw [(liveRound_findNode_of_reachable P fuel s r h b hb).1]
  exact mark_findNode P s hr1

/-- A call of `collect` all of whose calls of release strategies leave the root set and the
targets of the handles alone keeps every record that is reachable when it is called. -/
theorem collect_reachable_quiet (P : Program) :
    ∀ (fuel : Nat) (s s2 : GCState) (log : List Addr) (runs : List Run),
      collect P fuel s = some (s2, log) → collectRuns P fuel s = some runs →
      Agree s →
      (∀ e ∈ runs, (e.post P).roots = e.pre.roots ∧
        ∀ h, ((e.post P).handles h).ptr = (e.pre.handles h).ptr) →
      ∀ a, Reachable P s a → a ∉ runs.map Run.key ∧ a ∈ keys s2.nodes ∧ Reachable P s2 a := by
  refine collect_runs_induct P
    (fun s runs s2 => Agree s →
      (∀ e ∈ runs, (e.post P).roots = e.pre.roots ∧
        ∀ h, ((e.post P).handles h).ptr = (e.pre.handles h).ptr) →
      ∀ a, Reachable P s a → a ∉ runs.map Run.key ∧ a ∈ keys s2.nodes ∧ Reachable P s2 a)
    ?_ ?_
  · intro s _ _ _ a ha
    refine ⟨by simp, ?_, (reachable_mark_iff P s a).2 ha⟩
    rw [keys_mark]
    exact reachable_mem_keys ha
  · intro s fuel r l s2 l2 hr hl _ ih hag hQ a ha
    obtain ⟨h1, _, _, h4⟩ := liveRound_quiet P fuel s r l hr hl hag
      (fun e he => hQ e (List.mem_append_left _ he))
    obtain ⟨i1, i2, i3⟩ := ih h1 (fun e he => hQ e (List.mem_append_right _ he)) a (h4 a ha)
    obtain ⟨l0, hl0, hlog⟩ := liveRoundRuns_of_liveRound P fuel s r hr
    rw [hl] at hl0
    cases hl0
    refine ⟨?_, i2, i3⟩
    rw [List.map_append, List.mem_append, ← hlog]
    rintro (h5 | h5)
    · exact (liveRound_findNode_of_reachable P fuel s r hr a ha).2 h5
    · exact i1 h5

/-- The destructor of the sample program changes neither the root set nor a handle when the
handle `next` of the object it destroys is not in the root set. -/
theorem mainProgram_run_quiet (e : Run) (h : S.next e.key ∉ e.pre.roots) :
    (e.post mainProgram).roots = e.pre.roots ∧ (e.post mainProgram).nodes = e.pre.nodes ∧
      ∀ x, ((e.post mainProgram).handles x).ptr = (e.pre.handles x).ptr := by
  have e1 : e.post mainProgram = removeRoot (S.next e.key) e.pre := by
    simp [Run.post, mainProgram, execs, exec]
  rw [e1]
  refine ⟨?_, rfl, fun _ => rfl⟩
  show e.pre.roots.filter _ = e.pre.roots
  rw [List.filter_eq_self]
  intro x hx
  simp only [decide_eq_true_eq]
  intro hxe
  exact h (hxe ▸ hx)

/-- C1, as stated, fails for a record that becomes reachable during the sweep of the round.
(1) The release strategy of the record at `0` constructs the root handle `9` from a pointer to
a new object at `2`; the sweep loop reaches the new entry in the same round and destroys the
record at `2`, in a state in which the root handle `9` refers to it.  (2) With two unreachable
records at `0` and `1` whose destructors each construct a root handle from a pointer to the
other object, the record that the loop reaches second is destroyed in a state in which a root
handle refers to it, in whichever order the loop reaches them. -/
theorem collect_destroys_late_root :
    ((collect lateRootProgram 3 lateRootState).map
          (fun r => (r.2, keys r.1.nodes, r.1.roots, (r.1.handles 9).ptr)) =
        some ([0, 2], [], [9], some 2) ∧
      ∃ runs e, collectRuns lateRootProgram 3 lateRootState = some runs ∧ e ∈ runs ∧
        e.key = 2 ∧ Reachable lateRootProgram e.pre 2) ∧
      ((collect resurrectProgram 3 (resurrectState 0 1)).map (fun r => r.2) = some [0, 1] ∧
        ∃ runs e, collectRuns resurrectProgram 3 (resurrectState 0 1) = some runs ∧ e ∈ runs ∧
          e.key = 1 ∧ Reachable resurrectProgram e.pre 1) ∧
      ((collect resurrectProgram 3 (resurrectState 1 0)).map (fun r => r.2) = some [1, 0] ∧
        ∃ runs e, collectRuns resurrectProgram 3 (resurrectState 1 0) = some runs ∧ e ∈ runs ∧
          e.key = 0 ∧ Reachable resurrectProgram e.pre 0) := by
  refine ⟨⟨by decide, ?_⟩, ⟨by decide, ?_⟩, ⟨by decide, ?_⟩⟩
  · refine ⟨[⟨0, 1, mark lateRootProgram lateRootState⟩,
        ⟨2, 0, deleteEntry lateRootProgram (record 0 0 1) 0
          (mark lateRootProgram lateRootState)⟩],
      ⟨2, 0, deleteEntry lateRootProgram (record 0 0 1) 0
        (mark lateRootProgram lateRootState)⟩, rfl, by simp, rfl, ?_⟩
    exact @Reachable.root _ _ 9 2 (by decide) (by decide) (by decide)
  · refine ⟨[⟨0, 0, mark resurrectProgram (resurrectState 0 1)⟩,
        ⟨1, 0, deleteEntry resurrectProgram (record 0 0 0) 0
          (mark resurrectProgram (resurrectState 0 1))⟩],
      ⟨1, 0, deleteEntry resurrectProgram (record 0 0 0) 0
        (mark resurrectProgram (resurrectState 0 1))⟩, rfl, by simp, rfl, ?_⟩
    exact @Reachable.root _ _ 8 1 (by decide) (by decide) (by decide)
  · refine ⟨[⟨1, 0, mark resurrectProgram (resurrectState 1 0)⟩,
        ⟨0, 0, deleteEntry resurrectProgram (record 1 0 0) 1
          (mark resurrectProgram (resurrectState 1 0))⟩],
      ⟨0, 0, deleteEntry resurrectProgram (record 1 0 0) 1
        (mark resurrectProgram (resurrectState 1 0))⟩, rfl, by simp, rfl, ?_⟩
    exact @Reachable.root _ _ 9 0 (by decide) (by decide) (by decide)

/-- C1 (amended): `collect` never destroys an allocation that is reachable when the round
marks.  (1) For every state, no round of `collect` calls a release strategy on, or removes from
the registry, a record that is reachable from the root set when the mark phase of the round
runs: the record stays in the registry, unchanged.  (2) For every state that the program
reaches, when the calls of release strategies that `collect` makes leave the root set and the
target of every handle unchanged, every record reachable when `collect` is called has not been
destroyed, is in the registry and is reachable when `collect` returns. -/
theorem collect_never_destroys_reachable (P : Program) :
    (∀ s fuel r, liveRound P fuel s = some r → ∀ a, Reachable P s a →
        a ∉ r.2 ∧ a ∈ keys r.1.nodes ∧
          findNode r.1.nodes a = findNode (mark P s).nodes a) ∧
      (∀ σ, Reached P σ → ∀ fuel s2 log runs, collect P fuel σ.1 = some (s2, log) →
        collectRuns P fuel σ.1 = some runs →
        (∀ e ∈ runs, (e.post P).roots = e.pre.roots ∧
          ∀ h, ((e.post P).handles h).ptr = (e.pre.handles h).ptr) →
        ∀ a, Reachable P σ.1 a → a ∉ log ∧ a ∈ keys s2.nodes ∧ Reachable P s2 a) := by
  refine ⟨fun s fuel r hr a ha => ?_, fun σ hσ fuel s2 log runs hcol hruns hQ a ha => ?_⟩
  · obtain ⟨h1, h2⟩ := liveRound_findNode_of_reachable P fuel s r hr a ha
    refine ⟨h2, ?_, h1⟩
    rw [← findNode_isSome_iff, h1, findNode_isSome_iff, keys_mark]
    exact reachable_mem_keys ha
  · obtain ⟨runs2, hruns2, hlog⟩ := collectRuns_of_collect P fuel σ.1 s2 log hcol
    rw [hruns] at hruns2
    cases hruns2
    rw [hlog]
    exact collect_reachable_quiet P fuel σ.1 s2 log runs hcol hruns (reached_agree P σ hσ) hQ
      a ha

/-- The instance of C1 (amended) in the sample program, with a third object at `30` that no
handle refers to: `collect` destroys the object at `30`, whose destructor changes neither the
root set nor a handle, and the objects at `10` and `20`, reachable at the call, are registered
and reachable at the return. -/
theorem collect_never_destroys_reachable_witness :
    (collect mainProgram 4 mainStateGarbage).map (fun r => (r.2, keys r.1.nodes)) =
        some ([30], [20, 10]) ∧
      ∃ s2 log, collect mainProgram 4 mainStateGarbage = some (s2, log) ∧
        ∀ a, Reachable mainProgram mainStateGarbage a →
          a ∉ log ∧ a ∈ keys s2.nodes ∧ Reachable mainProgram s2 a := by
  refine ⟨by decide, ?_⟩
  obtain ⟨⟨s2, log⟩, hr⟩ := collect_returns mainProgram mainProgram_keepsRegistry 4
    mainStateGarbage (by decide)
  obtain ⟨runs, hruns, _⟩ := collectRuns_of_collect mainProgram 4 mainStateGarbage s2 log hr
  have hall : (collectRuns mainProgram 4 mainStateGarbage).map
      (fun l => l.all (fun e => decide (S.next e.key ∉ e.pre.roots))) = some true := by decide
  rw [hruns] at hall
  simp only [Option.map_some', Option.some.injEq, List.all_eq_true, decide_eq_true_eq] at hall
  have hst : (execsH mainProgram
      (mainBuild ++ [Cmd.make 3 30 0 [Cmd.ctorDefault (S.next 30)], Cmd.assignNull 3])
      (GCState.init, ⟨[], []⟩)).1 = mainStateGarbage := execsH_fst _ _ _
  have key := (collect_never_destroys_reachable mainProgram).2 _
    (reached_execsH mainProgram
      (mainBuild ++ [Cmd.make 3 30 0 [Cmd.ctorDefault (S.next 30)], Cmd.assignNull 3]) _
      Reached.init) 4 s2 log runs (by rw [hst]; exact hr) (by rw [hst]; exact hruns)
    (fun e he => ⟨(mainProgram_run_quiet e (hall e he)).1,
      (mainProgram_run_quiet e (hall e he)).2.2⟩)
  rw [hst] at key
  exact ⟨s2, log, hr, key⟩

/-! ## One pass -/

/-- When the calls of release strategies made by the loop over the entries present at its start
leave the registry alone, the sweep loop ends with these entries and makes these calls. -/
theorem sweepLive_of_runs_keep (P : Program) :
    ∀ (ks : List Addr) (fuel : Nat) (acc : GCState × List Addr), ks.length ≤ fuel →
      (∀ e ∈ sweepRuns P ks acc, (e.post P).nodes = e.pre.nodes) →
      sweepLive P fuel ks acc = some (ks.foldl (sweepStep P) acc) ∧
        sweepLiveRuns P fuel ks acc = some (sweepRuns P ks acc) := by
  intro ks
  induction ks with
  | nil =>
    intro fuel acc _ _
    exact ⟨sweepLive_nil P fuel acc, sweepLiveRuns_nil P fuel acc⟩
  | cons k ks ih =>
    intro fuel acc hlen hQ
    cases fuel with
    | zero => simp at hlen
    | succ fuel =>
      have hrest : ∀ e ∈ sweepRuns P ks (sweepStep P acc k), (e.post P).nodes = e.pre.nodes :=
        fun e he => hQ e (List.mem_append_right _ he)
      have hA : stepAhead P acc k = [] := by
        rcases stepRun_cases P acc k with ⟨_, _, h3⟩ | ⟨rec, _, _, h1, _, h3⟩
        · exact h3
        · have hq := hQ ⟨k, rec.operations.deleter, acc.1⟩
            (List.mem_append_left _ (by rw [h1]; simp))
          rw [h3]
          unfold Run.registers
          rw [registeredBy_of_nodes_eq hq]
          rfl
      obtain ⟨i1, i2⟩ := ih fuel (sweepStep P acc k) (by simpa using hlen) hrest
      refine ⟨?_, ?_⟩
      · rw [sweepLive_cons, hA, List.append_nil, i1]
        rfl
      · rw [sweepLiveRuns_cons, hA, List.append_nil, i2]
        rfl

/-- When the calls of release strategies made by the loop over the entries present at its start
change neither the root set, nor the registry, nor the target of a handle, the loop keeps the
root set and the handles, and erases from the registry the keys that it destroys. -/
theorem sweep_quiet (P : Program) (s : GCState) (ha : Agree s)
    (hQ : ∀ e ∈ sweepRuns P (keys s.nodes) (s, []),
      (e.post P).roots = e.pre.roots ∧ (e.post P).nodes = e.pre.nodes ∧
        ∀ h, ((e.post P).handles h).ptr = (e.pre.handles h).ptr) :
    (sweep P s).1.roots = s.roots ∧ (sweep P s).1.handles = s.handles ∧
      (sweep P s).1.nodes = s.nodes.filter (fun e => decide (e.1 ∉ (sweep P s).2)) := by
  have hI := sweep_runs_invariant P
    (fun acc => (Agree acc.1 ∧ acc.1.roots = s.roots ∧ acc.1.handles = s.handles) ∧
      acc.1.nodes = s.nodes.filter (fun e => decide (e.1 ∉ acc.2)))
    (fun e => (e.post P).roots = e.pre.roots ∧ (e.post P).nodes = e.pre.nodes ∧
        ∀ h, ((e.post P).handles h).ptr = (e.pre.handles h).ptr)
    ?_ (keys s.nodes) (s, []) ⟨⟨fun x => ha x, rfl, rfl⟩, by simp⟩ hQ
  · exact ⟨hI.1.2.1, hI.1.2.2, hI.2⟩
  · intro acc k hI hQ1
    refine ⟨sweepStep_quiet P s.roots s.handles acc k hI.1
      (fun e he => ⟨(hQ1 e he).1, (hQ1 e he).2.2⟩), ?_⟩
    rcases stepRun_cases P acc k with ⟨_, h2, _⟩ | ⟨rec, _, _, h1, h2, _⟩
    · rw [h2]; exact hI.2
    · have hq := (hQ1 ⟨k, rec.operations.deleter, acc.1⟩ (by rw [h1]; simp)).2.1
      have hn : (deleteEntry P rec k acc.1).nodes = eraseNode acc.1.nodes k := by
        rw [deleteEntry_nodes]
        exact congrArg (fun ns => eraseNode ns k) hq
      rw [h2]
      simp only [hn, eraseNode, hI.2, List.filter_filter]
      apply List.filter_congr
      intro e _
      simp [not_or, and_comm]

/-- In a state in which every handle holds the same target and record reference, when the calls
of release strategies by the sweep loop of the first round change neither the root set, nor
the registry, nor the target of a handle, `collect` is equal to a single pass of reset, mark
and sweep. -/
theorem one_pass_of_agree (P : Program) (s : GCState) (ha : Agree s)
    (hfree : ∀ e ∈ sweepRuns P (keys (mark P s).nodes) (mark P s, []),
      (e.post P).roots = e.pre.roots ∧ (e.post P).nodes = e.pre.nodes ∧
        ∀ h, ((e.post P).handles h).ptr = (e.pre.handles h).ptr) :
    (∀ fuel, liveRound P fuel s = some (collectRound P s)) ∧
      (∀ n, collect P (2 + n) s = some (collectRound P s)) ∧
      (∀ n, collectRuns P (2 + n) s =
        some (sweepRuns P (keys (mark P s).nodes) (mark P s, []))) ∧
      ((collectRound P s).2 = [] → collect P 1 s = some (collectRound P s)) ∧
      (collectRound P (collectRound P s).1).2 = [] ∧
      (collectRound P s).1.nodes = (mark P s).nodes.filter (fun e => e.2.visited) ∧
      (collectRound P s).1.roots = s.roots ∧
      (collectRound P s).1.handles = s.handles ∧
      ∀ a, a ∈ keys (collectRound P s).1.nodes ↔ isMarked (mark P s).nodes a = true := by
  obtain ⟨hroots, hhandles, hnodes⟩ := sweep_quiet P (mark P s) (fun x => ha x) hfree
  have hlive : ∀ fuel, liveRound P fuel s = some (collectRound P s) ∧
      liveRoundRuns P fuel s = some (sweepRuns P (keys (mark P s).nodes) (mark P s, [])) := by
    intro fuel
    exact sweepLive_of_runs_keep P _ _ _ (by simp [keys]) (fun e he => (hfree e he).2.1)
  have hmarked : (collectRound P s).1.nodes = (mark P s).nodes.filter (fun e => e.2.visited) := by
    show (sweep P (mark P s)).1.nodes = _
    rw [hnodes]
    apply List.filter_congr
    intro e he
    have hek : e.1 ∈ keys (mark P s).nodes := List.mem_map_of_mem Prod.fst he
    have hlog := mem_sweep_log_iff P (mark P s) e.1
    rw [marksByKey_mark P s e he]
    cases hv : isMarked (mark P s).nodes e.1 with
    | true =>
      have hnot : e.1 ∉ (sweep P (mark P s)).2 := fun hl => by
        have := (hlog.1 hl).2
        rw [hv] at this
        cases this
      simp [hnot]
    | false =>
      have hin : e.1 ∈ (sweep P (mark P s)).2 := hlog.2 ⟨hek, hv⟩
      simp [hin]
  have hiff : ∀ a, a ∈ keys (collectRound P s).1.nodes ↔ isMarked (mark P s).nodes a = true := by
    intro a
    rw [hmarked]
    constructor
    · intro h
      simp only [keys, List.mem_map, List.mem_filter] at h
      obtain ⟨e, ⟨he, hv⟩, rfl⟩ := h
      rw [← marksByKey_mark P s e he]
      exact hv
    · intro h
      obtain ⟨r, hr, hv⟩ := (isMarked_eq_true_iff _ _).1 h
      have hk : a ∈ keys (mark P s).nodes := mem_keys_of_findNode hr
      simp only [keys, List.mem_map] at hk
      obtain ⟨e, he, rfl⟩ := hk
      simp only [keys, List.mem_map, List.mem_filter]
      exact ⟨e, ⟨he, by rw [marksByKey_mark P s e he]; exact h⟩, rfl⟩
  have hreach : ∀ a ∈ keys (collectRound P s).1.nodes, Reachable P (collectRound P s).1 a := by
    intro a hk
    have hra : Reachable P s a := (isMarked_mark_iff P s a).1 ((hiff a).1 hk)
    refine @reachable_transfer P s (collectRound P s).1 hroots hhandles ?_ a hra
    intro b hb r1 hr1
    rw [collectRound_findNode_of_reachable P s b hb]
    exact mark_findNode P s hr1
  have h2nil : (collectRound P (collectRound P s).1).2 = [] := by
    apply List.eq_nil_iff_forall_not_mem.2
    intro k hk
    obtain ⟨hk1, hk2⟩ := (mem_collectRound_log_iff P _ k).1 hk
    exact hk2 (hreach k hk1)
  have hfix : mark P (collectRound P s).1 = (collectRound P s).1 := by
    refine mark_eq_self P _ (fun e he => ?_) hreach
    rw [hmarked] at he
    exact (List.mem_filter.1 he).2
  have h1 : (collectRound P s).2 = [] → collect P 1 s = some (collectRound P s) := by
    intro hnil
    have e : collectRound P s = (mark P s, []) :=
      Prod.ext (collectRound_eq_of_log_nil P s hnil) hnil
    rw [collect_of_round_nil P 0 s hnil, e]
  have hc : ∀ n, collect P (2 + n) s = some (collectRound P s) := by
    intro n
    by_cases hnil : (collectRound P s).2 = []
    · have e : collectRound P s = (mark P s, []) :=
        Prod.ext (collectRound_eq_of_log_nil P s hnil) hnil
      have := collect_of_round_nil P (1 + n) s hnil
      rw [show 2 + n = 1 + n + 1 by omega, this, e]
    · rw [show 2 + n = (n + 1) + 1 by omega,
        collect_of_round P (n + 1) s _ (hlive (n + 1)).1 hnil,
        collect_of_round_nil P n _ h2nil, hfix]
      simp
  have hruns : ∀ n, collectRuns P (2 + n) s =
      some (sweepRuns P (keys (mark P s).nodes) (mark P s, [])) := by
    intro n
    rw [show 2 + n = (n + 1) + 1 by omega, collectRuns_succ, (hlive (n + 1)).1,
      (hlive (n + 1)).2]
    simp only
    by_cases hnil : (collectRound P s).2 = []
    · rw [if_pos hnil]
    · rw [if_neg hnil, collectRuns_succ,
        liveRound_of_collectRound_nil P (collectRound P s).1 h2nil n]
      obtain ⟨l0, hl0, hlog⟩ := liveRoundRuns_of_liveRound P n (collectRound P s).1 _
        (liveRound_of_collectRound_nil P (collectRound P s).1 h2nil n)
      have hl00 : l0 = [] := by
        have : l0.map Run.key = [] := hlog.symm
        simpa using this
      rw [hl0, hl00]
      simp
  exact ⟨fun fuel => (hlive fuel).1, hc, hruns, h1, h2nil, hmarked, hroots, hhandles, hiff⟩

/-- C20: one pass reaches the fixpoint when destruction is free of side effects.  Take a state
that the program reaches, and let the calls of release strategies by the sweep loop of the
first round change neither the root set, nor the registry, nor the target of a handle.  Then
`collect` is equal to a single pass of reset, mark and sweep: the first round is the loop over
the entries present at its start; with any bound of at least two rounds the call returns the
state and the destroyed keys of the first round, and its calls of release strategies are those
of the first round; with a bound of one round it does so when the first round destroys
nothing; a second round destroys nothing; the registry at return is the registry after the
first mark phase restricted to the marked records, so that an address is registered at return
exactly when its record was marked in the first round; and root set and handles are those at
the call. -/
theorem one_pass_suffices (P : Program) (σ : GCState × History) (hσ : Reached P σ)
    (hfree : ∀ e ∈ sweepRuns P (keys (mark P σ.1).nodes) (mark P σ.1, []),
      (e.post P).roots = e.pre.roots ∧ (e.post P).nodes = e.pre.nodes ∧
        ∀ h, ((e.post P).handles h).ptr = (e.pre.handles h).ptr) :
    (∀ fuel, liveRound P fuel σ.1 = some (collectRound P σ.1)) ∧
      (∀ n, collect P (2 + n) σ.1 = some (collectRound P σ.1)) ∧
      (∀ n, collectRuns P (2 + n) σ.1 =
        some (sweepRuns P (keys (mark P σ.1).nodes) (mark P σ.1, []))) ∧
      ((collectRound P σ.1).2 = [] → collect P 1 σ.1 = some (collectRound P σ.1)) ∧
      (collectRound P (collectRound P σ.1).1).2 = [] ∧
      (collectRound P σ.1).1.nodes = (mark P σ.1).nodes.filter (fun e => e.2.visited) ∧
      (collectRound P σ.1).1.roots = σ.1.roots ∧
      (collectRound P σ.1).1.handles = σ.1.handles ∧
      ∀ a, a ∈ keys (collectRound P σ.1).1.nodes ↔ isMarked (mark P σ.1).nodes a = true :=
  one_pass_of_agree P σ.1 (reached_agree P σ hσ) hfree

/-- The instance of C20 in the sample program, with a third object at `30` that no handle refers
to: the destructor `~S` destroys the handle `next`, which is not in the root set, so the call
changes neither the root set, nor the registry, nor a handle; `collect` returns the outcome of
one round, which destroys the object at `30`, and a second round destroys nothing. -/
theorem one_pass_suffices_witness :
    (collect mainProgram 2 mainStateGarbage).map (fun r => (r.2, keys r.1.nodes)) =
        some ([30], [20, 10]) ∧
      collect mainProgram 2 mainStateGarbage =
        some (collectRound mainProgram mainStateGarbage) ∧
      (collectRound mainProgram (collectRound mainProgram mainStateGarbage).1).2 = [] := by
  have hst : (execsH mainProgram
      (mainBuild ++ [Cmd.make 3 30 0 [Cmd.ctorDefault (S.next 30)], Cmd.assignNull 3])
      (GCState.init, ⟨[], []⟩)).1 = mainStateGarbage := execsH_fst _ _ _
  have hall : (sweepRuns mainProgram (keys (mark mainProgram mainStateGarbage).nodes)
      (mark mainProgram mainStateGarbage, [])).all
      (fun e => decide (S.next e.key ∉ e.pre.roots)) = true := by decide
  simp only [List.all_eq_true, decide_eq_true_eq] at hall
  have key := one_pass_suffices mainProgram _
    (reached_execsH mainProgram
      (mainBuild ++ [Cmd.make 3 30 0 [Cmd.ctorDefault (S.next 30)], Cmd.assignNull 3]) _
      Reached.init)
    (by rw [hst]; exact fun e he => mainProgram_run_quiet e (hall e he))
  rw [hst] at key
  exact ⟨by decide, key.2.1 0, key.2.2.2.2.1⟩


end GC
